import Mathlib

/-!
# Gomoku: terminal detection, placement and adversarial search

A shallow embedding of `src/Gomoku/gomoku.cpp`.

* The global `int gomoku_board[15][15]` is a function `Int → Int → Int`; only
  the indices in `[0,14] × [0,14]` are cells of the array.  Cell values are
  `0` (Empty), `1` (player, Side A) and `-1` (AI, Side B).
* The globals `last_placed_row`, `last_placed_column` travel with the board in
  `State`.
* A read whose index the source does not keep inside the array
  (`check_valid_placement`, the run-counting loops of `assess_stone_*`) goes
  through `read_cell`, which is `none` outside the array: indexing outside the
  array has no defined result in C++.
  `check_battle_state` and `check_winner` index the board at the last move and
  around it under their own range tests; what is proved about them is meant
  for a last move inside the board.
* A function whose result is an `Option` returns `none` exactly when it has
  indexed outside the array; the search hands such a `none` on to its caller.
* `double` board values are kept exactly, as integers counting tenths
  (`10.0` is `100`, `0.1 * k` is `k`), in the evaluator and in the search.
  The program rounds every sum and product to binary64;
  `assess_board_value_double` is the evaluator with that rounding, and its
  result can differ from the exact one in the last place.  What is proved
  about values and about the cell the search chooses is proved for the exact
  values.  The states on which the search is shown to leave the array do so
  whatever the leaf values are (`calculate_ai_move_none`).
-/

namespace Gomoku

/-! ## Board model -/

/-- The array `gomoku_board`, indexed `gomoku_board row column`. -/
abbrev Board := Int → Int → Int

/-- The board together with the record of the last move. -/
structure State where
  gomoku_board : Board
  last_placed_row : Int
  last_placed_column : Int

/-- Indices that lie inside `gomoku_board[15][15]`. -/
def inBoard (row column : Int) : Prop :=
  0 ≤ row ∧ row ≤ 14 ∧ 0 ≤ column ∧ column ≤ 14

instance (row column : Int) : Decidable (inBoard row column) := by
  unfold inBoard; infer_instance

/-- The assignment `gomoku_board[row][column] = value`. -/
def set_cell (b : Board) (row column value : Int) : Board :=
  fun r c => if r = row ∧ c = column then value else b r c

/-- An array read that is only defined inside the array. -/
def read_cell (b : Board) (row column : Int) : Option Int :=
  if inBoard row column then some (b row column) else none

/-- The 225 cells in the order of the nested loops
`for row in 0..14, for column in 0..14` (row-major). -/
def all_cells : List (Int × Int) :=
  (List.range 15).flatMap fun (row : Nat) =>
    (List.range 15).map fun (column : Nat) => ((row : Int), (column : Int))

/-- State left by `initialize_battle`: every cell 0 and the last move unset. -/
def initialize_battle : State :=
  { gomoku_board := fun _ _ => 0, last_placed_row := -1, last_placed_column := -1 }

/-! ## Terminal-state detector -/

/-- The offsets visited by `for (offset {-4}; offset < 5; offset++)`. -/
def window_offsets : List Int := [-4, -3, -2, -1, 0, 1, 2, 3, 4]

/-- One axis loop of `check_battle_state` / `check_winner`.  `in_bounds offset`
is the loop's range test, `owned offset` the comparison with
`last_moved_player`; `total` is `total_adjacent_stones`.  The result is the
offset at which the counter equals 5, if the loop body ever sees that. -/
def scan_window (in_bounds owned : Int → Bool) : List Int → Int → Option Int
  | [], _ => none
  | offset :: rest, total =>
    let total' := if in_bounds offset then (if owned offset then total + 1 else 0) else total
    if total' = 5 then some offset else scan_window in_bounds owned rest total'

/-- Vertical loop: only the row index is range-tested. -/
def scan_vertical (s : State) : Option Int :=
  scan_window
    (fun offset => decide (s.last_placed_row + offset ≥ 0 ∧ s.last_placed_row + offset ≤ 14))
    (fun offset => decide (s.gomoku_board (s.last_placed_row + offset) s.last_placed_column
      = s.gomoku_board s.last_placed_row s.last_placed_column))
    window_offsets 0

/-- Horizontal loop: only the column index is range-tested. -/
def scan_horizontal (s : State) : Option Int :=
  scan_window
    (fun offset => decide (s.last_placed_column + offset ≥ 0 ∧ s.last_placed_column + offset ≤ 14))
    (fun offset => decide (s.gomoku_board s.last_placed_row (s.last_placed_column + offset)
      = s.gomoku_board s.last_placed_row s.last_placed_column))
    window_offsets 0

/-- Diagonal loop from top left to bottom right. -/
def scan_major_diagonal (s : State) : Option Int :=
  scan_window
    (fun offset => decide (s.last_placed_row + offset ≥ 0 ∧ s.last_placed_row + offset ≤ 14
      ∧ s.last_placed_column + offset ≥ 0 ∧ s.last_placed_column + offset ≤ 14))
    (fun offset => decide (s.gomoku_board (s.last_placed_row + offset) (s.last_placed_column + offset)
      = s.gomoku_board s.last_placed_row s.last_placed_column))
    window_offsets 0

/-- Diagonal loop from bottom left to top right. -/
def scan_minor_diagonal (s : State) : Option Int :=
  scan_window
    (fun offset => decide (s.last_placed_row - offset ≥ 0 ∧ s.last_placed_row - offset ≤ 14
      ∧ s.last_placed_column + offset ≥ 0 ∧ s.last_placed_column + offset ≤ 14))
    (fun offset => decide (s.gomoku_board (s.last_placed_row - offset) (s.last_placed_column + offset)
      = s.gomoku_board s.last_placed_row s.last_placed_column))
    window_offsets 0

/-- The last loop of `check_battle_state`: no cell of the board is 0. -/
def board_full (b : Board) : Bool :=
  all_cells.all fun cell => decide (b cell.1 cell.2 ≠ 0)

/-- `check_battle_state`: whether the battle is over. -/
def check_battle_state (s : State) : Bool :=
  if (scan_vertical s).isSome then true
  else if (scan_horizontal s).isSome then true
  else if (scan_major_diagonal s).isSome then true
  else if (scan_minor_diagonal s).isSome then true
  else board_full s.gomoku_board

/-- The four `highlight_winner_*` functions. -/
inductive Axis where
  | vertical
  | horizontal
  | major_diagonal
  | minor_diagonal
  deriving DecidableEq

/-- A call `highlight_winner_<axis>(end_row, end_column)`. -/
structure Highlight where
  axis : Axis
  end_row : Int
  end_column : Int
  deriving DecidableEq

/-- `check_winner`, with the highlighter call it makes next to the value it
returns (1 = player, -1 = AI, 0 = tie). -/
def check_winner_call (s : State) : Int × Option Highlight :=
  let last_moved_player := s.gomoku_board s.last_placed_row s.last_placed_column
  match scan_vertical s with
  | some offset =>
    (last_moved_player, some ⟨Axis.vertical, s.last_placed_row + offset, s.last_placed_column⟩)
  | none =>
  match scan_horizontal s with
  | some offset =>
    (last_moved_player, some ⟨Axis.horizontal, s.last_placed_row, s.last_placed_column + offset⟩)
  | none =>
  match scan_major_diagonal s with
  | some offset =>
    (last_moved_player,
      some ⟨Axis.major_diagonal, s.last_placed_row + offset, s.last_placed_column + offset⟩)
  | none =>
  match scan_minor_diagonal s with
  | some offset =>
    (last_moved_player,
      some ⟨Axis.minor_diagonal, s.last_placed_row - offset, s.last_placed_column + offset⟩)
  | none => (0, none)

/-- The value returned by `check_winner`. -/
def check_winner (s : State) : Int := (check_winner_call s).1

/-- The cells visited by the loop `for (offset {0}; offset > -5; offset--)` of
the highlighter that `h` names. -/
def highlight_cells (h : Highlight) : List (Int × Int) :=
  [0, -1, -2, -3, -4].map fun offset : Int =>
    match h.axis with
    | Axis.vertical => (h.end_row + offset, h.end_column)
    | Axis.horizontal => (h.end_row, h.end_column + offset)
    | Axis.major_diagonal => (h.end_row + offset, h.end_column + offset)
    | Axis.minor_diagonal => (h.end_row - offset, h.end_column + offset)

/-! ## Specification vocabulary for the terminal detector -/

/-- Along the axis with step `(dr, dc)` through `(row, column)` there are five
consecutive cells, all inside the board and all holding `side`, one of which
is `(row, column)`: the window ends `k` steps after `(row, column)`. -/
def FiveThrough (b : Board) (row column dr dc side : Int) : Prop :=
  ∃ k : Fin 5, ∀ j : Fin 5,
    inBoard (row + ((k : Int) - (j : Int)) * dr) (column + ((k : Int) - (j : Int)) * dc)
      ∧ b (row + ((k : Int) - (j : Int)) * dr) (column + ((k : Int) - (j : Int)) * dc) = side

instance (b : Board) (row column dr dc side : Int) :
    Decidable (FiveThrough b row column dr dc side) := by
  unfold FiveThrough; infer_instance

/-- The last mover has five in a row through the last move on the given axis. -/
def AxisWin (s : State) (dr dc : Int) : Prop :=
  FiveThrough s.gomoku_board s.last_placed_row s.last_placed_column dr dc
    (s.gomoku_board s.last_placed_row s.last_placed_column)

instance (s : State) (dr dc : Int) : Decidable (AxisWin s dr dc) := by
  unfold AxisWin; infer_instance

/-- No cell of the board is Empty. -/
def NoEmptyCell (b : Board) : Prop :=
  ∀ row column : Int, inBoard row column → b row column ≠ 0

/-- The last move is a pair of indices inside the board. -/
def LastMoveInRange (s : State) : Prop :=
  inBoard s.last_placed_row s.last_placed_column

instance (s : State) : Decidable (LastMoveInRange s) := by
  unfold LastMoveInRange; infer_instance

/-! ## What an axis loop must deliver -/

/-- What an axis loop must deliver, `t` giving the status of each offset: `none`
out of range, `some true` a cell of the last mover, `some false` another cell. -/
def ScanOutcome (t : Int → Option Bool) (res : Option Int) : Prop :=
  match res with
  | some offset => 0 ≤ offset ∧ offset ≤ 4 ∧ ∀ j : Fin 5, t (offset - (j : Int)) = some true
  | none => ∀ k : Fin 5, ∃ j : Fin 5, t ((k : Int) - (j : Int)) ≠ some true

instance (t : Int → Option Bool) (res : Option Int) : Decidable (ScanOutcome t res) := by
  unfold ScanOutcome; cases res <;> infer_instance

/-! ## Player placement -/

/-- The fields of `INPUT_RECORD` that `check_valid_placement` reads. -/
structure InputRecord where
  EventType : Nat
  dwEventFlags : Nat
  dwButtonState : Nat
  X : Int
  Y : Int

/-- Windows console constant `MOUSE_EVENT`. -/
def MOUSE_EVENT : Nat := 2

/-- Windows console constant `FROM_LEFT_1ST_BUTTON_PRESSED`. -/
def FROM_LEFT_1ST_BUTTON_PRESSED : Nat := 1

/-- The reference parameters `ref_character_position_of_click`,
`ref_placed_row` and `ref_placed_column`. -/
structure Placement where
  click_X : Int
  click_Y : Int
  placed_row : Int
  placed_column : Int
  deriving DecidableEq

/-- The guards of `check_valid_placement` before the board is read: the
`(clicked_row, clicked_column)` computed from the click when they all pass. -/
def clicked_cell (input_record : InputRecord) : Option (Int × Int) :=
  if input_record.EventType = MOUSE_EVENT then
    if input_record.dwEventFlags = 0 ∧ input_record.dwButtonState = FROM_LEFT_1ST_BUTTON_PRESSED then
      if input_record.X ≥ 15 ∧ input_record.X ≤ 71 ∧ input_record.Y ≥ 2 ∧ input_record.Y ≤ 35 then
        if (input_record.X - 15) % 4 = 0 ∧ (input_record.Y - 2) % 2 = 0 then
          some ((input_record.Y - 2) / 2, (input_record.X - 15) / 4)
        else none
      else none
    else none
  else none

/-- `check_valid_placement`: the returned flag and the reference parameters
after the call.  The result is `none` when the board is indexed outside the
array. -/
def check_valid_placement (b : Board) (input_record : InputRecord) (out : Placement) :
    Option (Bool × Placement) :=
  match clicked_cell input_record with
  | none => some (false, out)
  | some (clicked_row, clicked_column) =>
    match read_cell b clicked_row clicked_column with
    | none => none
    | some v =>
      if v = 0 then
        some (true, { click_X := input_record.X, click_Y := input_record.Y,
                      placed_row := clicked_row, placed_column := clicked_column })
      else some (false, out)

/-! ## Adjacency filter -/

/-- `check_neighbors`: the eight guarded tests in source order. -/
def check_neighbors (b : Board) (row column : Int) : Bool :=
  if (row - 1 ≥ 0 ∧ column - 1 ≥ 0) ∧ b (row - 1) (column - 1) ≠ 0 then true
  else if row - 1 ≥ 0 ∧ b (row - 1) column ≠ 0 then true
  else if (row - 1 ≥ 0 ∧ column + 1 ≤ 14) ∧ b (row - 1) (column + 1) ≠ 0 then true
  else if column - 1 ≥ 0 ∧ b row (column - 1) ≠ 0 then true
  else if column + 1 ≤ 14 ∧ b row (column + 1) ≠ 0 then true
  else if (row + 1 ≤ 14 ∧ column - 1 ≥ 0) ∧ b (row + 1) (column - 1) ≠ 0 then true
  else if row + 1 ≤ 14 ∧ b (row + 1) column ≠ 0 then true
  else if (row + 1 ≤ 14 ∧ column + 1 ≤ 14) ∧ b (row + 1) (column + 1) ≠ 0 then true
  else false

/-! ## Static evaluator -/

/-- First loop of an `assess_stone_*` function: `total` is
`total_extendable_points`, `(r, c)` the cell under test, `in_range` the
function's own range test and `(dr, dc)` its step.  The loop stops after at
most four rounds because of its test `total_extendable_points < 4`. -/
def count_extendable (b : Board) (in_range : Int → Int → Bool) (dr dc stone : Int) :
    Nat → Int → Int → Int → Int
  | 0, _, _, total => total
  | rounds + 1, r, c, total =>
    if in_range r c = true ∧ b r c ≠ -stone ∧ total < 4 then
      count_extendable b in_range dr dc stone rounds (r + dr) (c + dc) (total + 1)
    else total

/-- Second loop of an `assess_stone_*` function: it multiplies `value` by 10
for every cell equal to the stone and has no range test, so the read is
`read_cell`.  A walk that starts next to a cell of the board leaves the board
within 15 steps, which is the bound on the rounds. -/
def count_run (b : Board) (dr dc stone : Int) : Nat → Int → Int → Int → Option Int
  | 0, _, _, _ => none
  | rounds + 1, r, c, value =>
    match read_cell b r c with
    | none => none
    | some v =>
      if v = stone then count_run b dr dc stone rounds (r + dr) (c + dc) (value * 10)
      else some value

/-- Common shape of the eight `assess_stone_*` functions. -/
def assess_stone (b : Board) (in_range : Int → Int → Bool) (dr dc row column : Int) :
    Option Int :=
  if count_extendable b in_range dr dc (b row column) 4 (row + dr) (column + dc) 0 < 4 then
    some 0
  else count_run b dr dc (b row column) 15 (row + dr) (column + dc) 100

/-- Towards the top: range test `r >= 0`, one row up per step. -/
def assess_stone_top (b : Board) (row column : Int) : Option Int :=
  assess_stone b (fun r _ => decide (r ≥ 0)) (-1) 0 row column

/-- Towards the bottom: range test `r <= 14`, one row down per step. -/
def assess_stone_bottom (b : Board) (row column : Int) : Option Int :=
  assess_stone b (fun r _ => decide (r ≤ 14)) 1 0 row column

/-- Towards the left: range test `c >= 0`, one column left per step. -/
def assess_stone_left (b : Board) (row column : Int) : Option Int :=
  assess_stone b (fun _ c => decide (c ≥ 0)) 0 (-1) row column

/-- Towards the right: range test `c <= 14`, one column right per step. -/
def assess_stone_right (b : Board) (row column : Int) : Option Int :=
  assess_stone b (fun _ c => decide (c ≤ 14)) 0 1 row column

/-- Towards the top left: range test `r >= 0 && c >= 0`. -/
def assess_stone_top_left (b : Board) (row column : Int) : Option Int :=
  assess_stone b (fun r c => decide (r ≥ 0 ∧ c ≥ 0)) (-1) (-1) row column

/-- Towards the top right: range test `r >= 0 && c <= 14`. -/
def assess_stone_top_right (b : Board) (row column : Int) : Option Int :=
  assess_stone b (fun r c => decide (r ≥ 0 ∧ c ≤ 14)) (-1) 1 row column

/-- Towards the bottom left: range test `r <= 14 && c >= 0`. -/
def assess_stone_bottom_left (b : Board) (row column : Int) : Option Int :=
  assess_stone b (fun r c => decide (r ≤ 14 ∧ c ≥ 0)) 1 (-1) row column

/-- Towards the bottom right: range test `r <= 14 && c <= 14`. -/
def assess_stone_bottom_right (b : Board) (row column : Int) : Option Int :=
  assess_stone b (fun r c => decide (r ≤ 14 ∧ c ≤ 14)) 1 1 row column

/-- Body of the inner `if` of `assess_board_value` for one occupied cell: the
value added to `board_value`, in tenths. -/
def stone_value (b : Board) (row column : Int) : Option Int :=
  match assess_stone_top b row column with
  | none => none
  | some v1 =>
  match assess_stone_bottom b row column with
  | none => none
  | some v2 =>
  match assess_stone_left b row column with
  | none => none
  | some v3 =>
  match assess_stone_right b row column with
  | none => none
  | some v4 =>
  match assess_stone_top_left b row column with
  | none => none
  | some v5 =>
  match assess_stone_top_right b row column with
  | none => none
  | some v6 =>
  match assess_stone_bottom_left b row column with
  | none => none
  | some v7 =>
  match assess_stone_bottom_right b row column with
  | none => none
  | some v8 =>
    let stone_value := 0 + v1 + v2 + v3 + v4 + v5 + v6 + v7 + v8
      + (15 - |row - 7| - |column - 7|)
    some (if b row column = 1 then -stone_value * 5 else stone_value)

/-- The double loop of `assess_board_value` over the remaining cells. -/
def assess_cells (b : Board) : List (Int × Int) → Int → Option Int
  | [], board_value => some board_value
  | (row, column) :: rest, board_value =>
    if b row column ≠ 0 then
      match stone_value b row column with
      | none => none
      | some v => assess_cells b rest (board_value + v)
    else assess_cells b rest board_value

/-- `assess_board_value`, in tenths. -/
def assess_board_value (b : Board) : Option Int :=
  assess_cells b all_cells 0

/-! ## Adversarial search -/

/-- The tentative placement `gomoku_board[row][column] = side;
last_placed_row = row; last_placed_column = column`. -/
def place (s : State) (row column side : Int) : State :=
  { gomoku_board := set_cell s.gomoku_board row column side
    last_placed_row := row
    last_placed_column := column }

/-- The statements after the recursive call: `gomoku_board[row][column] = 0;
last_placed_row = temp_row; last_placed_column = temp_column`. -/
def unplace (s : State) (row column temp_row temp_column : Int) : State :=
  { gomoku_board := set_cell s.gomoku_board row column 0
    last_placed_row := temp_row
    last_placed_column := temp_column }

/-- `std::numeric_limits<double>::max()`, in tenths. -/
def double_max : Int := ((2 ^ 1024 - 2 ^ 971 : Nat) : Int) * 10

/-- `std::numeric_limits<double>::lowest()`, in tenths. -/
def double_lowest : Int := -double_max

/-- The double loop of the player branch of `predict_board_value`; `child` is
the recursive call. -/
def predict_player_loop (child : State → Int → Int → Option (Int × State)) :
    List (Int × Int) → State → Int → Int → Option (Int × State)
  | [], s, _, min_board_value => some (min_board_value, s)
  | (row, column) :: rest, s, max_board_value, min_board_value =>
    if s.gomoku_board row column = 0 ∧ check_neighbors s.gomoku_board row column = true then
      match child (place s row column 1) max_board_value min_board_value with
      | none => none
      | some (board_value, s') =>
        let restored := unplace s' row column s.last_placed_row s.last_placed_column
        let min_board_value' :=
          if board_value < min_board_value then board_value else min_board_value
        if min_board_value' ≤ max_board_value then some (min_board_value', restored)
        else predict_player_loop child rest restored max_board_value min_board_value'
    else predict_player_loop child rest s max_board_value min_board_value

/-- The double loop of the AI branch of `predict_board_value`. -/
def predict_ai_loop (child : State → Int → Int → Option (Int × State)) :
    List (Int × Int) → State → Int → Int → Option (Int × State)
  | [], s, max_board_value, _ => some (max_board_value, s)
  | (row, column) :: rest, s, max_board_value, min_board_value =>
    if s.gomoku_board row column = 0 ∧ check_neighbors s.gomoku_board row column = true then
      match child (place s row column (-1)) max_board_value min_board_value with
      | none => none
      | some (board_value, s') =>
        let restored := unplace s' row column s.last_placed_row s.last_placed_column
        let max_board_value' :=
          if board_value > max_board_value then board_value else max_board_value
        if min_board_value ≤ max_board_value' then some (max_board_value', restored)
        else predict_ai_loop child rest restored max_board_value' min_board_value
    else predict_ai_loop child rest s max_board_value min_board_value

/-- `predict_board_value(is_player_next, search_depth, max_board_value,
min_board_value)`: the returned value and the globals after the call; `none`
when the evaluator indexes outside the array. -/
def predict_board_value : Nat → Bool → State → Int → Int → Option (Int × State)
  | 0, _, s, _, _ =>
    match assess_board_value s.gomoku_board with
    | none => none
    | some v => some (v, s)
  | search_depth + 1, is_player_next, s, max_board_value, min_board_value =>
    if check_battle_state s = true then
      match assess_board_value s.gomoku_board with
      | none => none
      | some v => some (v, s)
    else if is_player_next = true then
      predict_player_loop (fun s' a b => predict_board_value search_depth false s' a b)
        all_cells s max_board_value min_board_value
    else
      predict_ai_loop (fun s' a b => predict_board_value search_depth true s' a b)
        all_cells s max_board_value min_board_value

/-- The double loop of `calculate_ai_move`: the final `max_board_value`,
`ref_placed_row`, `ref_placed_column` and the globals after the loop. -/
def calculate_ai_move_loop :
    List (Int × Int) → State → Int → Int → Int → Option ((Int × Int × Int) × State)
  | [], s, max_board_value, placed_row, placed_column =>
    some ((max_board_value, placed_row, placed_column), s)
  | (row, column) :: rest, s, max_board_value, placed_row, placed_column =>
    if s.gomoku_board row column = 0 ∧ check_neighbors s.gomoku_board row column = true then
      match predict_board_value 2 true (place s row column (-1)) max_board_value double_max with
      | none => none
      | some (board_value, s') =>
        let restored := unplace s' row column s.last_placed_row s.last_placed_column
        if board_value > max_board_value then
          calculate_ai_move_loop rest restored board_value row column
        else calculate_ai_move_loop rest restored max_board_value placed_row placed_column
    else calculate_ai_move_loop rest s max_board_value placed_row placed_column

/-- `calculate_ai_move`: the reference parameters and the globals after the
call.  `out` holds the reference parameters before the call. -/
def calculate_ai_move (s : State) (out : Placement) : Option (Placement × State) :=
  if s.last_placed_row = -1 ∧ s.last_placed_column = -1 then
    some ({ click_X := 7 * 4 + 15, click_Y := 7 * 2 + 2, placed_row := 7, placed_column := 7 }, s)
  else
    match calculate_ai_move_loop all_cells s double_lowest out.placed_row out.placed_column with
    | none => none
    | some ((_, placed_row, placed_column), s') =>
      some ({ click_X := placed_column * 4 + 15, click_Y := placed_row * 2 + 2,
              placed_row := placed_row, placed_column := placed_column }, s')

/-! ## The values the search computes

The same loops as above with the board passed by value instead of being
written and restored; `predict_board_value_eq` relates the two. -/

/-- Values of `predict_player_loop`: `child row column a b` is the value of the
recursive call after the tentative move at `(row, column)`. -/
def value_min_loop (child : Int → Int → Int → Int → Option Int) (b : Board) (max_board_value : Int) :
    List (Int × Int) → Int → Option Int
  | [], min_board_value => some min_board_value
  | (row, column) :: rest, min_board_value =>
    if b row column = 0 ∧ check_neighbors b row column = true then
      match child row column max_board_value min_board_value with
      | none => none
      | some board_value =>
        let min_board_value' :=
          if board_value < min_board_value then board_value else min_board_value
        if min_board_value' ≤ max_board_value then some min_board_value'
        else value_min_loop child b max_board_value rest min_board_value'
    else value_min_loop child b max_board_value rest min_board_value

/-- Values of `predict_ai_loop`. -/
def value_max_loop (child : Int → Int → Int → Int → Option Int) (b : Board) (min_board_value : Int) :
    List (Int × Int) → Int → Option Int
  | [], max_board_value => some max_board_value
  | (row, column) :: rest, max_board_value =>
    if b row column = 0 ∧ check_neighbors b row column = true then
      match child row column max_board_value min_board_value with
      | none => none
      | some board_value =>
        let max_board_value' :=
          if board_value > max_board_value then board_value else max_board_value
        if min_board_value ≤ max_board_value' then some max_board_value'
        else value_max_loop child b min_board_value rest max_board_value'
    else value_max_loop child b min_board_value rest max_board_value

/-- Value returned by `predict_board_value`. -/
def search_value : Nat → Bool → State → Int → Int → Option Int
  | 0, _, s, _, _ => assess_board_value s.gomoku_board
  | depth + 1, is_player_next, s, max_board_value, min_board_value =>
    if check_battle_state s = true then assess_board_value s.gomoku_board
    else if is_player_next = true then
      value_min_loop (fun row column a b => search_value depth false (place s row column 1) a b)
        s.gomoku_board max_board_value all_cells min_board_value
    else
      value_max_loop (fun row column a b => search_value depth true (place s row column (-1)) a b)
        s.gomoku_board min_board_value all_cells max_board_value

/-- Values of `calculate_ai_move_loop`: final `max_board_value` and chosen cell. -/
def value_root_loop (s : State) :
    List (Int × Int) → Int → Int → Int → Option (Int × Int × Int)
  | [], max_board_value, placed_row, placed_column =>
    some (max_board_value, placed_row, placed_column)
  | (row, column) :: rest, max_board_value, placed_row, placed_column =>
    if s.gomoku_board row column = 0 ∧ check_neighbors s.gomoku_board row column = true then
      match search_value 2 true (place s row column (-1)) max_board_value double_max with
      | none => none
      | some board_value =>
        if board_value > max_board_value then value_root_loop s rest board_value row column
        else value_root_loop s rest max_board_value placed_row placed_column
    else value_root_loop s rest max_board_value placed_row placed_column

/-! ## Plain minimax (the search with no cut-off and fresh bounds at every node) -/

/-- A candidate move: an Empty cell of the board with a neighbouring stone. -/
def IsCandidate (b : Board) (row column : Int) : Prop :=
  inBoard row column ∧ b row column = 0 ∧ check_neighbors b row column = true

instance (b : Board) (row column : Int) : Decidable (IsCandidate b row column) := by
  unfold IsCandidate; infer_instance

/-- Position of a cell in the row-major enumeration. -/
def row_major_rank (row column : Int) : Int := 15 * row + column

/-- Player node of plain minimax: the least of `least` and the values of the
candidates, no cut-off. -/
def minimax_min_loop (child : Int → Int → Option Int) (b : Board) :
    List (Int × Int) → Int → Option Int
  | [], least => some least
  | (row, column) :: rest, least =>
    if b row column = 0 ∧ check_neighbors b row column = true then
      match child row column with
      | none => none
      | some v => minimax_min_loop child b rest (if v < least then v else least)
    else minimax_min_loop child b rest least

/-- AI node of plain minimax: the greatest of `greatest` and the values of the
candidates, no cut-off. -/
def minimax_max_loop (child : Int → Int → Option Int) (b : Board) :
    List (Int × Int) → Int → Option Int
  | [], greatest => some greatest
  | (row, column) :: rest, greatest =>
    if b row column = 0 ∧ check_neighbors b row column = true then
      match child row column with
      | none => none
      | some v => minimax_max_loop child b rest (if v > greatest then v else greatest)
    else minimax_max_loop child b rest greatest

/-- Plain minimax value of a position: the same leaves, the same candidate
order, the player minimising from `double_max` and the AI maximising from
`double_lowest`, with no cut-off. -/
def minimax_value : Nat → Bool → State → Option Int
  | 0, _, s => assess_board_value s.gomoku_board
  | depth + 1, is_player_next, s =>
    if check_battle_state s = true then assess_board_value s.gomoku_board
    else if is_player_next = true then
      minimax_min_loop (fun row column => minimax_value depth false (place s row column 1))
        s.gomoku_board all_cells double_max
    else
      minimax_max_loop (fun row column => minimax_value depth true (place s row column (-1)))
        s.gomoku_board all_cells double_lowest

/-- Plain minimax value of the AI move `(row, column)` at the root. -/
def root_move_value (s : State) (row column : Int) : Option Int :=
  minimax_value 2 true (place s row column (-1))

/-- The root loop over plain minimax values: best value so far and its cell. -/
def minimax_root_loop (s : State) :
    List (Int × Int) → Int → Int → Int → Option (Int × Int × Int)
  | [], best_value, placed_row, placed_column => some (best_value, placed_row, placed_column)
  | (row, column) :: rest, best_value, placed_row, placed_column =>
    if s.gomoku_board row column = 0 ∧ check_neighbors s.gomoku_board row column = true then
      match root_move_value s row column with
      | none => none
      | some v =>
        if v > best_value then minimax_root_loop s rest v row column
        else minimax_root_loop s rest best_value placed_row placed_column
    else minimax_root_loop s rest best_value placed_row placed_column

/-- The plain depth-2 search from the root: final best value and chosen cell. -/
def minimax_ai_move (s : State) (out : Placement) : Option (Int × Int × Int) :=
  minimax_root_loop s all_cells double_lowest out.placed_row out.placed_column

/-! ## Boards used as concrete inputs -/

/-- Side A on (7,3)..(7,6), Side B on (7,2), every other cell Empty. -/
def blocking_board : Board := fun r c =>
  if r = 7 then
    (if c = 2 then -1 else if c = 3 then 1 else if c = 4 then 1 else if c = 5 then 1
     else if c = 6 then 1 else 0)
  else 0

/-- The blocking scenario: `blocking_board` with the last move at (7,6). -/
def blocking_state : State :=
  { gomoku_board := blocking_board, last_placed_row := 7, last_placed_column := 6 }

/-- Side A on (7,3)..(7,6), every other cell Empty. -/
def four_board : Board := fun r c =>
  if r = 7 then (if 3 ≤ c ∧ c ≤ 6 then 1 else 0) else 0

/-- Side A placed at (7,2) on `four_board`, as `read_player_move` does. -/
def five_state : State := place { gomoku_board := four_board, last_placed_row := 7, last_placed_column := 6 } 7 2 1

/-- Side A on row 7, columns 5..9 and on column 7, rows 5..9; last move (7,7). -/
def cross_state : State :=
  { gomoku_board := fun r c =>
      if (r = 7 ∧ 5 ≤ c ∧ c ≤ 9) ∨ (c = 7 ∧ 5 ≤ r ∧ r ≤ 9) then 1 else 0
    last_placed_row := 7
    last_placed_column := 7 }

/-- A full board with no five in a row: stones alternate in pairs along each
row, shifted by two columns from one row to the next. -/
def draw_state : State :=
  { gomoku_board := fun r c => if (c + 2 * r) % 4 < 2 then 1 else -1
    last_placed_row := 7
    last_placed_column := 7 }

/-- A left click at console position (15, 32), in the message box below the
board. -/
def click_below_board : InputRecord :=
  { EventType := MOUSE_EVENT, dwEventFlags := 0,
    dwButtonState := FROM_LEFT_1ST_BUTTON_PRESSED, X := 15, Y := 32 }

/-- A left click on the intersection of row 3 and column 5. -/
def click_on_board : InputRecord :=
  { EventType := MOUSE_EVENT, dwEventFlags := 0,
    dwButtonState := FROM_LEFT_1ST_BUTTON_PRESSED, X := 35, Y := 8 }

/-! ## Vocabulary of the proofs -/

/-- The offsets `o, o+1, ..` visited by the last `n` rounds of an axis loop. -/
def offsets_from (o : Int) : Nat → List Int
  | 0 => []
  | n + 1 => o :: offsets_from (o + 1) n

/-- Status of one offset of an axis loop. -/
def axis_status (inb own : Int → Bool) (o : Int) : Option Bool :=
  if inb o = true then some (own o) else none

/-- Status of the cell `o` steps from the last move along the axis `(dr, dc)`. -/
def line_status (s : State) (dr dc : Int) (o : Int) : Option Bool :=
  if inBoard (s.last_placed_row + o * dr) (s.last_placed_column + o * dc) then
    some (decide (s.gomoku_board (s.last_placed_row + o * dr) (s.last_placed_column + o * dc)
      = s.gomoku_board s.last_placed_row s.last_placed_column))
  else none

/-- Number of axes on which the last mover has five in a row through the last move. -/
def winning_axes (s : State) : Nat :=
  (if AxisWin s 1 0 then 1 else 0) + (if AxisWin s 0 1 then 1 else 0)
    + (if AxisWin s 1 1 then 1 else 0) + (if AxisWin s (-1) 1 then 1 else 0)

/-- The value `R` returned by a node searched with bounds `a` and `b` agrees
with the plain value `P` inside the window and lies on the same side of the
window outside it. -/
def WithinWindow (R a b P : Int) : Prop := (P ≤ R ∨ b ≤ R) ∧ (R ≤ P ∨ R ≤ a)

/-- Largest value of one `assess_stone_*` call, in tenths. -/
def scanner_max : Int := 100 * 10 ^ 15

/-- Bound on the size of one stone's contribution, in tenths. -/
def stone_max : Int := 5 * (8 * scanner_max + 15)

/-- The eight unit steps of the `assess_stone_*` functions. -/
def directions : List (Int × Int) :=
  [(-1, 0), (1, 0), (0, -1), (0, 1), (-1, -1), (-1, 1), (1, -1), (1, 1)]

/-- No run of four equal stones ends on a border cell `(r, c)` with the next
cell in its direction `(dr, dc)` outside the board. -/
def NoEdgeRun (b : Board) : Prop :=
  ∀ r c dr dc : Int, (dr, dc) ∈ directions → inBoard r c →
    inBoard (r - dr - dr - dr) (c - dc - dc - dc) → ¬ inBoard (r + dr) (c + dc) →
    b r c ≠ 0 →
    ¬ (b (r - dr) (c - dc) = b r c ∧ b (r - dr - dr) (c - dc - dc) = b r c
        ∧ b (r - dr - dr - dr) (c - dc - dc - dc) = b r c)

/-- Number of Empty cells among a border cell `(r, c)` and the three cells
behind it against the direction `(dr, dc)`. -/
def segment_zeros (b : Board) (r c dr dc : Int) : Nat :=
  (if b r c = 0 then 1 else 0) + (if b (r - dr) (c - dc) = 0 then 1 else 0)
    + (if b (r - dr - dr) (c - dc - dc) = 0 then 1 else 0)
    + (if b (r - dr - dr - dr) (c - dc - dc - dc) = 0 then 1 else 0)

/-- The four cells hold nothing but `side` and Empty, and at most `n` of them
are Empty: `n` further stones of `side` could complete a run of four. -/
def Fillable (b : Board) (r c dr dc side : Int) (n : Nat) : Prop :=
  (b r c = side ∨ b r c = 0) ∧ (b (r - dr) (c - dc) = side ∨ b (r - dr) (c - dc) = 0) ∧
    (b (r - dr - dr) (c - dc - dc) = side ∨ b (r - dr - dr) (c - dc - dc) = 0) ∧
    (b (r - dr - dr - dr) (c - dc - dc - dc) = side
      ∨ b (r - dr - dr - dr) (c - dc - dc - dc) = 0) ∧
    segment_zeros b r c dr dc ≤ n

instance (b : Board) (r c dr dc side : Int) (n : Nat) : Decidable (Fillable b r c dr dc side n) := by
  unfold Fillable; infer_instance

/-- Every cell of the board is -1, 0 or 1, and no run of four equal stones
ending at the border in its own direction can be completed by `nA` further AI
stones and `nP` further player stones. -/
def EdgeSafe (b : Board) (nA nP : Nat) : Prop :=
  (∀ r c : Int, inBoard r c → b r c = -1 ∨ b r c = 0 ∨ b r c = 1) ∧
  ∀ r c dr dc : Int, (dr, dc) ∈ directions → inBoard r c →
    inBoard (r - dr - dr - dr) (c - dc - dc - dc) → ¬ inBoard (r + dr) (c + dc) →
    ¬ Fillable b r c dr dc (-1) nA ∧ ¬ Fillable b r c dr dc 1 nP

/-- Executable form of `EdgeSafe`. -/
def edge_safe_check (b : Board) (nA nP : Nat) : Bool :=
  all_cells.all fun cell =>
    decide (b cell.1 cell.2 = -1 ∨ b cell.1 cell.2 = 0 ∨ b cell.1 cell.2 = 1) &&
    directions.all fun d =>
      decide (inBoard (cell.1 - d.1 - d.1 - d.1) (cell.2 - d.2 - d.2 - d.2) →
        ¬ inBoard (cell.1 + d.1) (cell.2 + d.2) →
        ¬ Fillable b cell.1 cell.2 d.1 d.2 (-1) nA ∧ ¬ Fillable b cell.1 cell.2 d.1 d.2 1 nP)

/-- Check made for one AI move `cell` other than (7,7) on `blocking_state`: the
player can answer at (7,7), that answer ends the game, and the board it leaves
is worth at most -1000000.0. -/
def unblocked_check (cell : Int × Int) : Bool :=
  let s1 := place blocking_state cell.1 cell.2 (-1)
  let s2 := place s1 7 7 1
  decide (s1.gomoku_board 7 7 = 0) && check_neighbors s1.gomoku_board 7 7 &&
    !check_battle_state s1 && check_battle_state s2 &&
    match assess_board_value s2.gomoku_board with
    | none => false
    | some u => decide (u ≤ -10000000)

/-- Check made for one player answer `cell` to the AI move (7,7): the game is
not over and some AI move leaves a board worth at least -100000.0. -/
def blocked_check (cell : Int × Int) : Bool :=
  let s2 := place (place blocking_state 7 7 (-1)) cell.1 cell.2 1
  !check_battle_state s2 &&
    all_cells.any fun z =>
      decide (s2.gomoku_board z.1 z.2 = 0) && check_neighbors s2.gomoku_board z.1 z.2 &&
        match assess_board_value (place s2 z.1 z.2 (-1)).gomoku_board with
        | none => false
        | some u => decide (-1000000 ≤ u)

/-- The eight directional scanners, each with the unit step it walks. -/
def scanner_table : List ((Board → Int → Int → Option Int) × (Int × Int)) :=
  [(assess_stone_top, (-1, 0)), (assess_stone_bottom, (1, 0)), (assess_stone_left, (0, -1)),
   (assess_stone_right, (0, 1)), (assess_stone_top_left, (-1, -1)),
   (assess_stone_top_right, (-1, 1)), (assess_stone_bottom_left, (1, -1)),
   (assess_stone_bottom_right, (1, 1))]

/-- At least four extendable points: the four cells that follow `(row, column)`
in direction `(dr, dc)` lie inside the board and none holds a stone of the
other side. -/
def FourExtendable (b : Board) (row column dr dc : Int) : Prop :=
  ∀ i : Int, 1 ≤ i → i ≤ 4 →
    inBoard (row + i * dr) (column + i * dc) ∧ b (row + i * dr) (column + i * dc) ≠ -b row column

/-- The run of same-owner cells that starts next to `(row, column)` in
direction `(dr, dc)` has exactly `k` cells. -/
def RunLength (b : Board) (row column dr dc : Int) (k : Nat) : Prop :=
  (∀ i : Int, 1 ≤ i → i ≤ k →
    inBoard (row + i * dr) (column + i * dc) ∧ b (row + i * dr) (column + i * dc) = b row column) ∧
  ¬ (inBoard (row + (k + 1) * dr) (column + (k + 1) * dc) ∧
      b (row + (k + 1) * dr) (column + (k + 1) * dc) = b row column)

/-- One Side B stone on the centre cell (7,7). -/
def lone_stone_board : Board := fun r c => if r = 7 ∧ c = 7 then -1 else 0

/-- Side B on (0,7)..(4,7), every other cell Empty. -/
def edge_run_board : Board := fun r c => if 0 ≤ r ∧ r ≤ 4 ∧ c = 7 then -1 else 0

/-- The specified axis loop: the counter goes up on a cell of the last mover
and back to 0 on any other cell and on every offset outside the board. -/
def scan_window_reset (in_bounds owned : Int → Bool) : List Int → Int → Option Int
  | [], _ => none
  | offset :: rest, total =>
    let total' := if in_bounds offset then (if owned offset then total + 1 else 0) else 0
    if total' = 5 then some offset else scan_window_reset in_bounds owned rest total'

/-- The specified scan of the axis with step `(dr, dc)` through the last
move. -/
def scan_axis_reset (s : State) (dr dc : Int) : Option Int :=
  scan_window_reset
    (fun offset => decide (inBoard (s.last_placed_row + offset * dr)
      (s.last_placed_column + offset * dc)))
    (fun offset => decide (s.gomoku_board (s.last_placed_row + offset * dr)
      (s.last_placed_column + offset * dc)
      = s.gomoku_board s.last_placed_row s.last_placed_column))
    window_offsets 0

/-- The specified terminal test: the four specified scans, then the full
board. -/
def battle_state_reset (s : State) : Bool :=
  if (scan_axis_reset s 1 0).isSome then true
  else if (scan_axis_reset s 0 1).isSome then true
  else if (scan_axis_reset s 1 1).isSome then true
  else if (scan_axis_reset s (-1) 1).isSome then true
  else board_full s.gomoku_board

/-- The specified winner test: `check_winner_call` over the specified
scans. -/
def winner_call_reset (s : State) : Int × Option Highlight :=
  let last_moved_player := s.gomoku_board s.last_placed_row s.last_placed_column
  match scan_axis_reset s 1 0 with
  | some offset =>
    (last_moved_player, some ⟨Axis.vertical, s.last_placed_row + offset, s.last_placed_column⟩)
  | none =>
  match scan_axis_reset s 0 1 with
  | some offset =>
    (last_moved_player, some ⟨Axis.horizontal, s.last_placed_row, s.last_placed_column + offset⟩)
  | none =>
  match scan_axis_reset s 1 1 with
  | some offset =>
    (last_moved_player,
      some ⟨Axis.major_diagonal, s.last_placed_row + offset, s.last_placed_column + offset⟩)
  | none =>
  match scan_axis_reset s (-1) 1 with
  | some offset =>
    (last_moved_player,
      some ⟨Axis.minor_diagonal, s.last_placed_row - offset, s.last_placed_column + offset⟩)
  | none => (0, none)

/-- Side B on (1,7)..(4,7), Side A on (5,7), (8,8), (9,9) and (10,10), last
move (5,7): Side B to move, one stone from five in a row against the top
edge. -/
def edge_state : State :=
  { gomoku_board := fun r c =>
      if c = 7 ∧ 1 ≤ r ∧ r ≤ 4 then -1
      else if (r = 5 ∧ c = 7) ∨ (r = 8 ∧ c = 8) ∨ (r = 9 ∧ c = 9) ∨ (r = 10 ∧ c = 10) then 1
      else 0
    last_placed_row := 5
    last_placed_column := 7 }

/-! ### The battle loop -/

/-- `read_stone_placement`: the reference parameters after the call.
`input_records` are the records that `ReadConsoleInput` delivers, in order;
the result is `none` when the board is indexed outside the array, and when the
records end before a stone is placed. -/
def read_stone_placement (b : Board) : List InputRecord → Placement → Option Placement
  | [], _ => none
  | input_record :: rest, out =>
    match check_valid_placement b input_record out with
    | none => none
    | some (is_stone_placed, out') =>
      if is_stone_placed = true then some out' else read_stone_placement b rest out'

/-- The assignments `gomoku_board[placed_row][placed_column] = side;
last_placed_row = placed_row; last_placed_column = placed_column` that end
`read_player_move` and `perform_ai_move`; `none` when the cell is outside the
array. -/
def write_move (s : State) (out : Placement) (side : Int) : Option State :=
  if inBoard out.placed_row out.placed_column then
    some (place s out.placed_row out.placed_column side)
  else none

/-- `read_player_move`: the globals after the call; `out` holds the locals
`character_position_of_click`, `placed_row`, `placed_column` before it. -/
def read_player_move (s : State) (input_records : List InputRecord) (out : Placement) :
    Option State :=
  match read_stone_placement s.gomoku_board input_records out with
  | none => none
  | some out' => write_move s out' 1

/-- `perform_ai_move`: the globals after the call. -/
def perform_ai_move (s : State) (out : Placement) : Option State :=
  match calculate_ai_move s out with
  | none => none
  | some (out', s') => write_move s' out' (-1)

/-- The states of `start_battle` at the end of a round of its loop, where
`check_battle_state` is called, with the side that moved in that round: the
first round starts from `initialize_battle`, a later round is entered when
`check_battle_state` was false. -/
inductive Reached : State → Int → Prop
  | player_first (input_records : List InputRecord) (out : Placement) (s : State) :
      read_player_move initialize_battle input_records out = some s → Reached s 1
  | ai_first (out : Placement) (s : State) :
      perform_ai_move initialize_battle out = some s → Reached s (-1)
  | player_next (before : State) (side : Int) (input_records : List InputRecord)
      (out : Placement) (s : State) :
      Reached before side → check_battle_state before = false →
      read_player_move before input_records out = some s → Reached s 1
  | ai_next (before : State) (side : Int) (out : Placement) (s : State) :
      Reached before side → check_battle_state before = false →
      perform_ai_move before out = some s → Reached s (-1)

/-- The last move is a cell of the board that holds a stone of `side`. -/
def LastMoveOf (s : State) (side : Int) : Prop :=
  inBoard s.last_placed_row s.last_placed_column ∧
    s.gomoku_board s.last_placed_row s.last_placed_column = side

/-- `predict_board_value` with `terminal` called where the source calls
`check_battle_state`. -/
def predict_board_value_with (terminal : State → Bool) :
    Nat → Bool → State → Int → Int → Option (Int × State)
  | 0, _, s, _, _ =>
    match assess_board_value s.gomoku_board with
    | none => none
    | some v => some (v, s)
  | search_depth + 1, is_player_next, s, max_board_value, min_board_value =>
    if terminal s = true then
      match assess_board_value s.gomoku_board with
      | none => none
      | some v => some (v, s)
    else if is_player_next = true then
      predict_player_loop
        (fun t a b => predict_board_value_with terminal search_depth false t a b)
        all_cells s max_board_value min_board_value
    else
      predict_ai_loop
        (fun t a b => predict_board_value_with terminal search_depth true t a b)
        all_cells s max_board_value min_board_value

/-! ### Symmetries of the board -/

/-- The board after the row reflection `r ↦ 14 - r`. -/
def reflect_rows (b : Board) : Board := fun r c => b (14 - r) c

/-- The board after the column reflection `c ↦ 14 - c`. -/
def reflect_columns (b : Board) : Board := fun r c => b r (14 - c)

/-- The board after the transposition that swaps rows and columns. -/
def transpose (b : Board) : Board := fun r c => b c r

/-- The images of a board under the eight symmetries of the square: the
identity, the two reflections, the transposition and their compositions. -/
def board_images (b : Board) : List Board :=
  [b, reflect_rows b, reflect_columns b, transpose b, reflect_rows (reflect_columns b),
   transpose (reflect_rows b), transpose (reflect_columns b),
   transpose (reflect_rows (reflect_columns b))]

/-- A directional scanner whose range test is the whole board test; for a cell
of the board each `assess_stone_*` function agrees with it (`scanner_eq_scan_dir`). -/
def scan_dir (b : Board) (dr dc row column : Int) : Option Int :=
  assess_stone b (fun r c => decide (inBoard r c)) dr dc row column

/-- Sum of two values that may be undefined. -/
def add_defined : Option Int → Option Int → Option Int
  | some x, some y => some (x + y)
  | _, _ => none

/-- Sum of a list of values, undefined as soon as one of them is. -/
def sum_defined : List (Option Int) → Option Int
  | [] => some 0
  | x :: rest => add_defined x (sum_defined rest)

/-- What one cell adds to `board_value` in `assess_board_value`. -/
def cell_value (b : Board) (cell : Int × Int) : Option Int :=
  if b cell.1 cell.2 ≠ 0 then stone_value b cell.1 cell.2 else some 0

/-- The last statements of the body of `assess_board_value` for a stone whose
eight scanner values add up to `total`. -/
def finish_stone (stone row column total : Int) : Int :=
  if stone = 1 then -(total + (15 - |row - 7| - |column - 7|)) * 5
  else total + (15 - |row - 7| - |column - 7|)

instance : Std.Commutative add_defined :=
  ⟨fun x y => by cases x <;> cases y <;> simp [add_defined, add_comm]⟩

instance : Std.Associative add_defined :=
  ⟨fun x y z => by cases x <;> cases y <;> cases z <;> simp [add_defined, add_assoc]⟩

/-! ### States reached in play -/

/-- The value 1.0.  A value `x` of type `double` in `assess_board_value` is
kept as the integer `x * 2^56`: the smallest values the evaluator forms are the
products `0.1 * k` with `1 ≤ k ≤ 15`, which are multiples of `2^-56`, and sums,
products and roundings of such multiples are multiples of `2^-56` again; all
values stay far below the overflow threshold. -/
def double_one : Int := 2 ^ 56

/-- The literal `0.1`: the binary64 number nearest to one tenth,
`0x1.999999999999ap-4`, in units of `2^-56`. -/
def double_tenth : Int := 7205759403792794

/-- The number of bits of `magnitude` below its 53 leading bits, for a
magnitude of at most `53 + bits` bits. -/
def dropped_bits : Nat → Nat → Nat
  | 0, _ => 0
  | bits + 1, magnitude =>
    if magnitude < 2 ^ 53 then 0 else dropped_bits bits (magnitude / 2) + 1

/-- Rounding of an exact result to binary64, round to nearest with ties to
even: the 53 leading bits of the magnitude are kept. -/
def round_double (n : Int) : Int :=
  let magnitude := n.natAbs
  let dropped := dropped_bits 1024 magnitude
  let kept := magnitude / 2 ^ dropped
  let rest := magnitude % 2 ^ dropped
  let rounded :=
    if 2 * rest > 2 ^ dropped ∨ (2 * rest = 2 ^ dropped ∧ kept % 2 = 1) then kept + 1 else kept
  Int.sign n * ((rounded * 2 ^ dropped : Nat) : Int)

/-- Second loop of an `assess_stone_*` function with `value *= 10.0` rounded
to binary64. -/
def count_run_double (b : Board) (dr dc stone : Int) : Nat → Int → Int → Int → Option Int
  | 0, _, _, _ => none
  | rounds + 1, r, c, value =>
    match read_cell b r c with
    | none => none
    | some v =>
      if v = stone then
        count_run_double b dr dc stone rounds (r + dr) (c + dc) (round_double (value * 10))
      else some value

/-- Common shape of the eight `assess_stone_*` functions, the value starting
at `10.0`. -/
def assess_stone_double (b : Board) (in_range : Int → Int → Bool) (dr dc row column : Int) :
    Option Int :=
  if count_extendable b in_range dr dc (b row column) 4 (row + dr) (column + dc) 0 < 4 then
    some 0
  else count_run_double b dr dc (b row column) 15 (row + dr) (column + dc) (10 * double_one)

/-- Body of the inner `if` of `assess_board_value` for one occupied cell, every
`+=` and every product rounded to binary64. -/
def stone_value_double (b : Board) (row column : Int) : Option Int :=
  match assess_stone_double b (fun r _ => decide (r ≥ 0)) (-1) 0 row column with
  | none => none
  | some v1 =>
  match assess_stone_double b (fun r _ => decide (r ≤ 14)) 1 0 row column with
  | none => none
  | some v2 =>
  match assess_stone_double b (fun _ c => decide (c ≥ 0)) 0 (-1) row column with
  | none => none
  | some v3 =>
  match assess_stone_double b (fun _ c => decide (c ≤ 14)) 0 1 row column with
  | none => none
  | some v4 =>
  match assess_stone_double b (fun r c => decide (r ≥ 0 ∧ c ≥ 0)) (-1) (-1) row column with
  | none => none
  | some v5 =>
  match assess_stone_double b (fun r c => decide (r ≥ 0 ∧ c ≤ 14)) (-1) 1 row column with
  | none => none
  | some v6 =>
  match assess_stone_double b (fun r c => decide (r ≤ 14 ∧ c ≥ 0)) 1 (-1) row column with
  | none => none
  | some v7 =>
  match assess_stone_double b (fun r c => decide (r ≤ 14 ∧ c ≤ 14)) 1 1 row column with
  | none => none
  | some v8 =>
    let s1 := round_double (0 + v1)
    let s2 := round_double (s1 + v2)
    let s3 := round_double (s2 + v3)
    let s4 := round_double (s3 + v4)
    let s5 := round_double (s4 + v5)
    let s6 := round_double (s5 + v6)
    let s7 := round_double (s6 + v7)
    let s8 := round_double (s7 + v8)
    let stone_value :=
      round_double (s8 + round_double (double_tenth * (15 - |row - 7| - |column - 7|)))
    some (if b row column = 1 then round_double (-stone_value * 5) else stone_value)

/-- The double loop of `assess_board_value` with `board_value += stone_value`
rounded to binary64. -/
def assess_cells_double (b : Board) : List (Int × Int) → Int → Option Int
  | [], board_value => some board_value
  | (row, column) :: rest, board_value =>
    if b row column ≠ 0 then
      match stone_value_double b row column with
      | none => none
      | some v => assess_cells_double b rest (round_double (board_value + v))
    else assess_cells_double b rest board_value

/-- `assess_board_value` as the program computes it, in units of `2^-56`. -/
def assess_board_value_double (b : Board) : Option Int :=
  assess_cells_double b all_cells 0

/-- Side B on (8,7) and (9,9), Side A on (9,5). -/
def rounding_board : Board := fun r c =>
  if (r = 8 ∧ c = 7) ∨ (r = 9 ∧ c = 9) then -1 else if r = 9 ∧ c = 5 then 1 else 0

end Gomoku

/-!
# 2048: sliding, merging, scoring and tile spawning

A shallow embedding of `src/2048.c`.

* The global `int grid[4][4]` is a function `Int → Int → Int`; only the
  indices in `[0,3] × [0,3]` are cells of the array.  The global `score`
  travels with it in `Game`.
* `int` arithmetic is exact: a tile is doubled only by a merge, and no grid
  the game reaches holds a tile near `2^30`.
* The two values `rand()` returns inside `generate_tile` are parameters.
  `rand() % count_empty_spots()` has no defined result when no spot is empty;
  `generate_tile` is `none` then.
-/

namespace Game2048

/-! ## Grid model -/

/-- The array `grid`, indexed `grid row column`. -/
abbrev Grid := Int → Int → Int

/-- The globals `score` and `grid`. -/
structure Game where
  score : Int
  grid : Grid

/-- The assignment `grid[row][column] = value`. -/
def set_tile (grid : Grid) (row column value : Int) : Grid :=
  fun r c => if r = row ∧ c = column then value else grid r c

/-- The cells in the order of `for (row = 0; row < 4; ++row) for (column = 0;
column < 4; ++column)`. -/
def grid_cells : List (Int × Int) :=
  (List.range 4).flatMap fun (row : Nat) =>
    (List.range 4).map fun (column : Nat) => ((row : Int), (column : Int))

/-! ## Tile spawning -/

/-- `count_empty_spots`, the loop over the remaining cells. -/
def count_empty_loop (grid : Grid) : List (Int × Int) → Int → Int
  | [], total_empty_spots => total_empty_spots
  | (row, column) :: rest, total_empty_spots =>
    if grid row column = 0 then count_empty_loop grid rest (total_empty_spots + 1)
    else count_empty_loop grid rest total_empty_spots

/-- `count_empty_spots`. -/
def count_empty_spots (grid : Grid) : Int := count_empty_loop grid grid_cells 0

/-- `generate_tile_value`; `random` is the value `rand()` returns. -/
def generate_tile_value (is_tile_value_random : Bool) (random : Nat) : Int :=
  if is_tile_value_random = true then (if (random : Int) % 10 ≠ 0 then 2 else 4) else 2

/-- The double loop of `generate_tile` over the remaining cells; `tile_value`
is what `generate_tile_value` returns when it is called. -/
def generate_tile_loop (tile_value : Int) : List (Int × Int) → Grid → Int → Grid
  | [], grid, _ => grid
  | (row, column) :: rest, grid, index_of_new_tile =>
    if grid row column = 0 ∧ index_of_new_tile ≠ 0 then
      generate_tile_loop tile_value rest grid (index_of_new_tile - 1)
    else if grid row column = 0 ∧ index_of_new_tile = 0 then
      set_tile grid row column tile_value
    else generate_tile_loop tile_value rest grid index_of_new_tile

/-- `generate_tile`; `index_random` and `value_random` are the values of the
two calls of `rand()`. -/
def generate_tile (is_tile_value_random : Bool) (index_random value_random : Nat) (g : Game) :
    Option Game :=
  if count_empty_spots g.grid = 0 then none
  else
    some
      { score := g.score
        grid := generate_tile_loop (generate_tile_value is_tile_value_random value_random)
          grid_cells g.grid ((index_random : Int) % count_empty_spots g.grid) }

/-! ## Game over -/

/-- The pairs `(row, column)` of `for (row = 0; row < 4; ++row) for (column = 0;
column < 3; ++column)`. -/
def horizontal_pairs : List (Int × Int) :=
  (List.range 4).flatMap fun (row : Nat) =>
    (List.range 3).map fun (column : Nat) => ((row : Int), (column : Int))

/-- The pairs `(row, column)` of `for (column = 0; column < 4; ++column) for
(row = 0; row < 3; ++row)`. -/
def vertical_pairs : List (Int × Int) :=
  (List.range 4).flatMap fun (column : Nat) =>
    (List.range 3).map fun (row : Nat) => ((row : Int), (column : Int))

/-- `check_game_status`: whether the game is over. -/
def check_game_status (grid : Grid) : Bool :=
  if count_empty_spots grid ≠ 0 then false
  else if horizontal_pairs.any fun cell => decide (grid cell.1 cell.2 = grid cell.1 (cell.2 + 1))
  then false
  else if vertical_pairs.any fun cell => decide (grid cell.1 cell.2 = grid (cell.1 + 1) cell.2)
  then false
  else true

/-! ## Sliding and merging

The four `move_tiles_*` functions run the same inner loop along a line of four
cells; they differ in the cell a position of the line stands for and in the
direction the loop walks. -/

/-- The globals and the locals of a `move_tiles_*` function inside its loops. -/
structure Slide where
  grid : Grid
  score : Int
  collided : Int
  has_collided_tile_merged : Bool
  has_grid_changed : Bool

/-- The body of the inner loop for the tile at `position`.  `cell i` is the
index pair of position `i` of the line: `(row, i)` in `move_tiles_left` and
`move_tiles_right`, `(i, column)` in `move_tiles_up` and `move_tiles_down`;
`collided` is `column_of_collided_tile` or `row_of_collided_tile`, and `step`
is `1` where the source increments it and `-1` where it decrements it. -/
def slide_tile (cell : Int → Int × Int) (step : Int) (position : Int) (st : Slide) : Slide :=
  if st.grid (cell position).1 (cell position).2 ≠ 0 then
    if st.grid (cell st.collided).1 (cell st.collided).2 = 0 then
      { st with
        grid := set_tile
          (set_tile st.grid (cell st.collided).1 (cell st.collided).2
            (st.grid (cell position).1 (cell position).2))
          (cell position).1 (cell position).2 0
        has_grid_changed := true }
    else if st.grid (cell st.collided).1 (cell st.collided).2
          = st.grid (cell position).1 (cell position).2
        ∧ st.has_collided_tile_merged = false then
      { grid := set_tile
          (set_tile st.grid (cell st.collided).1 (cell st.collided).2
            (st.grid (cell st.collided).1 (cell st.collided).2 * 2))
          (cell position).1 (cell position).2 0
        score := st.score + set_tile
          (set_tile st.grid (cell st.collided).1 (cell st.collided).2
            (st.grid (cell st.collided).1 (cell st.collided).2 * 2))
          (cell position).1 (cell position).2 0 (cell st.collided).1 (cell st.collided).2
        collided := st.collided
        has_collided_tile_merged := true
        has_grid_changed := true }
    else if st.collided + step ≠ position then
      { grid := set_tile
          (set_tile st.grid (cell (st.collided + step)).1 (cell (st.collided + step)).2
            (st.grid (cell position).1 (cell position).2))
          (cell position).1 (cell position).2 0
        score := st.score
        collided := st.collided + step
        has_collided_tile_merged := false
        has_grid_changed := true }
    else
      { st with collided := st.collided + step, has_collided_tile_merged := false }
  else st

/-- One pass of the inner loop: the line starts at position `start`, where the
collided tile is set, and the loop visits the three positions after it. -/
def slide_line (cell : Int → Int × Int) (step start : Int) (g : Game) (has_grid_changed : Bool) :
    Game × Bool :=
  let st0 : Slide :=
    { grid := g.grid, score := g.score, collided := start, has_collided_tile_merged := false,
      has_grid_changed := has_grid_changed }
  let st3 := slide_tile cell step (start + step + step + step)
    (slide_tile cell step (start + step + step) (slide_tile cell step (start + step) st0))
  ({ score := st3.score, grid := st3.grid }, st3.has_grid_changed)

/-- The outer loop of a `move_tiles_*` function over the remaining lines. -/
def slide_lines (cell : Int → Int → Int × Int) (step start : Int) :
    List Int → Game → Bool → Game × Bool
  | [], g, has_grid_changed => (g, has_grid_changed)
  | line :: rest, g, has_grid_changed =>
    slide_lines cell step start rest (slide_line (cell line) step start g has_grid_changed).1
      (slide_line (cell line) step start g has_grid_changed).2

/-- The values of `for (i = 0; i < 4; ++i)`. -/
def line_indices : List Int := [0, 1, 2, 3]

/-- The cells of a row: `grid[row][column]` with the row fixed by the outer
loop, in `move_tiles_left` and `move_tiles_right`. -/
def row_cell : Int → Int → Int × Int := fun row column => (row, column)

/-- The cells of a column: `grid[row][column]` with the column fixed by the
outer loop, in `move_tiles_up` and `move_tiles_down`. -/
def column_cell : Int → Int → Int × Int := fun column row => (row, column)

/-- The loops of `move_tiles_up`: the globals and `has_grid_changed` after them. -/
def move_tiles_up_loop (g : Game) : Game × Bool :=
  slide_lines column_cell 1 0 line_indices g false

/-- The loops of `move_tiles_down`. -/
def move_tiles_down_loop (g : Game) : Game × Bool :=
  slide_lines column_cell (-1) 3 line_indices g false

/-- The loops of `move_tiles_left`. -/
def move_tiles_left_loop (g : Game) : Game × Bool :=
  slide_lines row_cell 1 0 line_indices g false

/-- The loops of `move_tiles_right`. -/
def move_tiles_right_loop (g : Game) : Game × Bool :=
  slide_lines row_cell (-1) 3 line_indices g false

/-- The end of a `move_tiles_*` function: `if (has_grid_changed)
generate_tile(true);`. -/
def spawn_if_changed (index_random value_random : Nat) (after : Game × Bool) : Option Game :=
  if after.2 = true then generate_tile true index_random value_random after.1 else some after.1

/-- `move_tiles_up`. -/
def move_tiles_up (index_random value_random : Nat) (g : Game) : Option Game :=
  spawn_if_changed index_random value_random (move_tiles_up_loop g)

/-- `move_tiles_down`. -/
def move_tiles_down (index_random value_random : Nat) (g : Game) : Option Game :=
  spawn_if_changed index_random value_random (move_tiles_down_loop g)

/-- `move_tiles_left`. -/
def move_tiles_left (index_random value_random : Nat) (g : Game) : Option Game :=
  spawn_if_changed index_random value_random (move_tiles_left_loop g)

/-- `move_tiles_right`. -/
def move_tiles_right (index_random value_random : Nat) (g : Game) : Option Game :=
  spawn_if_changed index_random value_random (move_tiles_right_loop g)

/-- The four moves: each `move_tiles_*` function with its loops, the cells of
its lines, the direction its inner loop walks and the position it starts
from. -/
def move_table : List ((Nat → Nat → Game → Option Game) × (Game → Game × Bool)
    × (Int → Int → Int × Int) × Int × Int) :=
  [(move_tiles_up, move_tiles_up_loop, column_cell, 1, 0),
   (move_tiles_down, move_tiles_down_loop, column_cell, -1, 3),
   (move_tiles_left, move_tiles_left_loop, row_cell, 1, 0),
   (move_tiles_right, move_tiles_right_loop, row_cell, -1, 3)]

/-! ## Reference collapse of a line -/

/-- Merge equal neighbours pairwise from the front of a gap-free line; a tile
made by a merge is not merged again. -/
def merge_pairs : List Int → List Int
  | a :: b :: rest => if a = b then (a + b) :: merge_pairs rest else a :: merge_pairs (b :: rest)
  | line => line

/-- The tiles that `merge_pairs` makes by merging. -/
def merged_tiles : List Int → List Int
  | a :: b :: rest => if a = b then (a + b) :: merged_tiles rest else merged_tiles (b :: rest)
  | _ => []

/-- The reference collapse of a line towards its front: drop the gaps, merge
pairwise, fill up with empty spots. -/
def collapse (line : List Int) : List Int :=
  merge_pairs (line.filter fun tile => decide (tile ≠ 0))
    ++ List.replicate (line.length - (merge_pairs (line.filter fun tile => decide (tile ≠ 0))).length) 0

/-- The four tiles of a line, from the edge the tiles move to. -/
def line_tiles (grid : Grid) (cell : Int → Int × Int) (step start : Int) : List Int :=
  [grid (cell start).1 (cell start).2, grid (cell (start + step)).1 (cell (start + step)).2,
   grid (cell (start + step + step)).1 (cell (start + step + step)).2,
   grid (cell (start + step + step + step)).1 (cell (start + step + step + step)).2]

/-! ## Grids used as concrete inputs -/

/-- The grid with the given rows. -/
def grid_of_rows (rows : List (List Int)) : Grid := fun r c =>
  if 0 ≤ r ∧ 0 ≤ c then (rows.getD r.toNat []).getD c.toNat 0 else 0

/-- A game in play: rows `2 2 4 0`, `2 2 2 2`, `0 2 2 2`, `4 4 8 0`, score 0. -/
def sample_game : Game :=
  { score := 0, grid := grid_of_rows [[2, 2, 4, 0], [2, 2, 2, 2], [0, 2, 2, 2], [4, 4, 8, 0]] }

/-- A grid with no empty spot and no two equal neighbours. -/
def stuck_game : Game :=
  { score := 0, grid := grid_of_rows [[2, 4, 2, 4], [4, 2, 4, 2], [2, 4, 2, 4], [4, 2, 4, 2]] }

/-! ## Vocabulary of the proofs -/

/-- The locals of the inner loop with the four tiles of its line. -/
structure LineState where
  tiles : List Int
  score : Int
  collided : Nat
  merged : Bool
  changed : Bool

/-- The body of the inner loop, `slide_tile`, on the tiles of the line. -/
def line_tile (position : Nat) (ls : LineState) : LineState :=
  if ls.tiles.getD position 0 ≠ 0 then
    if ls.tiles.getD ls.collided 0 = 0 then
      { ls with
        tiles := (ls.tiles.set ls.collided (ls.tiles.getD position 0)).set position 0
        changed := true }
    else if ls.tiles.getD ls.collided 0 = ls.tiles.getD position 0 ∧ ls.merged = false then
      { tiles := (ls.tiles.set ls.collided (ls.tiles.getD ls.collided 0 * 2)).set position 0
        score := ls.score
          + ((ls.tiles.set ls.collided (ls.tiles.getD ls.collided 0 * 2)).set position 0).getD
              ls.collided 0
        collided := ls.collided
        merged := true
        changed := true }
    else if ls.collided + 1 ≠ position then
      { tiles := (ls.tiles.set (ls.collided + 1) (ls.tiles.getD position 0)).set position 0
        score := ls.score
        collided := ls.collided + 1
        merged := false
        changed := true }
    else
      { ls with collided := ls.collided + 1, merged := false }
  else ls

/-- The three rounds of the inner loop on a line. -/
def line_pass (tiles : List Int) (score : Int) (changed : Bool) : LineState :=
  line_tile 3 (line_tile 2 (line_tile 1
    { tiles := tiles, score := score, collided := 0, merged := false, changed := changed }))

/-- The four positions of a line stand for four different cells. -/
def DistinctCells (cell : Int → Int × Int) : Prop :=
  ∀ i j : Int, 0 ≤ i → i ≤ 3 → 0 ≤ j → j ≤ 3 → cell i = cell j → i = j

/-- The locals of the inner loop seen from the line it walks. -/
def line_view (cell : Int → Int × Int) (st : Slide) : LineState :=
  { tiles := line_tiles st.grid cell 1 0
    score := st.score
    collided := st.collided.toNat
    merged := st.has_collided_tile_merged
    changed := st.has_grid_changed }

/-- What one pass of the inner loop does to a line, stated with the reference
collapse: the tiles of the line, the score, the change flag, and the cells off
the line. -/
def LineSpec (cell : Int → Int × Int) (step start : Int) (g : Game) (changed : Bool)
    (after : Game × Bool) : Prop :=
  line_tiles after.1.grid cell step start = collapse (line_tiles g.grid cell step start) ∧
  after.1.score = g.score + (merged_tiles
    ((line_tiles g.grid cell step start).filter fun tile => decide (tile ≠ 0))).sum ∧
  after.2 = (changed || decide (collapse (line_tiles g.grid cell step start)
    ≠ line_tiles g.grid cell step start)) ∧
  ∀ r c, (∀ i : Int, 0 ≤ i → i ≤ 3 → (r, c) ≠ cell i) → after.1.grid r c = g.grid r c

/-- The line walked from its other end. -/
def flip_cell (cell : Int → Int × Int) : Int → Int × Int := fun i => cell (3 - i)

/-- The locals of the inner loop with the collided position counted from the
other end of the line. -/
def flip_slide (st : Slide) : Slide :=
  { grid := st.grid, score := st.score, collided := 3 - st.collided,
    has_collided_tile_merged := st.has_collided_tile_merged,
    has_grid_changed := st.has_grid_changed }

/-- A line as `slide_line` walks it: forwards from position 0, or backwards
from position 3. -/
def Walk (step start : Int) : Prop := (step = 1 ∧ start = 0) ∨ (step = -1 ∧ start = 3)

/-- The score a line earns in one move: the sum of the tiles made by merging
in its reference collapse. -/
def line_gain (grid : Grid) (cell : Int → Int × Int) (step start : Int) : Int :=
  (merged_tiles ((line_tiles grid cell step start).filter fun tile => decide (tile ≠ 0))).sum

/-- Whether the reference collapse changes a line. -/
def line_moves (grid : Grid) (cell : Int → Int × Int) (step start : Int) : Bool :=
  decide (collapse (line_tiles grid cell step start) ≠ line_tiles grid cell step start)

/-- The lines of a move are made of different cells, and no cell lies on two
lines. -/
def DisjointLines (cell : Int → Int → Int × Int) : Prop :=
  ∀ l m i j : Int, 0 ≤ i → i ≤ 3 → 0 ≤ j → j ≤ 3 → cell l i = cell m j → l = m ∧ i = j

/-- A line that a move towards its front leaves as it is: no gap before a
tile and no two equal neighbours. -/
def StableLine (a b c d : Int) : Prop :=
  (a = 0 → b = 0) ∧ (b = 0 → c = 0) ∧ (c = 0 → d = 0) ∧
  (a ≠ 0 → a ≠ b) ∧ (b ≠ 0 → b ≠ c) ∧ (c ≠ 0 → c ≠ d)

/-- Indices that lie inside `grid[4][4]`. -/
def InGrid (row column : Int) : Prop := 0 ≤ row ∧ row ≤ 3 ∧ 0 ≤ column ∧ column ≤ 3

/-- Two grids with the same tile in each of the sixteen cells. -/
def SameGrid (g h : Grid) : Prop := ∀ r c, InGrid r c → g r c = h r c

/-- The lines of a move fill the grid. -/
def CoversGrid (cell : Int → Int → Int × Int) : Prop :=
  (∀ l i : Int, 0 ≤ l → l ≤ 3 → 0 ≤ i → i ≤ 3 → InGrid (cell l i).1 (cell l i).2) ∧
  ∀ r c, InGrid r c → ∃ l i : Int, 0 ≤ l ∧ l ≤ 3 ∧ 0 ≤ i ∧ i ≤ 3 ∧ cell l i = (r, c)

/-- The tiles of a row from the left edge. -/
def row_tiles (grid : Grid) (row : Int) : List Int :=
  [grid row 0, grid row 1, grid row 2, grid row 3]

/-- The sum of the sixteen tiles. -/
def grid_sum (grid : Grid) : Int := (grid_cells.map fun cell => grid cell.1 cell.2).sum

/-- The tiles of the four lines of a move are the sixteen tiles of the grid. -/
def LinesFill (cell : Int → Int → Int × Int) (step start : Int) : Prop :=
  ∀ grid : Grid,
    (line_tiles grid (cell 0) step start).sum + (line_tiles grid (cell 1) step start).sum
      + (line_tiles grid (cell 2) step start).sum + (line_tiles grid (cell 3) step start).sum
      = grid_sum grid

end Game2048

/-!
# Snake: the death check

A shallow embedding of `check_snake_state` and `locate_new_snake_head` of
`src/Snake/snake.c`.

* The linked list that starts at `ptr_snake_head` is the list of the positions
  `(line, column)` of its nodes, head first; the node whose `ptr_next_node` is
  `NULL` is the last element.  The empty list stands for a `NULL` head, and a
  function that would dereference it is `none`.
* The local array `new_snake_head_position` is not initialised when it is
  declared; what it holds then is a parameter.
-/

namespace Snake

/-- `enum snake_direction`. -/
inductive snake_direction where
  | STILL
  | UP
  | DOWN
  | LEFT
  | RIGHT
  deriving DecidableEq

/-- The globals that the death check reads. -/
structure Game where
  snake : List (Int × Int)
  snake_movement : snake_direction
  is_snake_teleporting : Bool

/-- `locate_new_snake_head`: the array after the call; `new_snake_head_position`
is the array before it, which the `default` case leaves as it is. -/
def locate_new_snake_head (g : Game) (new_snake_head_position : Int × Int) : Option (Int × Int) :=
  match g.snake_movement with
  | snake_direction.UP =>
    match g.snake with
    | [] => none
    | head :: _ => some (head.1 - 1, head.2)
  | snake_direction.DOWN =>
    match g.snake with
    | [] => none
    | head :: _ => some (head.1 + 1, head.2)
  | snake_direction.LEFT =>
    match g.snake with
    | [] => none
    | head :: _ => some (head.1, head.2 - 1)
  | snake_direction.RIGHT =>
    match g.snake with
    | [] => none
    | head :: _ => some (head.1, head.2 + 1)
  | snake_direction.STILL => some new_snake_head_position

/-- The loop `while (ptr_snake_node->ptr_next_node != NULL)` of
`check_snake_state` from the node at the front of the list on: `some false`
when it returns false, `some true` when it ends. -/
def check_snake_nodes : List (Int × Int) → Int × Int → Option Bool
  | [], _ => none
  | [_], _ => some true
  | node :: next :: rest, new_snake_head_position =>
    if node.1 = new_snake_head_position.1 then
      if node.2 = new_snake_head_position.2 then some false
      else check_snake_nodes (next :: rest) new_snake_head_position
    else check_snake_nodes (next :: rest) new_snake_head_position

/-- `check_snake_state`: whether the snake will be alive in the next frame;
`uninitialised` is what the local array holds before `locate_new_snake_head`
is called. -/
def check_snake_state (g : Game) (uninitialised : Int × Int) : Option Bool :=
  if g.snake_movement ≠ snake_direction.STILL ∧ g.is_snake_teleporting = false then
    match locate_new_snake_head g uninitialised with
    | none => none
    | some new_snake_head_position =>
      if new_snake_head_position.1 = 4 ∨ new_snake_head_position.1 = 20 then some false
      else if new_snake_head_position.2 = 20 ∨ new_snake_head_position.2 = 51 then some false
      else check_snake_nodes g.snake new_snake_head_position
  else some true

/-! ## Snakes used as concrete inputs -/

/-- The snake of `initialize_snake`, head at (12,28), moving up. -/
def initial_snake_up : Game :=
  { snake := [(12, 28), (12, 27), (12, 26), (12, 25), (12, 24)]
    snake_movement := snake_direction.UP
    is_snake_teleporting := false }

/-- A snake curled so that a move to the left puts the head on its fourth
node. -/
def curled_snake : Game :=
  { snake := [(12, 28), (11, 28), (11, 27), (12, 27), (13, 27)]
    snake_movement := snake_direction.LEFT
    is_snake_teleporting := false }

end Snake

/-! # Theorems -/

namespace Gomoku

/-! ## The axis loops of the terminal detector -/

theorem window_offsets_eq : window_offsets = offsets_from (-4) 9 := rfl

theorem mem_offsets_from (o' : Int) :
    ∀ (n : Nat) (o : Int), o' ∈ offsets_from o n → o ≤ o' ∧ o' < o + n := by
  intro n
  induction n with
  | zero =>
    intro o h
    simp [offsets_from] at h
  | succ k ih =>
    intro o h
    unfold offsets_from at h
    rcases List.mem_cons.mp h with rfl | h
    · push_cast; omega
    · have := ih (o + 1) h
      push_cast
      omega

theorem scan_window_frozen (inb own : Int → Bool) :
    ∀ (l : List Int) (t : Int), (∀ o ∈ l, inb o = false) → t ≠ 5 →
      scan_window inb own l t = none := by
  intro l
  induction l with
  | nil => intro t _ _; rfl
  | cons o rest ih =>
    intro t h ht
    unfold scan_window
    have ho := h o (List.mem_cons_self _ _)
    simp only [ho, Bool.false_eq_true, if_false, if_neg ht]
    exact ih t (fun x hx => h x (List.mem_cons_of_mem _ hx)) ht

theorem out_of_range_tail (inb : Int → Bool)
    (hpos : ∀ o : Int, 0 ≤ o → o < 4 → inb (o + 1) = true → inb o = true) (o : Int)
    (ho : 0 < o) (hf : inb o = false) :
    ∀ m : Nat, o + m ≤ 4 → inb (o + m) = false := by
  intro m
  induction m with
  | zero => intro _; simpa using hf
  | succ k ih =>
    intro hle
    have hk := ih (by push_cast at hle; omega)
    by_contra hcon
    have htrue : inb (o + (k : Int) + 1) = true := by
      have : o + ((k + 1 : Nat) : Int) = o + (k : Int) + 1 := by push_cast; ring
      rw [this] at hcon
      simpa using hcon
    have := hpos (o + k) (by omega) (by push_cast at hle; omega) htrue
    rw [hk] at this
    exact absurd this (by decide)

/-- The axis loop from offset `o` on, started with a counter `t` that is the
length of the run of owned in-range cells ending just before `o`. -/
theorem scan_from_outcome (inb own : Int → Bool)
    (hneg : ∀ o : Int, -4 ≤ o → o < 0 → inb o = true → inb (o + 1) = true)
    (hpos : ∀ o : Int, 0 ≤ o → o < 4 → inb (o + 1) = true → inb o = true) :
    ∀ (n : Nat) (o t : Int), o + n = 5 → -4 ≤ o → 0 ≤ t → t ≤ 4 → t ≤ o + 4 →
      (∀ j : Int, 1 ≤ j → j ≤ t → inb (o - j) = true ∧ own (o - j) = true) →
      (t < o + 4 → ¬ (inb (o - t - 1) = true ∧ own (o - t - 1) = true)) →
      (∀ k : Int, 0 ≤ k → k < o →
        ∃ j : Int, 0 ≤ j ∧ j ≤ 4 ∧ ¬ (inb (k - j) = true ∧ own (k - j) = true)) →
      match scan_window inb own (offsets_from o n) t with
      | some off => 0 ≤ off ∧ off ≤ 4 ∧
          ∀ j : Int, 0 ≤ j → j ≤ 4 → inb (off - j) = true ∧ own (off - j) = true
      | none => ∀ k : Int, 0 ≤ k → k ≤ 4 →
          ∃ j : Int, 0 ≤ j ∧ j ≤ 4 ∧ ¬ (inb (k - j) = true ∧ own (k - j) = true) := by
  intro n
  induction n with
  | zero =>
    intro o t hon _ _ _ _ _ _ hB
    simp only [offsets_from, scan_window]
    intro k hk0 hk4
    exact hB k hk0 (by push_cast at hon; omega)
  | succ m ih =>
    intro o t hon ho ht0 ht4 hto hrun hend hB
    push_cast at hon
    unfold offsets_from scan_window
    by_cases hin : inb o = true
    · by_cases hown : own o = true
      · simp only [hin, hown, if_true]
        by_cases h5 : t + 1 = 5
        · rw [if_pos h5]
          refine ⟨by omega, by omega, ?_⟩
          intro j hj0 hj4
          by_cases hj : j = 0
          · subst hj; simp only [sub_zero]; exact ⟨hin, hown⟩
          · exact hrun j (by omega) (by omega)
        · rw [if_neg h5]
          refine ih (o + 1) (t + 1) (by omega) (by omega) (by omega) (by omega) (by omega)
            ?_ ?_ ?_
          · intro j hj1 hjt
            by_cases hj : j = 1
            · subst hj
              have : o + 1 - 1 = o := by ring
              rw [this]; exact ⟨hin, hown⟩
            · have : o + 1 - j = o - (j - 1) := by ring
              rw [this]
              exact hrun (j - 1) (by omega) (by omega)
          · intro hlt
            have : o + 1 - (t + 1) - 1 = o - t - 1 := by ring
            rw [this]
            exact hend (by omega)
          · intro k hk0 hk
            by_cases hko : k < o
            · exact hB k hk0 hko
            · have hk' : k = o := by omega
              subst hk'
              refine ⟨t + 1, by omega, by omega, ?_⟩
              have : k - (t + 1) = k - t - 1 := by ring
              rw [this]
              exact hend (by omega)
      · have hown' : own o = false := by simpa using hown
        simp only [hin, hown', if_true, Bool.false_eq_true, if_false]
        rw [if_neg (by decide)]
        refine ih (o + 1) 0 (by omega) (by omega) (by omega) (by omega) (by omega) ?_ ?_ ?_
        · intro j hj1 hj0
          omega
        · intro _
          rw [show o + 1 - 0 - 1 = o by ring]
          simp [hown']
        · intro k hk0 hk
          by_cases hko : k < o
          · exact hB k hk0 hko
          · have hk' : k = o := by omega
            subst hk'
            exact ⟨0, by omega, by omega, by simp [hown']⟩
    · have hin' : inb o = false := by simpa using hin
      simp only [hin', Bool.false_eq_true, if_false]
      rw [if_neg (by omega)]
      by_cases hneg0 : o ≤ 0
      · have ht : t = 0 := by
          by_contra hne
          have h1 := (hrun 1 (by omega) (by omega)).1
          have := hneg (o - 1) (by omega) (by omega) h1
          rw [show o - 1 + 1 = o by ring, hin'] at this
          exact absurd this (by decide)
        subst ht
        refine ih (o + 1) 0 (by omega) (by omega) (by omega) (by omega) (by omega) ?_ ?_ ?_
        · intro j hj1 hj0
          omega
        · intro _
          rw [show o + 1 - 0 - 1 = o by ring]
          simp [hin']
        · intro k hk0 hk
          by_cases hko : k < o
          · exact hB k hk0 hko
          · have hk' : k = o := by omega
            subst hk'
            exact ⟨0, by omega, by omega, by simp [hin']⟩
      · have hfrozen : scan_window inb own (offsets_from (o + 1) m) t = none := by
          apply scan_window_frozen _ _ _ _ _ (by omega)
          intro o' ho'
          obtain ⟨h1, h2⟩ := mem_offsets_from o' m (o + 1) ho'
          have := out_of_range_tail inb hpos o (by omega) hin' (o' - o).toNat
            (by rw [Int.toNat_of_nonneg (by omega)]; omega)
          rw [Int.toNat_of_nonneg (by omega)] at this
          rw [show o + (o' - o) = o' by ring] at this
          exact this
        rw [hfrozen]
        intro k hk0 hk4
        by_cases hko : k < o
        · exact hB k hk0 hko
        · exact ⟨k - o, by omega, by omega, by
            rw [show k - (k - o) = o by ring]; simp [hin']⟩

theorem ScanOutcome_congr (t t' : Int → Option Bool) (res : Option Int)
    (h : ∀ o : Int, -4 ≤ o → o ≤ 4 → t o = t' o) (hres : ScanOutcome t res) :
    ScanOutcome t' res := by
  cases res with
  | none =>
    intro k
    obtain ⟨j, hj⟩ := hres k
    refine ⟨j, ?_⟩
    rw [← h _ (by omega) (by omega)]
    exact hj
  | some off =>
    obtain ⟨h0, h4, hall⟩ := hres
    refine ⟨h0, h4, fun j => ?_⟩
    rw [← h _ (by omega) (by omega)]
    exact hall j

theorem scan_window_outcome (inb own : Int → Bool)
    (hneg : ∀ o : Int, -4 ≤ o → o < 0 → inb o = true → inb (o + 1) = true)
    (hpos : ∀ o : Int, 0 ≤ o → o < 4 → inb (o + 1) = true → inb o = true) :
    ScanOutcome (axis_status inb own) (scan_window inb own window_offsets 0) := by
  have key := scan_from_outcome inb own hneg hpos 9 (-4) 0 (by norm_num) (by omega) (by omega)
    (by omega) (by omega) (fun j h1 h0 => by omega) (fun h => by omega)
    (fun k h0 h4 => by omega)
  rw [← window_offsets_eq] at key
  have hst : ∀ o : Int, axis_status inb own o = some true ↔ (inb o = true ∧ own o = true) := by
    intro o
    unfold axis_status
    cases inb o <;> cases own o <;> simp
  unfold ScanOutcome
  cases hres : scan_window inb own window_offsets 0 with
  | none =>
    rw [hres] at key
    simp only at key ⊢
    intro k
    obtain ⟨j, hj0, hj4, hj⟩ := key k (by omega) (by omega)
    refine ⟨⟨j.toNat, by omega⟩, ?_⟩
    simp only [Int.toNat_of_nonneg hj0, ne_eq, hst]
    exact hj
  | some off =>
    rw [hres] at key
    simp only at key ⊢
    obtain ⟨h0, h4, hall⟩ := key
    refine ⟨h0, h4, fun j => ?_⟩
    rw [hst]
    exact hall j (by omega) (by omega)

theorem scan_isSome_iff (t : Int → Option Bool) (res : Option Int) (h : ScanOutcome t res) :
    res.isSome = true ↔ ∃ k : Fin 5, ∀ j : Fin 5, t ((k : Int) - (j : Int)) = some true := by
  cases res with
  | none =>
    simp only [Option.isSome_none, Bool.false_eq_true, false_iff, not_exists, not_forall]
    intro k
    exact h k
  | some off =>
    obtain ⟨h0, h4, hall⟩ := h
    simp only [Option.isSome_some, true_iff]
    refine ⟨⟨off.toNat, by omega⟩, fun j => ?_⟩
    have : ((off.toNat : Nat) : Int) = off := Int.toNat_of_nonneg h0
    simp only [this]
    exact hall j

theorem line_status_eq_some_true (s : State) (dr dc o : Int) :
    line_status s dr dc o = some true ↔
      inBoard (s.last_placed_row + o * dr) (s.last_placed_column + o * dc) ∧
      s.gomoku_board (s.last_placed_row + o * dr) (s.last_placed_column + o * dc)
        = s.gomoku_board s.last_placed_row s.last_placed_column := by
  unfold line_status
  split_ifs with h <;> simp [h]

theorem scan_vertical_outcome (s : State) (h : LastMoveInRange s) :
    ScanOutcome (line_status s 1 0) (scan_vertical s) := by
  obtain ⟨h1, h2, h3, h4⟩ := h
  refine ScanOutcome_congr _ _ _ ?_ (scan_window_outcome _ _ ?_ ?_)
  · intro o _ _
    simp only [axis_status, line_status, inBoard, decide_eq_true_eq, mul_one, mul_zero, add_zero]
    split_ifs <;> first | rfl | omega
  · intro o _ _
    simp only [decide_eq_true_eq]
    omega
  · intro o _ _
    simp only [decide_eq_true_eq]
    omega

theorem scan_horizontal_outcome (s : State) (h : LastMoveInRange s) :
    ScanOutcome (line_status s 0 1) (scan_horizontal s) := by
  obtain ⟨h1, h2, h3, h4⟩ := h
  refine ScanOutcome_congr _ _ _ ?_ (scan_window_outcome _ _ ?_ ?_)
  · intro o _ _
    simp only [axis_status, line_status, inBoard, decide_eq_true_eq, mul_one, mul_zero, add_zero]
    split_ifs <;> first | rfl | omega
  · intro o _ _
    simp only [decide_eq_true_eq]
    omega
  · intro o _ _
    simp only [decide_eq_true_eq]
    omega

theorem scan_major_diagonal_outcome (s : State) (h : LastMoveInRange s) :
    ScanOutcome (line_status s 1 1) (scan_major_diagonal s) := by
  obtain ⟨h1, h2, h3, h4⟩ := h
  refine ScanOutcome_congr _ _ _ ?_ (scan_window_outcome _ _ ?_ ?_)
  · intro o _ _
    simp only [axis_status, line_status, inBoard, decide_eq_true_eq, mul_one]
  · intro o _ _
    simp only [decide_eq_true_eq]
    omega
  · intro o _ _
    simp only [decide_eq_true_eq]
    omega

theorem scan_minor_diagonal_outcome (s : State) (h : LastMoveInRange s) :
    ScanOutcome (line_status s (-1) 1) (scan_minor_diagonal s) := by
  obtain ⟨h1, h2, h3, h4⟩ := h
  refine ScanOutcome_congr _ _ _ ?_ (scan_window_outcome _ _ ?_ ?_)
  · intro o _ _
    have hsub : s.last_placed_row + o * -1 = s.last_placed_row - o := by ring
    simp only [axis_status, line_status, inBoard, decide_eq_true_eq, mul_one, hsub]
  · intro o _ _
    simp only [decide_eq_true_eq]
    omega
  · intro o _ _
    simp only [decide_eq_true_eq]
    omega

theorem isSome_iff_AxisWin (s : State) (dr dc : Int) (res : Option Int)
    (h : ScanOutcome (line_status s dr dc) res) : res.isSome = true ↔ AxisWin s dr dc := by
  rw [scan_isSome_iff _ _ h]
  unfold AxisWin FiveThrough
  simp only [line_status_eq_some_true]

theorem mem_all_cells (row column : Int) : (row, column) ∈ all_cells ↔ inBoard row column := by
  unfold all_cells inBoard
  simp only [List.mem_flatMap, List.mem_map, List.mem_range, Prod.mk.injEq]
  constructor
  · rintro ⟨r, hr, c, hc, rfl, rfl⟩
    omega
  · rintro ⟨h1, h2, h3, h4⟩
    exact ⟨row.toNat, by omega, column.toNat, by omega, Int.toNat_of_nonneg h1,
      Int.toNat_of_nonneg h3⟩

theorem board_full_iff (b : Board) : board_full b = true ↔ NoEmptyCell b := by
  unfold board_full NoEmptyCell
  rw [List.all_eq_true]
  constructor
  · intro h row column hin
    simpa using h _ ((mem_all_cells row column).mpr hin)
  · rintro h ⟨row, column⟩ hmem
    simpa using h row column ((mem_all_cells row column).mp hmem)

/-- C1: for a last move inside the board, `check_battle_state` returns true
exactly when the last mover has five consecutive cells through the last move
on the vertical, horizontal or one of the two diagonal axes, or the board has
no Empty cell; otherwise it returns false. -/
theorem terminal_iff_five_or_full (s : State) (h : LastMoveInRange s) :
    check_battle_state s = true ↔
      ((AxisWin s 1 0 ∨ AxisWin s 0 1 ∨ AxisWin s 1 1 ∨ AxisWin s (-1) 1)
        ∨ NoEmptyCell s.gomoku_board) := by
  have hv := isSome_iff_AxisWin s 1 0 _ (scan_vertical_outcome s h)
  have hh := isSome_iff_AxisWin s 0 1 _ (scan_horizontal_outcome s h)
  have hj := isSome_iff_AxisWin s 1 1 _ (scan_major_diagonal_outcome s h)
  have hn := isSome_iff_AxisWin s (-1) 1 _ (scan_minor_diagonal_outcome s h)
  have hf := board_full_iff s.gomoku_board
  unfold check_battle_state
  rw [← hv, ← hh, ← hj, ← hn, ← hf]
  cases (scan_vertical s).isSome <;> cases (scan_horizontal s).isSome <;>
    cases (scan_major_diagonal s).isSome <;> cases (scan_minor_diagonal s).isSome <;> simp

/-! ## Winner detection, highlighted span and draw -/

theorem scan_eq_none_of_not_win (s : State) (dr dc : Int) (res : Option Int)
    (h : ScanOutcome (line_status s dr dc) res) (hw : ¬ AxisWin s dr dc) : res = none := by
  cases hres : res with
  | none => rfl
  | some off =>
    exfalso
    apply hw
    rw [← isSome_iff_AxisWin s dr dc res h, hres]
    rfl

theorem scan_isSome_of_win (s : State) (dr dc : Int) (res : Option Int)
    (h : ScanOutcome (line_status s dr dc) res) (hw : AxisWin s dr dc) : ∃ off, res = some off := by
  have := (isSome_iff_AxisWin s dr dc res h).mpr hw
  exact Option.isSome_iff_exists.mp this

theorem check_winner_ne_zero_imp (s : State) (h : LastMoveInRange s) (hw : check_winner s ≠ 0) :
    AxisWin s 1 0 ∨ AxisWin s 0 1 ∨ AxisWin s 1 1 ∨ AxisWin s (-1) 1 := by
  by_contra hcon
  simp only [not_or] at hcon
  obtain ⟨n1, n2, n3, n4⟩ := hcon
  apply hw
  unfold check_winner check_winner_call
  rw [scan_eq_none_of_not_win s 1 0 _ (scan_vertical_outcome s h) n1,
    scan_eq_none_of_not_win s 0 1 _ (scan_horizontal_outcome s h) n2,
    scan_eq_none_of_not_win s 1 1 _ (scan_major_diagonal_outcome s h) n3,
    scan_eq_none_of_not_win s (-1) 1 _ (scan_minor_diagonal_outcome s h) n4]

/-- C2 (as stated, refuted): on `cross_state` the last move (7,7) lies on a stone,
`check_winner` reports Side A, and two axes hold five in a row through (7,7). -/
theorem check_winner_two_axes :
    LastMoveInRange cross_state ∧ cross_state.gomoku_board 7 7 = 1 ∧
      check_winner cross_state = 1 ∧ winning_axes cross_state = 2 ∧
      ¬ (check_winner cross_state ≠ 0 → winning_axes cross_state = 1) := by
  decide

/-- C2 (amended): when `check_winner` returns a non-zero side, at least one of
the four axes through the last move holds five consecutive cells of the last
mover that include the last move. -/
theorem check_winner_some_axis (s : State) (h : LastMoveInRange s)
    (hw : check_winner s ≠ 0) : 1 ≤ winning_axes s := by
  unfold winning_axes
  rcases check_winner_ne_zero_imp s h hw with h1 | h1 | h1 | h1 <;> simp only [h1, if_true] <;> omega

theorem check_winner_some_axis_witness :
    check_winner five_state ≠ 0 ∧ 1 ≤ winning_axes five_state :=
  ⟨by decide, check_winner_some_axis five_state (by decide) (by decide)⟩

theorem window_cells_ok (s : State) (dr dc off : Int)
    (h : ScanOutcome (line_status s dr dc) (some off)) (o : Int) (ho : o ∈ [0, -1, -2, -3, -4]) :
    inBoard (s.last_placed_row + (off + o) * dr) (s.last_placed_column + (off + o) * dc) ∧
      s.gomoku_board (s.last_placed_row + (off + o) * dr) (s.last_placed_column + (off + o) * dc)
        = s.gomoku_board s.last_placed_row s.last_placed_column := by
  obtain ⟨_, _, hall⟩ := h
  simp only [List.mem_cons, List.mem_singleton, List.not_mem_nil, or_false] at ho
  have key : ∀ j : Fin 5, off + o = off - (j : Int) →
      inBoard (s.last_placed_row + (off + o) * dr) (s.last_placed_column + (off + o) * dc) ∧
      s.gomoku_board (s.last_placed_row + (off + o) * dr) (s.last_placed_column + (off + o) * dc)
        = s.gomoku_board s.last_placed_row s.last_placed_column := by
    intro j hj
    rw [hj]
    exact (line_status_eq_some_true s dr dc _).mp (hall j)
  rcases ho with rfl | rfl | rfl | rfl | rfl
  · exact key ⟨0, by omega⟩ (by simp only [Fin.val_mk]; push_cast; ring)
  · exact key ⟨1, by omega⟩ (by simp only [Fin.val_mk]; push_cast; ring)
  · exact key ⟨2, by omega⟩ (by simp only [Fin.val_mk]; push_cast; ring)
  · exact key ⟨3, by omega⟩ (by simp only [Fin.val_mk]; push_cast; ring)
  · exact key ⟨4, by omega⟩ (by simp only [Fin.val_mk]; push_cast; ring)

theorem window_has_last (off : Int) (h0 : 0 ≤ off) (h4 : off ≤ 4) :
    ∃ o ∈ [(0 : Int), -1, -2, -3, -4], off + o = 0 := by
  refine ⟨-off, ?_, by ring⟩
  simp only [List.mem_cons, List.mem_singleton, List.not_mem_nil, or_false]
  omega

theorem span_of_outcome (s : State) (dr dc off : Int)
    (h : ScanOutcome (line_status s dr dc) (some off)) (cells : List (Int × Int))
    (hcells : cells = [0, -1, -2, -3, -4].map fun o : Int =>
      (s.last_placed_row + (off + o) * dr, s.last_placed_column + (off + o) * dc)) :
    (∀ cell ∈ cells, inBoard cell.1 cell.2 ∧
        s.gomoku_board cell.1 cell.2 = s.gomoku_board s.last_placed_row s.last_placed_column) ∧
      (s.last_placed_row, s.last_placed_column) ∈ cells := by
  subst hcells
  constructor
  · intro cell hcell
    rw [List.mem_map] at hcell
    obtain ⟨o, ho, rfl⟩ := hcell
    exact window_cells_ok s dr dc off h o ho
  · obtain ⟨o, ho, hz⟩ := window_has_last off h.1 h.2.1
    rw [List.mem_map]
    refine ⟨o, ho, ?_⟩
    rw [hz]
    simp

/-- C3: when `check_winner` calls a highlighter, the five cells that the
highlighter visits (the end cell and the four cells before it on that axis) are
inside the board, hold the stone of the last mover, and include the last move. -/
theorem check_winner_span (s : State) (h : LastMoveInRange s) (hl : Highlight)
    (hcall : (check_winner_call s).2 = some hl) :
    (∀ cell ∈ highlight_cells hl, inBoard cell.1 cell.2 ∧
        s.gomoku_board cell.1 cell.2 = s.gomoku_board s.last_placed_row s.last_placed_column) ∧
      (s.last_placed_row, s.last_placed_column) ∈ highlight_cells hl := by
  have hv := scan_vertical_outcome s h
  have hh := scan_horizontal_outcome s h
  have hj := scan_major_diagonal_outcome s h
  have hn := scan_minor_diagonal_outcome s h
  unfold check_winner_call at hcall
  cases h1 : scan_vertical s with
  | some off =>
    rw [h1] at hcall hv
    simp only [Option.some.injEq] at hcall
    subst hcall
    refine span_of_outcome s 1 0 off hv _ ?_
    simp only [highlight_cells, List.map_cons, List.map_nil, mul_one, mul_zero, add_zero]
    ring_nf
  | none =>
    rw [h1] at hcall
    cases h2 : scan_horizontal s with
    | some off =>
      rw [h2] at hcall hh
      simp only [Option.some.injEq] at hcall
      subst hcall
      refine span_of_outcome s 0 1 off hh _ ?_
      simp only [highlight_cells, List.map_cons, List.map_nil, mul_one, mul_zero, add_zero]
      ring_nf
    | none =>
      rw [h2] at hcall
      cases h3 : scan_major_diagonal s with
      | some off =>
        rw [h3] at hcall hj
        simp only [Option.some.injEq] at hcall
        subst hcall
        refine span_of_outcome s 1 1 off hj _ ?_
        simp only [highlight_cells, List.map_cons, List.map_nil, mul_one]
        ring_nf
      | none =>
        rw [h3] at hcall
        cases h4 : scan_minor_diagonal s with
        | some off =>
          rw [h4] at hcall hn
          simp only [Option.some.injEq] at hcall
          subst hcall
          refine span_of_outcome s (-1) 1 off hn _ ?_
          simp only [highlight_cells, List.map_cons, List.map_nil, mul_one]
          ring_nf
        | none =>
          rw [h4] at hcall
          simp at hcall

theorem check_winner_span_witness :
    LastMoveInRange five_state ∧
      check_winner_call five_state = (1, some ⟨Axis.horizontal, 7, 6⟩) ∧
      highlight_cells ⟨Axis.horizontal, 7, 6⟩ = [(7, 6), (7, 5), (7, 4), (7, 3), (7, 2)] ∧
      ((∀ cell ∈ highlight_cells ⟨Axis.horizontal, 7, 6⟩, inBoard cell.1 cell.2 ∧
          five_state.gomoku_board cell.1 cell.2
            = five_state.gomoku_board five_state.last_placed_row five_state.last_placed_column) ∧
        (five_state.last_placed_row, five_state.last_placed_column)
          ∈ highlight_cells ⟨Axis.horizontal, 7, 6⟩) :=
  ⟨by decide, by decide, by decide,
    check_winner_span five_state (by decide) ⟨Axis.horizontal, 7, 6⟩ (by decide)⟩

/-- C4: on a board with no Empty cell where no axis through the last move holds
five consecutive stones of the last mover, `check_battle_state` returns true and
`check_winner` returns 0 (a draw). -/
theorem full_board_is_draw (s : State) (h : LastMoveInRange s)
    (hfull : NoEmptyCell s.gomoku_board)
    (hno : ¬ (AxisWin s 1 0 ∨ AxisWin s 0 1 ∨ AxisWin s 1 1 ∨ AxisWin s (-1) 1)) :
    check_battle_state s = true ∧ check_winner s = 0 := by
  constructor
  · unfold check_battle_state
    split_ifs <;> first | rfl | exact (board_full_iff _).mpr hfull
  · by_contra hw
    exact hno (check_winner_ne_zero_imp s h hw)

theorem draw_state_full : NoEmptyCell draw_state.gomoku_board := by
  intro row column _
  show (if (column + 2 * row) % 4 < 2 then (1 : Int) else -1) ≠ 0
  split_ifs <;> decide

theorem full_board_is_draw_witness :
    LastMoveInRange draw_state ∧ NoEmptyCell draw_state.gomoku_board ∧
      ¬ (AxisWin draw_state 1 0 ∨ AxisWin draw_state 0 1 ∨ AxisWin draw_state 1 1
          ∨ AxisWin draw_state (-1) 1) ∧
      check_battle_state draw_state = true ∧ check_winner draw_state = 0 :=
  ⟨by decide, draw_state_full, by decide,
    full_board_is_draw draw_state (by decide) draw_state_full (by decide)⟩

/-! ## Player placement -/

/-- C7 (failing input): a left click at console position (15, 32) passes every
range test of `check_valid_placement`; the row derived from it is 15, which is
not a row of the board, and the function goes on to index `gomoku_board[15][0]`
instead of returning false. -/
theorem check_valid_placement_row_15 (b : Board) (out : Placement) :
    clicked_cell click_below_board = some (15, 0) ∧ ¬ inBoard 15 0 ∧
      check_valid_placement b click_below_board out = none := by
  refine ⟨by decide, by decide, ?_⟩
  unfold check_valid_placement
  have h : clicked_cell click_below_board = some (15, 0) := by decide
  rw [h]
  have h2 : read_cell b 15 0 = none := by
    unfold read_cell
    rw [if_neg (by decide)]
  simp only [h2]

/-- Rows that `clicked_cell` can deliver: the guard `Y <= 35` admits the rows
15 and 16 next to the rows 0..14 of the board; the column is always in range. -/
theorem clicked_cell_range (input_record : InputRecord) (row column : Int)
    (h : clicked_cell input_record = some (row, column)) :
    0 ≤ row ∧ row ≤ 16 ∧ 0 ≤ column ∧ column ≤ 14 := by
  unfold clicked_cell at h
  split_ifs at h with h1 h2 h3 h4
  simp only [Option.some.injEq, Prod.mk.injEq] at h
  omega

/-- What `check_valid_placement` does whenever it does not index outside the
board: it reports a placement only on an Empty cell of the board, and otherwise
leaves the reference parameters as they were. -/
theorem check_valid_placement_defined (b : Board) (input_record : InputRecord)
    (out out' : Placement) (placed : Bool)
    (h : check_valid_placement b input_record out = some (placed, out')) :
    (placed = true → inBoard out'.placed_row out'.placed_column ∧
        b out'.placed_row out'.placed_column = 0) ∧
      (placed = false → out' = out) := by
  unfold check_valid_placement at h
  cases hc : clicked_cell input_record with
  | none =>
    rw [hc] at h
    simp only [Option.some.injEq, Prod.mk.injEq] at h
    obtain ⟨rfl, rfl⟩ := h
    simp
  | some cell =>
    obtain ⟨row, column⟩ := cell
    rw [hc] at h
    simp only at h
    unfold read_cell at h
    by_cases hin : inBoard row column
    · rw [if_pos hin] at h
      simp only at h
      by_cases hv : b row column = 0
      · rw [if_pos hv] at h
        simp only [Option.some.injEq, Prod.mk.injEq] at h
        obtain ⟨rfl, rfl⟩ := h
        exact ⟨fun _ => ⟨hin, hv⟩, fun hf => by simp at hf⟩
      · rw [if_neg hv] at h
        simp only [Option.some.injEq, Prod.mk.injEq] at h
        obtain ⟨rfl, rfl⟩ := h
        simp
    · rw [if_neg hin] at h
      simp at h

/-! ## The search restores the globals -/

theorem unplace_place (s : State) (row column side : Int)
    (h0 : s.gomoku_board row column = 0) :
    unplace (place s row column side) row column s.last_placed_row s.last_placed_column = s := by
  obtain ⟨b, lr, lc⟩ := s
  simp only [unplace, place, State.mk.injEq, and_true]
  funext r c
  simp only [set_cell]
  by_cases h : r = row ∧ c = column
  · rw [if_pos h, h.1, h.2]
    exact h0.symm
  · rw [if_neg h, if_neg h]

theorem predict_player_loop_eq (childS : State → Int → Int → Option (Int × State))
    (childV : Int → Int → Int → Int → Option Int) (s : State)
    (hchild : ∀ row column a b, childS (place s row column 1) a b
      = (childV row column a b).map fun v => (v, place s row column 1)) :
    ∀ (cells : List (Int × Int)) (a b : Int),
      predict_player_loop childS cells s a b
        = (value_min_loop childV s.gomoku_board a cells b).map fun v => (v, s) := by
  intro cells
  induction cells with
  | nil => intro a b; rfl
  | cons cell rest ih =>
    intro a b
    obtain ⟨row, column⟩ := cell
    unfold predict_player_loop value_min_loop
    by_cases hc : s.gomoku_board row column = 0 ∧ check_neighbors s.gomoku_board row column = true
    · rw [if_pos hc, if_pos hc, hchild]
      cases hv : childV row column a b with
      | none => rfl
      | some v =>
        simp only [Option.map_some', unplace_place s row column 1 hc.1]
        split_ifs <;> first | rfl | exact ih _ _
    · rw [if_neg hc, if_neg hc]
      exact ih a b

theorem predict_ai_loop_eq (childS : State → Int → Int → Option (Int × State))
    (childV : Int → Int → Int → Int → Option Int) (s : State)
    (hchild : ∀ row column a b, childS (place s row column (-1)) a b
      = (childV row column a b).map fun v => (v, place s row column (-1))) :
    ∀ (cells : List (Int × Int)) (a b : Int),
      predict_ai_loop childS cells s a b
        = (value_max_loop childV s.gomoku_board b cells a).map fun v => (v, s) := by
  intro cells
  induction cells with
  | nil => intro a b; rfl
  | cons cell rest ih =>
    intro a b
    obtain ⟨row, column⟩ := cell
    unfold predict_ai_loop value_max_loop
    by_cases hc : s.gomoku_board row column = 0 ∧ check_neighbors s.gomoku_board row column = true
    · rw [if_pos hc, if_pos hc, hchild]
      cases hv : childV row column a b with
      | none => rfl
      | some v =>
        simp only [Option.map_some', unplace_place s row column (-1) hc.1]
        split_ifs <;> first | rfl | exact ih _ _
    · rw [if_neg hc, if_neg hc]
      exact ih a b

/-- `predict_board_value` returns the value computed by `search_value` and
hands the globals back as it found them. -/
theorem predict_board_value_eq (depth : Nat) :
    ∀ (is_player_next : Bool) (s : State) (a b : Int),
      predict_board_value depth is_player_next s a b
        = (search_value depth is_player_next s a b).map fun v => (v, s) := by
  induction depth with
  | zero =>
    intro p s a b
    unfold predict_board_value search_value
    cases assess_board_value s.gomoku_board <;> rfl
  | succ d ih =>
    intro p s a b
    unfold predict_board_value search_value
    by_cases ht : check_battle_state s = true
    · rw [if_pos ht, if_pos ht]
      cases assess_board_value s.gomoku_board <;> rfl
    · rw [if_neg ht, if_neg ht]
      by_cases hp : p = true
      · rw [if_pos hp, if_pos hp]
        exact predict_player_loop_eq _ _ s (fun row column a b => ih false _ a b) all_cells a b
      · rw [if_neg hp, if_neg hp]
        exact predict_ai_loop_eq _ _ s (fun row column a b => ih true _ a b) all_cells a b

theorem calculate_ai_move_loop_eq (s : State) :
    ∀ (cells : List (Int × Int)) (m r c : Int),
      calculate_ai_move_loop cells s m r c
        = (value_root_loop s cells m r c).map fun x => (x, s) := by
  intro cells
  induction cells with
  | nil => intro m r c; rfl
  | cons cell rest ih =>
    intro m r c
    obtain ⟨row, column⟩ := cell
    unfold calculate_ai_move_loop value_root_loop
    by_cases hc : s.gomoku_board row column = 0 ∧ check_neighbors s.gomoku_board row column = true
    · rw [if_pos hc, if_pos hc, predict_board_value_eq]
      cases hv : search_value 2 true (place s row column (-1)) m double_max with
      | none => rfl
      | some v =>
        simp only [Option.map_some', unplace_place s row column (-1) hc.1]
        split_ifs
        · exact ih _ _ _
        · exact ih _ _ _
    · rw [if_neg hc, if_neg hc]
      exact ih m r c

/-! ## Alpha-beta against plain minimax -/

theorem minimax_max_loop_ge (child : Int → Int → Option Int) (b : Board) :
    ∀ (cells : List (Int × Int)) (q P : Int),
      minimax_max_loop child b cells q = some P → q ≤ P := by
  intro cells
  induction cells with
  | nil =>
    intro q P h
    simp only [minimax_max_loop, Option.some.injEq] at h
    omega
  | cons cell rest ih =>
    intro q P h
    obtain ⟨row, column⟩ := cell
    unfold minimax_max_loop at h
    split_ifs at h with hc
    · cases hv : child row column with
      | none => rw [hv] at h; simp at h
      | some v =>
        rw [hv] at h
        have := ih _ P h
        split_ifs at this <;> omega
    · exact ih q P h

theorem minimax_min_loop_le (child : Int → Int → Option Int) (b : Board) :
    ∀ (cells : List (Int × Int)) (q P : Int),
      minimax_min_loop child b cells q = some P → P ≤ q := by
  intro cells
  induction cells with
  | nil =>
    intro q P h
    simp only [minimax_min_loop, Option.some.injEq] at h
    omega
  | cons cell rest ih =>
    intro q P h
    obtain ⟨row, column⟩ := cell
    unfold minimax_min_loop at h
    split_ifs at h with hc
    · cases hv : child row column with
      | none => rw [hv] at h; simp at h
      | some v =>
        rw [hv] at h
        have := ih _ P h
        split_ifs at this <;> omega
    · exact ih q P h

theorem value_max_loop_window (childV : Int → Int → Int → Int → Option Int)
    (childP : Int → Int → Option Int) (brd : Board) (a0 b : Int)
    (hchild : ∀ row column a P, a0 ≤ a → childP row column = some P →
      ∃ R, childV row column a b = some R ∧ WithinWindow R a b P) :
    ∀ (cells : List (Int × Int)) (m q P : Int), a0 ≤ m → q ≤ m → (m = a0 ∨ m = q) →
      minimax_max_loop childP brd cells q = some P →
      ∃ R, value_max_loop childV brd b cells m = some R ∧ WithinWindow R a0 b P := by
  intro cells
  induction cells with
  | nil =>
    intro m q P h1 h2 h3 h
    simp only [minimax_max_loop, Option.some.injEq] at h
    refine ⟨m, rfl, ?_⟩
    unfold WithinWindow
    omega
  | cons cell rest ih =>
    intro m q P h1 h2 h3 h
    obtain ⟨row, column⟩ := cell
    unfold minimax_max_loop at h
    unfold value_max_loop
    by_cases hc : brd row column = 0 ∧ check_neighbors brd row column = true
    · rw [if_pos hc] at h
      rw [if_pos hc]
      cases hv : childP row column with
      | none => rw [hv] at h; simp at h
      | some Pj =>
        rw [hv] at h
        simp only at h
        obtain ⟨Rj, hR, hw⟩ := hchild row column m Pj h1 hv
        rw [hR]
        simp only
        have hmono := minimax_max_loop_ge childP brd rest _ P h
        unfold WithinWindow at hw
        by_cases hcut : b ≤ (if Rj > m then Rj else m)
        · rw [if_pos hcut]
          refine ⟨_, rfl, ?_⟩
          unfold WithinWindow
          split_ifs at hcut hmono ⊢ <;> omega
        · rw [if_neg hcut]
          refine ih _ _ P ?_ ?_ ?_ h
          · split_ifs <;> omega
          · split_ifs at hcut ⊢ <;> omega
          · split_ifs at hcut ⊢ <;> omega
    · rw [if_neg hc] at h
      rw [if_neg hc]
      exact ih m q P h1 h2 h3 h

theorem value_min_loop_window (childV : Int → Int → Int → Int → Option Int)
    (childP : Int → Int → Option Int) (brd : Board) (a b0 : Int)
    (hchild : ∀ row column b P, b ≤ b0 → childP row column = some P →
      ∃ R, childV row column a b = some R ∧ WithinWindow R a b P) :
    ∀ (cells : List (Int × Int)) (m q P : Int), m ≤ b0 → m ≤ q → (m = b0 ∨ m = q) →
      minimax_min_loop childP brd cells q = some P →
      ∃ R, value_min_loop childV brd a cells m = some R ∧ WithinWindow R a b0 P := by
  intro cells
  induction cells with
  | nil =>
    intro m q P h1 h2 h3 h
    simp only [minimax_min_loop, Option.some.injEq] at h
    refine ⟨m, rfl, ?_⟩
    unfold WithinWindow
    omega
  | cons cell rest ih =>
    intro m q P h1 h2 h3 h
    obtain ⟨row, column⟩ := cell
    unfold minimax_min_loop at h
    unfold value_min_loop
    by_cases hc : brd row column = 0 ∧ check_neighbors brd row column = true
    · rw [if_pos hc] at h
      rw [if_pos hc]
      cases hv : childP row column with
      | none => rw [hv] at h; simp at h
      | some Pj =>
        rw [hv] at h
        simp only at h
        obtain ⟨Rj, hR, hw⟩ := hchild row column m Pj h1 hv
        rw [hR]
        simp only
        have hmono := minimax_min_loop_le childP brd rest _ P h
        unfold WithinWindow at hw
        by_cases hcut : (if Rj < m then Rj else m) ≤ a
        · rw [if_pos hcut]
          refine ⟨_, rfl, ?_⟩
          unfold WithinWindow
          split_ifs at hcut hmono ⊢ <;> omega
        · rw [if_neg hcut]
          refine ih _ _ P ?_ ?_ ?_ h
          · split_ifs <;> omega
          · split_ifs at hcut ⊢ <;> omega
          · split_ifs at hcut ⊢ <;> omega
    · rw [if_neg hc] at h
      rw [if_neg hc]
      exact ih m q P h1 h2 h3 h

/-- Alpha-beta at any depth: when the plain minimax value `P` of a position is
defined, the search with bounds `a` and `b` returns a value that agrees with
`P` inside the window. -/
theorem search_value_window (depth : Nat) :
    ∀ (p : Bool) (s : State) (a b P : Int), double_lowest ≤ a → b ≤ double_max →
      minimax_value depth p s = some P →
      ∃ R, search_value depth p s a b = some R ∧ WithinWindow R a b P := by
  induction depth with
  | zero =>
    intro p s a b P _ _ h
    unfold minimax_value at h
    unfold search_value
    exact ⟨P, h, by unfold WithinWindow; omega⟩
  | succ d ih =>
    intro p s a b P ha hb h
    unfold minimax_value at h
    unfold search_value
    by_cases ht : check_battle_state s = true
    · rw [if_pos ht] at h
      rw [if_pos ht]
      exact ⟨P, h, by unfold WithinWindow; omega⟩
    · rw [if_neg ht] at h
      rw [if_neg ht]
      by_cases hp : p = true
      · rw [if_pos hp] at h
        rw [if_pos hp]
        refine value_min_loop_window _ _ s.gomoku_board a b ?_ all_cells b double_max P
          (le_refl b) hb (Or.inl rfl) h
        intro row column b' P' hb' hP'
        exact ih false _ a b' P' ha (le_trans hb' hb) hP'
      · rw [if_neg hp] at h
        rw [if_neg hp]
        refine value_max_loop_window _ _ s.gomoku_board a b ?_ all_cells a double_lowest P
          (le_refl a) ha (Or.inl rfl) h
        intro row column a' P' ha' hP'
        exact ih true _ a' b P' (le_trans ha ha') hb hP'

theorem minimax_value_player_le (d : Nat) (s : State) (P : Int)
    (ht : ¬ check_battle_state s = true) (h : minimax_value (d + 1) true s = some P) :
    P ≤ double_max := by
  unfold minimax_value at h
  rw [if_neg ht, if_pos rfl] at h
  exact minimax_min_loop_le _ _ _ _ _ h

theorem search_value_terminal (d : Nat) (p : Bool) (s : State) (a b : Int)
    (ht : check_battle_state s = true) :
    search_value (d + 1) p s a b = minimax_value (d + 1) p s := by
  unfold minimax_value search_value
  rw [if_pos ht, if_pos ht]

/-- The root loop over alpha-beta values makes the same updates as the root
loop over plain minimax values. -/
theorem value_root_loop_eq (s : State) :
    ∀ (cells : List (Int × Int)) (m r c : Int) (x : Int × Int × Int), double_lowest ≤ m →
      minimax_root_loop s cells m r c = some x → value_root_loop s cells m r c = some x := by
  intro cells
  induction cells with
  | nil =>
    intro m r c x _ h
    exact h
  | cons cell rest ih =>
    intro m r c x hm h
    obtain ⟨row, column⟩ := cell
    unfold minimax_root_loop at h
    unfold value_root_loop
    by_cases hc : s.gomoku_board row column = 0 ∧ check_neighbors s.gomoku_board row column = true
    · rw [if_pos hc] at h
      rw [if_pos hc]
      cases hv : root_move_value s row column with
      | none => rw [hv] at h; simp at h
      | some M =>
        rw [hv] at h
        simp only at h
        unfold root_move_value at hv
        have key : ∃ w, search_value 2 true (place s row column (-1)) m double_max = some w ∧
            (m < M → w = M) ∧ (M ≤ m → w ≤ m) := by
          by_cases ht : check_battle_state (place s row column (-1)) = true
          · refine ⟨M, ?_, fun _ => rfl, fun h => h⟩
            rw [search_value_terminal 1 true _ m double_max ht]
            exact hv
          · have hM := minimax_value_player_le 1 _ M ht hv
            obtain ⟨w, hw, hwin⟩ := search_value_window 2 true _ m double_max M hm (le_refl _) hv
            refine ⟨w, hw, ?_, ?_⟩ <;> (unfold WithinWindow at hwin; omega)
        obtain ⟨w, hw, h1, h2⟩ := key
        rw [hw]
        simp only
        by_cases hgt : M > m
        · rw [if_pos hgt] at h
          have hwM := h1 hgt
          subst hwM
          rw [if_pos hgt]
          exact ih _ _ _ x (by omega) h
        · rw [if_neg hgt] at h
          have hle := h2 (by omega)
          rw [if_neg (by omega)]
          exact ih _ _ _ x hm h
    · rw [if_neg hc] at h
      rw [if_neg hc]
      exact ih m r c x hm h

/-- What the plain root loop returns: the greatest value among the start value
and the candidates, held either by the start triple or by the first candidate
that reaches it. -/
theorem minimax_root_loop_spec (s : State) :
    ∀ (cells : List (Int × Int)) (m r c : Int) (x : Int × Int × Int),
      minimax_root_loop s cells m r c = some x →
      m ≤ x.1 ∧
      (∀ cell ∈ cells,
        (s.gomoku_board cell.1 cell.2 = 0 ∧ check_neighbors s.gomoku_board cell.1 cell.2 = true) →
          ∃ w, root_move_value s cell.1 cell.2 = some w ∧ w ≤ x.1) ∧
      (x = (m, r, c) ∨
        (m < x.1 ∧ ∃ l1 l2, cells = l1 ++ (x.2.1, x.2.2) :: l2 ∧
          (s.gomoku_board x.2.1 x.2.2 = 0 ∧ check_neighbors s.gomoku_board x.2.1 x.2.2 = true) ∧
          root_move_value s x.2.1 x.2.2 = some x.1 ∧
          ∀ cell ∈ l1,
            (s.gomoku_board cell.1 cell.2 = 0 ∧
              check_neighbors s.gomoku_board cell.1 cell.2 = true) →
            ∃ w, root_move_value s cell.1 cell.2 = some w ∧ w < x.1)) := by
  intro cells
  induction cells with
  | nil =>
    intro m r c x h
    simp only [minimax_root_loop, Option.some.injEq] at h
    subst h
    exact ⟨le_refl _, fun _ hcell => absurd hcell (List.not_mem_nil _), Or.inl rfl⟩
  | cons cell rest ih =>
    intro m r c x h
    obtain ⟨row, column⟩ := cell
    unfold minimax_root_loop at h
    by_cases hc : s.gomoku_board row column = 0 ∧ check_neighbors s.gomoku_board row column = true
    · rw [if_pos hc] at h
      cases hv : root_move_value s row column with
      | none => rw [hv] at h; simp at h
      | some M =>
        rw [hv] at h
        simp only at h
        by_cases hgt : M > m
        · rw [if_pos hgt] at h
          obtain ⟨hle, hall, hcase⟩ := ih _ _ _ x h
          refine ⟨by omega, ?_, Or.inr ?_⟩
          · intro cell hcell hcand
            rcases List.mem_cons.mp hcell with rfl | hrest
            · exact ⟨M, hv, hle⟩
            · exact hall cell hrest hcand
          · rcases hcase with rfl | ⟨hlt, l1, l2, hsplit, hcx, hvx, hbefore⟩
            · exact ⟨hgt, [], rest, rfl, hc, hv, fun _ hcell => absurd hcell (List.not_mem_nil _)⟩
            · refine ⟨by omega, (row, column) :: l1, l2, by rw [hsplit]; rfl, hcx, hvx, ?_⟩
              intro cell hcell hcand
              rcases List.mem_cons.mp hcell with rfl | hrest
              · exact ⟨M, hv, hlt⟩
              · exact hbefore cell hrest hcand
        · rw [if_neg hgt] at h
          obtain ⟨hle, hall, hcase⟩ := ih _ _ _ x h
          refine ⟨hle, ?_, ?_⟩
          · intro cell hcell hcand
            rcases List.mem_cons.mp hcell with rfl | hrest
            · exact ⟨M, hv, by omega⟩
            · exact hall cell hrest hcand
          · rcases hcase with rfl | ⟨hlt, l1, l2, hsplit, hcx, hvx, hbefore⟩
            · exact Or.inl rfl
            · refine Or.inr ⟨hlt, (row, column) :: l1, l2, by rw [hsplit]; rfl, hcx, hvx, ?_⟩
              intro cell hcell hcand
              rcases List.mem_cons.mp hcell with rfl | hrest
              · exact ⟨M, hv, by omega⟩
              · exact hbefore cell hrest hcand
    · rw [if_neg hc] at h
      obtain ⟨hle, hall, hcase⟩ := ih _ _ _ x h
      refine ⟨hle, ?_, ?_⟩
      · intro cell hcell hcand
        rcases List.mem_cons.mp hcell with rfl | hrest
        · exact absurd hcand hc
        · exact hall cell hrest hcand
      · rcases hcase with rfl | ⟨hlt, l1, l2, hsplit, hcx, hvx, hbefore⟩
        · exact Or.inl rfl
        · refine Or.inr ⟨hlt, (row, column) :: l1, l2, by rw [hsplit]; rfl, hcx, hvx, ?_⟩
          intro cell hcell hcand
          rcases List.mem_cons.mp hcell with rfl | hrest
          · exact absurd hcand hc
          · exact hbefore cell hrest hcand

theorem calculate_ai_move_of_loop (s : State) (out : Placement) (x : Int × Int × Int)
    (hset : ¬ (s.last_placed_row = -1 ∧ s.last_placed_column = -1))
    (h : calculate_ai_move_loop all_cells s double_lowest out.placed_row out.placed_column
      = some (x, s)) :
    calculate_ai_move s out
      = some ({ click_X := x.2.2 * 4 + 15, click_Y := x.2.1 * 2 + 2,
                placed_row := x.2.1, placed_column := x.2.2 }, s) := by
  unfold calculate_ai_move
  rw [if_neg hset, h]

/-! ## The adjacency filter finds a candidate -/

theorem check_neighbors_iff (b : Board) (row column : Int) :
    check_neighbors b row column = true ↔
      ((row - 1 ≥ 0 ∧ column - 1 ≥ 0) ∧ b (row - 1) (column - 1) ≠ 0) ∨
      (row - 1 ≥ 0 ∧ b (row - 1) column ≠ 0) ∨
      ((row - 1 ≥ 0 ∧ column + 1 ≤ 14) ∧ b (row - 1) (column + 1) ≠ 0) ∨
      (column - 1 ≥ 0 ∧ b row (column - 1) ≠ 0) ∨
      (column + 1 ≤ 14 ∧ b row (column + 1) ≠ 0) ∨
      ((row + 1 ≤ 14 ∧ column - 1 ≥ 0) ∧ b (row + 1) (column - 1) ≠ 0) ∨
      (row + 1 ≤ 14 ∧ b (row + 1) column ≠ 0) ∨
      ((row + 1 ≤ 14 ∧ column + 1 ≤ 14) ∧ b (row + 1) (column + 1) ≠ 0) := by
  unfold check_neighbors
  split_ifs <;> simp_all

theorem exists_step_up (P : Int → Prop) :
    ∀ (n : Nat) (a : Int), P a → ¬ P (a + n) →
      ∃ i, a ≤ i ∧ i < a + n ∧ P i ∧ ¬ P (i + 1) := by
  intro n
  induction n with
  | zero =>
    intro a h1 h2
    simp only [Nat.cast_zero, add_zero] at h2
    exact absurd h1 h2
  | succ k ih =>
    intro a h1 h2
    by_cases hk : P (a + k)
    · refine ⟨a + k, by omega, by push_cast; omega, hk, ?_⟩
      have : a + (k : Int) + 1 = a + ((k + 1 : Nat) : Int) := by push_cast; ring
      rw [this]
      exact h2
    · obtain ⟨i, hi1, hi2, hi3, hi4⟩ := ih a h1 hk
      exact ⟨i, hi1, by push_cast; omega, hi3, hi4⟩

theorem exists_step_down (P : Int → Prop) :
    ∀ (n : Nat) (a : Int), P a → ¬ P (a - n) →
      ∃ i, i ≤ a ∧ a - n < i ∧ P i ∧ ¬ P (i - 1) := by
  intro n
  induction n with
  | zero =>
    intro a h1 h2
    simp only [Nat.cast_zero, sub_zero] at h2
    exact absurd h1 h2
  | succ k ih =>
    intro a h1 h2
    by_cases hk : P (a - k)
    · refine ⟨a - k, by omega, by push_cast; omega, hk, ?_⟩
      have : a - (k : Int) - 1 = a - ((k + 1 : Nat) : Int) := by push_cast; ring
      rw [this]
      exact h2
    · obtain ⟨i, hi1, hi2, hi3, hi4⟩ := ih a h1 hk
      exact ⟨i, hi1, by push_cast; omega, hi3, hi4⟩

/-- Between a position where `P` holds and one where it fails there are two
adjacent positions, `P` holding at the first and failing at the second. -/
theorem exists_boundary (P : Int → Prop) (a e : Int) (h1 : P a) (h2 : ¬ P e) :
    ∃ i j, P i ∧ ¬ P j ∧ (j = i + 1 ∨ j = i - 1) ∧
      min a e ≤ i ∧ i ≤ max a e ∧ min a e ≤ j ∧ j ≤ max a e := by
  rcases le_total a e with hle | hle
  · have he : e = a + ((e - a).toNat : Int) := by
      rw [Int.toNat_of_nonneg (by omega)]; ring
    rw [he] at h2
    obtain ⟨i, hi1, hi2, hi3, hi4⟩ := exists_step_up P _ a h1 h2
    rw [← he] at hi2
    exact ⟨i, i + 1, hi3, hi4, Or.inl rfl, by omega, by omega, by omega, by omega⟩
  · have he : e = a - ((a - e).toNat : Int) := by
      rw [Int.toNat_of_nonneg (by omega)]; ring
    rw [he] at h2
    obtain ⟨i, hi1, hi2, hi3, hi4⟩ := exists_step_down P _ a h1 h2
    rw [← he] at hi2
    exact ⟨i, i - 1, hi3, hi4, Or.inr rfl, by omega, by omega, by omega, by omega⟩

/-- A board that holds a stone and an Empty cell has an Empty cell next to a
stone, which `check_neighbors` accepts. -/
theorem exists_candidate (b : Board)
    (hstone : ∃ r c, inBoard r c ∧ b r c ≠ 0) (hempty : ∃ r c, inBoard r c ∧ b r c = 0) :
    ∃ row column, inBoard row column ∧ b row column = 0 ∧
      check_neighbors b row column = true := by
  obtain ⟨r1, c1, ⟨a1, a2, a3, a4⟩, hs⟩ := hstone
  obtain ⟨r2, c2, ⟨e1, e2, e3, e4⟩, he⟩ := hempty
  by_cases hcorner : b r1 c2 ≠ 0
  · obtain ⟨i, j, hi, hj, hij, b1, b2, b3, b4⟩ :=
      exists_boundary (fun x => b x c2 ≠ 0) r1 r2 hcorner (by simpa using he)
    simp only [ne_eq, not_not] at hj
    refine ⟨j, c2, ⟨by omega, by omega, e3, e4⟩, hj, ?_⟩
    rw [check_neighbors_iff]
    rcases hij with rfl | rfl
    · right; left
      refine ⟨by omega, ?_⟩
      have : i + 1 - 1 = i := by ring
      rw [this]; exact hi
    · right; right; right; right; right; right; left
      refine ⟨by omega, ?_⟩
      have : i - 1 + 1 = i := by ring
      rw [this]; exact hi
  · simp only [ne_eq, not_not] at hcorner
    obtain ⟨i, j, hi, hj, hij, b1, b2, b3, b4⟩ :=
      exists_boundary (fun x => b r1 x ≠ 0) c1 c2 hs (by simpa using hcorner)
    simp only [ne_eq, not_not] at hj
    refine ⟨r1, j, ⟨a1, a2, by omega, by omega⟩, hj, ?_⟩
    rw [check_neighbors_iff]
    rcases hij with rfl | rfl
    · right; right; right; left
      refine ⟨by omega, ?_⟩
      have : i + 1 - 1 = i := by ring
      rw [this]; exact hi
    · right; right; right; right; left
      refine ⟨by omega, ?_⟩
      have : i - 1 + 1 = i := by ring
      rw [this]; exact hi

/-! ## Size of the values the evaluator produces -/

theorem count_run_bound (b : Board) (dr dc stone : Int) :
    ∀ (n : Nat) (r c x v : Int), 0 ≤ x → count_run b dr dc stone n r c x = some v →
      0 ≤ v ∧ v ≤ x * 10 ^ n := by
  intro n
  induction n with
  | zero =>
    intro r c x v _ h
    simp [count_run] at h
  | succ k ih =>
    intro r c x v hx h
    unfold count_run at h
    cases hread : read_cell b r c with
    | none => rw [hread] at h; simp at h
    | some w =>
      rw [hread] at h
      simp only at h
      have hpow : (1 : Int) ≤ 10 ^ k := one_le_pow₀ (by norm_num)
      split_ifs at h
      · obtain ⟨h1, h2⟩ := ih _ _ _ v (by omega) h
        refine ⟨h1, ?_⟩
        calc v ≤ x * 10 * 10 ^ k := h2
          _ = x * 10 ^ (k + 1) := by ring
      · simp only [Option.some.injEq] at h
        subst h
        refine ⟨hx, ?_⟩
        have h10 : (1 : Int) ≤ 10 ^ (k + 1) := one_le_pow₀ (by norm_num)
        nlinarith

theorem assess_stone_bound (b : Board) (in_range : Int → Int → Bool) (dr dc row column v : Int)
    (h : assess_stone b in_range dr dc row column = some v) : 0 ≤ v ∧ v ≤ scanner_max := by
  unfold assess_stone at h
  split_ifs at h
  · simp only [Option.some.injEq] at h
    subst h
    unfold scanner_max
    norm_num
  · exact count_run_bound b dr dc _ 15 _ _ 100 v (by norm_num) h

theorem stone_value_bound (b : Board) (row column v : Int) (hin : inBoard row column)
    (h : stone_value b row column = some v) : -stone_max ≤ v ∧ v ≤ stone_max := by
  unfold stone_value at h
  cases h1 : assess_stone_top b row column with
  | none => rw [h1] at h; simp at h
  | some v1 =>
  cases h2 : assess_stone_bottom b row column with
  | none => rw [h1, h2] at h; simp at h
  | some v2 =>
  cases h3 : assess_stone_left b row column with
  | none => rw [h1, h2, h3] at h; simp at h
  | some v3 =>
  cases h4 : assess_stone_right b row column with
  | none => rw [h1, h2, h3, h4] at h; simp at h
  | some v4 =>
  cases h5 : assess_stone_top_left b row column with
  | none => rw [h1, h2, h3, h4, h5] at h; simp at h
  | some v5 =>
  cases h6 : assess_stone_top_right b row column with
  | none => rw [h1, h2, h3, h4, h5, h6] at h; simp at h
  | some v6 =>
  cases h7 : assess_stone_bottom_left b row column with
  | none => rw [h1, h2, h3, h4, h5, h6, h7] at h; simp at h
  | some v7 =>
  cases h8 : assess_stone_bottom_right b row column with
  | none => rw [h1, h2, h3, h4, h5, h6, h7, h8] at h; simp at h
  | some v8 =>
    rw [h1, h2, h3, h4, h5, h6, h7, h8] at h
    simp only [Option.some.injEq] at h
    have b1 := assess_stone_bound _ _ _ _ _ _ _ h1
    have b2 := assess_stone_bound _ _ _ _ _ _ _ h2
    have b3 := assess_stone_bound _ _ _ _ _ _ _ h3
    have b4 := assess_stone_bound _ _ _ _ _ _ _ h4
    have b5 := assess_stone_bound _ _ _ _ _ _ _ h5
    have b6 := assess_stone_bound _ _ _ _ _ _ _ h6
    have b7 := assess_stone_bound _ _ _ _ _ _ _ h7
    have b8 := assess_stone_bound _ _ _ _ _ _ _ h8
    obtain ⟨i1, i2, i3, i4⟩ := hin
    have ha1 : |row - 7| ≤ 7 := abs_le.mpr ⟨by omega, by omega⟩
    have ha2 : |column - 7| ≤ 7 := abs_le.mpr ⟨by omega, by omega⟩
    have ha3 : 0 ≤ |row - 7| := abs_nonneg _
    have ha4 : 0 ≤ |column - 7| := abs_nonneg _
    unfold stone_max
    split_ifs at h <;> omega

theorem assess_cells_bound (b : Board) :
    ∀ (cells : List (Int × Int)) (acc v : Int), (∀ cell ∈ cells, inBoard cell.1 cell.2) →
      assess_cells b cells acc = some v →
      acc - cells.length * stone_max ≤ v ∧ v ≤ acc + cells.length * stone_max := by
  intro cells
  induction cells with
  | nil =>
    intro acc v _ h
    simp only [assess_cells, Option.some.injEq] at h
    subst h
    simp
  | cons cell rest ih =>
    intro acc v hin h
    obtain ⟨row, column⟩ := cell
    have hrest : ∀ cell ∈ rest, inBoard cell.1 cell.2 :=
      fun cell hc => hin cell (List.mem_cons_of_mem _ hc)
    have hpos : (0 : Int) ≤ stone_max := by unfold stone_max scanner_max; norm_num
    simp only [List.length_cons, Nat.cast_add, Nat.cast_one]
    unfold assess_cells at h
    split_ifs at h
    · cases hs : stone_value b row column with
      | none => rw [hs] at h; simp at h
      | some w =>
        rw [hs] at h
        simp only at h
        obtain ⟨w1, w2⟩ := stone_value_bound b row column w (hin _ (List.mem_cons_self _ _)) hs
        obtain ⟨r1, r2⟩ := ih _ v hrest h
        constructor <;> nlinarith
    · obtain ⟨r1, r2⟩ := ih _ v hrest h
      constructor <;> nlinarith

theorem all_cells_length : all_cells.length = 225 := by decide!

theorem stone_max_lt_double_max : 225 * stone_max < double_max := by
  unfold stone_max scanner_max double_max
  decide!

/-- Every value the evaluator returns lies strictly between
`numeric_limits<double>::lowest()` and `numeric_limits<double>::max()`. -/
theorem assess_board_value_bound (b : Board) (v : Int) (h : assess_board_value b = some v) :
    double_lowest < v ∧ v < double_max := by
  unfold assess_board_value at h
  obtain ⟨h1, h2⟩ := assess_cells_bound b all_cells 0 v
    (fun cell hc => (mem_all_cells cell.1 cell.2).mp hc) h
  rw [all_cells_length] at h1 h2
  have := stone_max_lt_double_max
  unfold double_lowest
  push_cast at h1 h2
  constructor <;> omega

/-! ## Values above the start value, and the cell the root loop keeps -/

theorem double_lowest_lt_double_max : double_lowest < double_max := by
  unfold double_lowest double_max
  decide!

theorem exists_empty_of_not_terminal (s : State) (ht : ¬ check_battle_state s = true) :
    ∃ r c, inBoard r c ∧ s.gomoku_board r c = 0 := by
  have hfull : ¬ board_full s.gomoku_board = true := by
    intro hf
    apply ht
    unfold check_battle_state
    split_ifs <;> first | rfl | exact hf
  rw [board_full_iff] at hfull
  unfold NoEmptyCell at hfull
  push_neg at hfull
  exact hfull

theorem place_has_stone (s : State) (row column side : Int) (hin : inBoard row column)
    (hside : side ≠ 0) :
    ∃ r c, inBoard r c ∧ (place s row column side).gomoku_board r c ≠ 0 := by
  refine ⟨row, column, hin, ?_⟩
  simp only [place, set_cell, and_self, if_true]
  exact hside

theorem minimax_min_loop_gt (child : Int → Int → Option Int) (b : Board) (lo : Int) :
    ∀ (cells : List (Int × Int)) (q P : Int), lo < q →
      (∀ cell ∈ cells, (b cell.1 cell.2 = 0 ∧ check_neighbors b cell.1 cell.2 = true) →
        ∀ v, child cell.1 cell.2 = some v → lo < v) →
      minimax_min_loop child b cells q = some P → lo < P := by
  intro cells
  induction cells with
  | nil =>
    intro q P hq _ h
    simp only [minimax_min_loop, Option.some.injEq] at h
    omega
  | cons cell rest ih =>
    intro q P hq hall h
    obtain ⟨row, column⟩ := cell
    have hrest : ∀ cell ∈ rest,
        (b cell.1 cell.2 = 0 ∧ check_neighbors b cell.1 cell.2 = true) →
        ∀ v, child cell.1 cell.2 = some v → lo < v :=
      fun cell hc => hall cell (List.mem_cons_of_mem _ hc)
    unfold minimax_min_loop at h
    split_ifs at h with hcand
    · cases hv : child row column with
      | none => rw [hv] at h; simp at h
      | some v =>
        rw [hv] at h
        have hvlo := hall (row, column) (List.mem_cons_self _ _) hcand v hv
        refine ih _ P ?_ hrest h
        split_ifs <;> omega
    · exact ih q P hq hrest h

theorem minimax_max_loop_child_le (child : Int → Int → Option Int) (b : Board) :
    ∀ (cells : List (Int × Int)) (q P : Int),
      minimax_max_loop child b cells q = some P →
      ∀ cell ∈ cells, (b cell.1 cell.2 = 0 ∧ check_neighbors b cell.1 cell.2 = true) →
        ∃ v, child cell.1 cell.2 = some v ∧ v ≤ P := by
  intro cells
  induction cells with
  | nil =>
    intro q P _ cell hcell
    exact absurd hcell (List.not_mem_nil _)
  | cons head rest ih =>
    intro q P h cell hcell hcand
    obtain ⟨row, column⟩ := head
    unfold minimax_max_loop at h
    by_cases hc : b row column = 0 ∧ check_neighbors b row column = true
    · rw [if_pos hc] at h
      cases hv : child row column with
      | none => rw [hv] at h; simp at h
      | some v =>
        rw [hv] at h
        simp only at h
        rcases List.mem_cons.mp hcell with rfl | hrest
        · refine ⟨v, hv, ?_⟩
          have := minimax_max_loop_ge child b rest _ P h
          split_ifs at this <;> omega
        · exact ih _ P h cell hrest hcand
    · rw [if_neg hc] at h
      rcases List.mem_cons.mp hcell with rfl | hrest
      · exact absurd hcand hc
      · exact ih q P h cell hrest hcand

/-- Every defined plain minimax value of a position that holds a stone lies
above `double_lowest`. -/
theorem minimax_value_gt (depth : Nat) :
    ∀ (p : Bool) (s : State) (P : Int), (∃ r c, inBoard r c ∧ s.gomoku_board r c ≠ 0) →
      minimax_value depth p s = some P → double_lowest < P := by
  induction depth with
  | zero =>
    intro p s P _ h
    unfold minimax_value at h
    exact (assess_board_value_bound _ P h).1
  | succ d ih =>
    intro p s P hstone h
    unfold minimax_value at h
    by_cases ht : check_battle_state s = true
    · rw [if_pos ht] at h
      exact (assess_board_value_bound _ P h).1
    · rw [if_neg ht] at h
      by_cases hp : p = true
      · rw [if_pos hp] at h
        refine minimax_min_loop_gt _ _ double_lowest all_cells double_max P
          double_lowest_lt_double_max ?_ h
        intro cell hcell _ v hv
        exact ih false _ v
          (place_has_stone s _ _ 1 ((mem_all_cells _ _).mp hcell) (by decide)) hv
      · rw [if_neg hp] at h
        obtain ⟨row, column, hin, h0, hn⟩ :=
          exists_candidate s.gomoku_board hstone (exists_empty_of_not_terminal s ht)
        obtain ⟨v, hv, hle⟩ := minimax_max_loop_child_le _ _ all_cells _ P h (row, column)
          ((mem_all_cells row column).mpr hin) ⟨h0, hn⟩
        have := ih true _ v (place_has_stone s row column (-1) hin (by decide)) hv
        omega

theorem all_cells_eq_range :
    all_cells = (List.range 225).map fun n : Nat => (((n / 15 : Nat) : Int), ((n % 15 : Nat) : Int)) := by
  decide!

theorem all_cells_sorted :
    all_cells.Pairwise fun x y => row_major_rank x.1 x.2 < row_major_rank y.1 y.2 := by
  rw [all_cells_eq_range, List.pairwise_map]
  refine (List.pairwise_lt_range 225).imp ?_
  intro a b hab
  unfold row_major_rank
  simp only
  omega

/-- The cell that `calculate_ai_move` stores when the plain search is defined
and the board has a candidate: a candidate whose plain minimax value is the
greatest, every candidate enumerated before it having a smaller value. -/
theorem root_choice_split (s : State) (out : Placement)
    (hset : ¬ (s.last_placed_row = -1 ∧ s.last_placed_column = -1))
    (hdef : ∃ x, minimax_ai_move s out = some x)
    (hcand : ∃ row column, IsCandidate s.gomoku_board row column) :
    ∃ out' v l1 l2, calculate_ai_move s out = some (out', s) ∧
      IsCandidate s.gomoku_board out'.placed_row out'.placed_column ∧
      root_move_value s out'.placed_row out'.placed_column = some v ∧
      all_cells = l1 ++ (out'.placed_row, out'.placed_column) :: l2 ∧
      (∀ row column, IsCandidate s.gomoku_board row column →
        ∃ w, root_move_value s row column = some w ∧ w ≤ v) ∧
      (∀ cell ∈ l1, IsCandidate s.gomoku_board cell.1 cell.2 →
        ∃ w, root_move_value s cell.1 cell.2 = some w ∧ w < v) := by
  obtain ⟨x, hx⟩ := hdef
  obtain ⟨v, r, c⟩ := x
  have hloop : calculate_ai_move_loop all_cells s double_lowest out.placed_row out.placed_column
      = some ((v, r, c), s) := by
    rw [calculate_ai_move_loop_eq, value_root_loop_eq s _ _ _ _ (v, r, c) (le_refl _) hx]
    rfl
  have hmove := calculate_ai_move_of_loop s out (v, r, c) hset hloop
  obtain ⟨_, hall, hcase⟩ := minimax_root_loop_spec s _ _ _ _ (v, r, c) hx
  obtain ⟨r0, c0, hin0, hz0, hn0⟩ := hcand
  obtain ⟨w0, hw0, hle0⟩ := hall (r0, c0) ((mem_all_cells r0 c0).mpr hin0) ⟨hz0, hn0⟩
  have hgt0 : double_lowest < w0 :=
    minimax_value_gt 2 true _ w0 (place_has_stone s r0 c0 (-1) hin0 (by decide)) hw0
  simp only at hle0 hcase
  rcases hcase with heq | ⟨_, l1, l2, hsplit, hcx, hvx, hbefore⟩
  · simp only [Prod.mk.injEq] at heq
    omega
  · have hmem : (r, c) ∈ all_cells := by rw [hsplit]; simp
    refine ⟨_, v, l1, l2, hmove, ⟨(mem_all_cells r c).mp hmem, hcx.1, hcx.2⟩, hvx, hsplit, ?_, ?_⟩
    · intro row column hcand'
      exact hall (row, column) ((mem_all_cells row column).mpr hcand'.1) ⟨hcand'.2.1, hcand'.2.2⟩
    · intro cell hcell hcand'
      exact hbefore cell hcell ⟨hcand'.2.1, hcand'.2.2⟩

theorem root_choice_max (s : State) (out : Placement)
    (hset : ¬ (s.last_placed_row = -1 ∧ s.last_placed_column = -1))
    (hdef : ∃ x, minimax_ai_move s out = some x)
    (hcand : ∃ row column, IsCandidate s.gomoku_board row column) :
    ∃ out' v, calculate_ai_move s out = some (out', s) ∧
      IsCandidate s.gomoku_board out'.placed_row out'.placed_column ∧
      root_move_value s out'.placed_row out'.placed_column = some v ∧
      ∀ row column, IsCandidate s.gomoku_board row column →
        ∃ w, root_move_value s row column = some w ∧ w ≤ v := by
  obtain ⟨out', v, _, _, h1, h2, h3, _, h4, _⟩ := root_choice_split s out hset hdef hcand
  exact ⟨out', v, h1, h2, h3, h4⟩

/-! ## Boards on which the evaluator stays inside the array -/

theorem count_extendable_four (b : Board) (in_range : Int → Int → Bool) (dr dc stone r c : Int)
    (h : ¬ count_extendable b in_range dr dc stone 4 r c 0 < 4) :
    in_range r c = true ∧ in_range (r + dr) (c + dc) = true ∧
      in_range (r + dr + dr) (c + dc + dc) = true ∧
      in_range (r + dr + dr + dr) (c + dc + dc + dc) = true := by
  unfold count_extendable at h
  split_ifs at h with h1
  · unfold count_extendable at h
    split_ifs at h with h2
    · unfold count_extendable at h
      split_ifs at h with h3
      · unfold count_extendable at h
        split_ifs at h with h4
        · exact ⟨h1.1, h2.1, h3.1, h4.1⟩
        · omega
      · omega
    · omega
  · omega

theorem directions_cases (dr dc : Int) (h : (dr, dc) ∈ directions) :
    (dr = -1 ∨ dr = 0 ∨ dr = 1) ∧ (dc = -1 ∨ dc = 0 ∨ dc = 1) ∧ (dr ≠ 0 ∨ dc ≠ 0) := by
  simp only [directions, List.mem_cons, Prod.mk.injEq, List.mem_singleton, List.not_mem_nil,
    or_false] at h
  omega

theorem count_run_defined (b : Board) (dr dc stone : Int) (hd : (dr, dc) ∈ directions)
    (hstone : stone ≠ 0) (hno : NoEdgeRun b) :
    ∀ (n : Nat) (r c x : Int), inBoard r c → inBoard (r - dr - dr - dr) (c - dc - dc - dc) →
      b (r - dr) (c - dc) = stone → b (r - dr - dr) (c - dc - dc) = stone →
      b (r - dr - dr - dr) (c - dc - dc - dc) = stone →
      ¬ inBoard (r + n * dr) (c + n * dc) →
      ∃ v, count_run b dr dc stone n r c x = some v := by
  intro n
  induction n with
  | zero =>
    intro r c x hin _ _ _ _ hout
    simp only [Nat.cast_zero, zero_mul, add_zero] at hout
    exact absurd hin hout
  | succ k ih =>
    intro r c x hin hin3 p1 p2 p3 hout
    unfold count_run
    unfold read_cell
    rw [if_pos hin]
    simp only
    by_cases heq : b r c = stone
    · rw [if_pos heq]
      have hnext : inBoard (r + dr) (c + dc) := by
        by_contra hcon
        exact hno r c dr dc hd hin hin3 hcon (by rw [heq]; exact hstone)
          ⟨by rw [p1, heq], by rw [p2, heq], by rw [p3, heq]⟩
      have e1 : r + dr - dr = r := by ring
      have e2 : c + dc - dc = c := by ring
      have e3 : r + dr + (k : Int) * dr = r + ((k + 1 : Nat) : Int) * dr := by push_cast; ring
      have e4 : c + dc + (k : Int) * dc = c + ((k + 1 : Nat) : Int) * dc := by push_cast; ring
      obtain ⟨d1, d2, d3⟩ := directions_cases dr dc hd
      refine ih (r + dr) (c + dc) (x * 10) hnext ?_ ?_ ?_ ?_ ?_
      · rw [e1, e2]
        unfold inBoard at hin hin3 ⊢
        omega
      · rw [e1, e2]; exact heq
      · rw [e1, e2]; exact p1
      · rw [e1, e2]; exact p2
      · rw [e3, e4]; exact hout
    · rw [if_neg heq]
      exact ⟨x, rfl⟩

theorem count_run_step (b : Board) (dr dc stone : Int) (n : Nat) (r c x : Int)
    (hin : inBoard r c) :
    count_run b dr dc stone (n + 1) r c x
      = if b r c = stone then count_run b dr dc stone n (r + dr) (c + dc) (x * 10)
        else some x := by
  conv_lhs => unfold count_run
  simp only [read_cell, if_pos hin]

theorem assess_stone_defined (b : Board) (in_range : Int → Int → Bool) (dr dc row column : Int)
    (hd : (dr, dc) ∈ directions) (hno : NoEdgeRun b) (hin : inBoard row column)
    (hstone : b row column ≠ 0)
    (hrange : ∀ r c, inBoard (r - dr) (c - dc) → in_range r c = true → inBoard r c) :
    ∃ v, assess_stone b in_range dr dc row column = some v := by
  unfold assess_stone
  by_cases hlt : count_extendable b in_range dr dc (b row column) 4 (row + dr) (column + dc) 0 < 4
  · rw [if_pos hlt]
    exact ⟨0, rfl⟩
  · rw [if_neg hlt]
    obtain ⟨g0, g1, g2, g3⟩ := count_extendable_four b in_range dr dc _ _ _ hlt
    have q0 : inBoard (row + dr) (column + dc) :=
      hrange _ _ (by rw [show row + dr - dr = row by ring, show column + dc - dc = column by ring]
                     exact hin) g0
    have q1 : inBoard (row + dr + dr) (column + dc + dc) :=
      hrange _ _ (by rw [show row + dr + dr - dr = row + dr by ring,
                       show column + dc + dc - dc = column + dc by ring]
                     exact q0) g1
    have q2 : inBoard (row + dr + dr + dr) (column + dc + dc + dc) :=
      hrange _ _ (by rw [show row + dr + dr + dr - dr = row + dr + dr by ring,
                       show column + dc + dc + dc - dc = column + dc + dc by ring]
                     exact q1) g2
    have q3 : inBoard (row + dr + dr + dr + dr) (column + dc + dc + dc + dc) :=
      hrange _ _ (by rw [show row + dr + dr + dr + dr - dr = row + dr + dr + dr by ring,
                       show column + dc + dc + dc + dc - dc = column + dc + dc + dc by ring]
                     exact q2) g3
    rw [show (15 : Nat) = 14 + 1 from rfl, count_run_step _ _ _ _ _ _ _ _ q0]
    by_cases e0 : b (row + dr) (column + dc) = b row column
    · rw [if_pos e0, show (14 : Nat) = 13 + 1 from rfl, count_run_step _ _ _ _ _ _ _ _ q1]
      by_cases e1 : b (row + dr + dr) (column + dc + dc) = b row column
      · rw [if_pos e1, show (13 : Nat) = 12 + 1 from rfl, count_run_step _ _ _ _ _ _ _ _ q2]
        by_cases e2 : b (row + dr + dr + dr) (column + dc + dc + dc) = b row column
        · rw [if_pos e2]
          obtain ⟨d1, d2, d3⟩ := directions_cases dr dc hd
          refine count_run_defined b dr dc _ hd hstone hno 12 _ _ _ q3 ?_ ?_ ?_ ?_ ?_
          · rw [show row + dr + dr + dr + dr - dr - dr - dr = row + dr by ring,
              show column + dc + dc + dc + dc - dc - dc - dc = column + dc by ring]
            exact q0
          · rw [show row + dr + dr + dr + dr - dr = row + dr + dr + dr by ring,
              show column + dc + dc + dc + dc - dc = column + dc + dc + dc by ring]
            exact e2
          · rw [show row + dr + dr + dr + dr - dr - dr = row + dr + dr by ring,
              show column + dc + dc + dc + dc - dc - dc = column + dc + dc by ring]
            exact e1
          · rw [show row + dr + dr + dr + dr - dr - dr - dr = row + dr by ring,
              show column + dc + dc + dc + dc - dc - dc - dc = column + dc by ring]
            exact e0
          · unfold inBoard at hin ⊢
            push_cast
            omega
        · rw [if_neg e2]
          exact ⟨_, rfl⟩
      · rw [if_neg e1]
        exact ⟨_, rfl⟩
    · rw [if_neg e0]
      exact ⟨_, rfl⟩

theorem stone_value_defined (b : Board) (row column : Int) (hno : NoEdgeRun b)
    (hin : inBoard row column) (hstone : b row column ≠ 0) :
    ∃ v, stone_value b row column = some v := by
  obtain ⟨i1, i2, i3, i4⟩ := hin
  have hin : inBoard row column := ⟨i1, i2, i3, i4⟩
  obtain ⟨v1, h1⟩ := assess_stone_defined b (fun r _ => decide (r ≥ 0)) (-1) 0 row column
    (by decide) hno hin hstone
    (by intro r c hp hr; simp only [decide_eq_true_eq] at hr; unfold inBoard at hp ⊢; omega)
  obtain ⟨v2, h2⟩ := assess_stone_defined b (fun r _ => decide (r ≤ 14)) 1 0 row column
    (by decide) hno hin hstone
    (by intro r c hp hr; simp only [decide_eq_true_eq] at hr; unfold inBoard at hp ⊢; omega)
  obtain ⟨v3, h3⟩ := assess_stone_defined b (fun _ c => decide (c ≥ 0)) 0 (-1) row column
    (by decide) hno hin hstone
    (by intro r c hp hr; simp only [decide_eq_true_eq] at hr; unfold inBoard at hp ⊢; omega)
  obtain ⟨v4, h4⟩ := assess_stone_defined b (fun _ c => decide (c ≤ 14)) 0 1 row column
    (by decide) hno hin hstone
    (by intro r c hp hr; simp only [decide_eq_true_eq] at hr; unfold inBoard at hp ⊢; omega)
  obtain ⟨v5, h5⟩ := assess_stone_defined b (fun r c => decide (r ≥ 0 ∧ c ≥ 0)) (-1) (-1)
    row column (by decide) hno hin hstone
    (by intro r c hp hr; simp only [decide_eq_true_eq] at hr; unfold inBoard at hp ⊢; omega)
  obtain ⟨v6, h6⟩ := assess_stone_defined b (fun r c => decide (r ≥ 0 ∧ c ≤ 14)) (-1) 1
    row column (by decide) hno hin hstone
    (by intro r c hp hr; simp only [decide_eq_true_eq] at hr; unfold inBoard at hp ⊢; omega)
  obtain ⟨v7, h7⟩ := assess_stone_defined b (fun r c => decide (r ≤ 14 ∧ c ≥ 0)) 1 (-1)
    row column (by decide) hno hin hstone
    (by intro r c hp hr; simp only [decide_eq_true_eq] at hr; unfold inBoard at hp ⊢; omega)
  obtain ⟨v8, h8⟩ := assess_stone_defined b (fun r c => decide (r ≤ 14 ∧ c ≤ 14)) 1 1
    row column (by decide) hno hin hstone
    (by intro r c hp hr; simp only [decide_eq_true_eq] at hr; unfold inBoard at hp ⊢; omega)
  unfold stone_value assess_stone_top assess_stone_bottom assess_stone_left assess_stone_right
    assess_stone_top_left assess_stone_top_right assess_stone_bottom_left
    assess_stone_bottom_right
  rw [h1, h2, h3, h4, h5, h6, h7, h8]
  exact ⟨_, rfl⟩

theorem assess_cells_defined (b : Board) (hno : NoEdgeRun b) :
    ∀ (cells : List (Int × Int)) (acc : Int), (∀ cell ∈ cells, inBoard cell.1 cell.2) →
      ∃ v, assess_cells b cells acc = some v := by
  intro cells
  induction cells with
  | nil => intro acc _; exact ⟨acc, rfl⟩
  | cons cell rest ih =>
    intro acc hin
    obtain ⟨row, column⟩ := cell
    have hrest : ∀ cell ∈ rest, inBoard cell.1 cell.2 :=
      fun cell hc => hin cell (List.mem_cons_of_mem _ hc)
    unfold assess_cells
    by_cases hz : b row column ≠ 0
    · rw [if_pos hz]
      obtain ⟨v, hv⟩ := stone_value_defined b row column hno (hin _ (List.mem_cons_self _ _)) hz
      rw [hv]
      exact ih _ hrest
    · rw [if_neg hz]
      exact ih _ hrest

/-- On a board with no run of four equal stones ending at the border in its
own direction, every run-counting loop stops inside the board and
`assess_board_value` returns a value. -/
theorem assess_board_value_defined (b : Board) (hno : NoEdgeRun b) :
    ∃ v, assess_board_value b = some v :=
  assess_cells_defined b hno all_cells 0 fun cell hc => (mem_all_cells cell.1 cell.2).mp hc

theorem edge_safe_of_check (b : Board) (nA nP : Nat) (h : edge_safe_check b nA nP = true) :
    EdgeSafe b nA nP := by
  unfold edge_safe_check at h
  rw [List.all_eq_true] at h
  constructor
  · intro r c hin
    have := h (r, c) ((mem_all_cells r c).mpr hin)
    simp only [Bool.and_eq_true, decide_eq_true_eq] at this
    exact this.1
  · intro r c dr dc hd hin hin3 hout
    have := h (r, c) ((mem_all_cells r c).mpr hin)
    simp only [Bool.and_eq_true, List.all_eq_true, decide_eq_true_eq] at this
    exact this.2 (dr, dc) hd hin3 hout

theorem no_edge_run_of_edge_safe (b : Board) (nA nP : Nat) (h : EdgeSafe b nA nP) :
    NoEdgeRun b := by
  intro r c dr dc hd hin hin3 hout hne hrun
  obtain ⟨hval, hseg⟩ := h
  obtain ⟨hA, hP⟩ := hseg r c dr dc hd hin hin3 hout
  obtain ⟨e1, e2, e3⟩ := hrun
  rcases hval r c hin with hv | hv | hv
  · apply hA
    unfold Fillable segment_zeros
    rw [e1, e2, e3, hv]
    simp
  · exact hne hv
  · apply hP
    unfold Fillable segment_zeros
    rw [e1, e2, e3, hv]
    simp

theorem cell_after_same (b : Board) (row column side p q : Int)
    (h0 : b row column = 0)
    (h : set_cell b row column side p q = side ∨ set_cell b row column side p q = 0) :
    (b p q = side ∨ b p q = 0) ∧
      (if b p q = 0 then 1 else 0)
        ≤ (if set_cell b row column side p q = 0 then 1 else 0)
          + (if p = row ∧ q = column then 1 else 0) := by
  unfold set_cell at h ⊢
  by_cases e : p = row ∧ q = column
  · have hz : b p q = 0 := by rw [e.1, e.2]; exact h0
    have hx : (if p = row ∧ q = column then 1 else 0) = 1 := if_pos e
    rw [hx, if_pos hz]
    exact ⟨Or.inr hz, by omega⟩
  · rw [if_neg e] at h ⊢
    exact ⟨h, by omega⟩

theorem cell_after_other (b : Board) (row column side other p q : Int)
    (hne : other ≠ side) (hother : other ≠ 0)
    (h : set_cell b row column other p q = side ∨ set_cell b row column other p q = 0) :
    (b p q = side ∨ b p q = 0) ∧
      (if b p q = 0 then 1 else 0) = (if set_cell b row column other p q = 0 then 1 else 0) := by
  unfold set_cell at h ⊢
  by_cases e : p = row ∧ q = column
  · rw [if_pos e] at h
    rcases h with h | h
    · exact absurd h hne
    · exact absurd h hother
  · rw [if_neg e] at h ⊢
    exact ⟨h, rfl⟩

theorem segment_hits_once (r c dr dc row column : Int) (hd : dr ≠ 0 ∨ dc ≠ 0) :
    (if r = row ∧ c = column then 1 else 0)
      + (if r - dr = row ∧ c - dc = column then 1 else 0)
      + (if r - dr - dr = row ∧ c - dc - dc = column then 1 else 0)
      + (if r - dr - dr - dr = row ∧ c - dc - dc - dc = column then 1 else 0) ≤ 1 := by
  split_ifs <;> omega

theorem fillable_of_place_same (b : Board) (row column r c dr dc side : Int) (n : Nat)
    (hd : dr ≠ 0 ∨ dc ≠ 0) (h0 : b row column = 0)
    (h : Fillable (set_cell b row column side) r c dr dc side n) :
    Fillable b r c dr dc side (n + 1) := by
  obtain ⟨h1, h2, h3, h4, h5⟩ := h
  obtain ⟨a1, b1⟩ := cell_after_same b row column side _ _ h0 h1
  obtain ⟨a2, b2⟩ := cell_after_same b row column side _ _ h0 h2
  obtain ⟨a3, b3⟩ := cell_after_same b row column side _ _ h0 h3
  obtain ⟨a4, b4⟩ := cell_after_same b row column side _ _ h0 h4
  have hit := segment_hits_once r c dr dc row column hd
  refine ⟨a1, a2, a3, a4, ?_⟩
  unfold segment_zeros at h5 ⊢
  omega

theorem fillable_of_place_other (b : Board) (row column r c dr dc side other : Int) (n : Nat)
    (hne : other ≠ side) (hother : other ≠ 0)
    (h : Fillable (set_cell b row column other) r c dr dc side n) :
    Fillable b r c dr dc side n := by
  obtain ⟨h1, h2, h3, h4, h5⟩ := h
  obtain ⟨a1, b1⟩ := cell_after_other b row column side other _ _ hne hother h1
  obtain ⟨a2, b2⟩ := cell_after_other b row column side other _ _ hne hother h2
  obtain ⟨a3, b3⟩ := cell_after_other b row column side other _ _ hne hother h3
  obtain ⟨a4, b4⟩ := cell_after_other b row column side other _ _ hne hother h4
  refine ⟨a1, a2, a3, a4, ?_⟩
  unfold segment_zeros at h5 ⊢
  omega

theorem edge_safe_place_ai (b : Board) (row column : Int) (nA nP : Nat)
    (h : EdgeSafe b (nA + 1) nP) (h0 : b row column = 0) :
    EdgeSafe (set_cell b row column (-1)) nA nP := by
  obtain ⟨hval, hseg⟩ := h
  constructor
  · intro r c hin
    unfold set_cell
    split_ifs
    · left; rfl
    · exact hval r c hin
  · intro r c dr dc hd hin hin3 hout
    obtain ⟨hA, hP⟩ := hseg r c dr dc hd hin hin3 hout
    exact ⟨fun hf => hA (fillable_of_place_same b row column r c dr dc (-1) nA
        (directions_cases dr dc hd).2.2 h0 hf),
      fun hf => hP (fillable_of_place_other b row column r c dr dc 1 (-1) nP
        (by decide) (by decide) hf)⟩

theorem edge_safe_place_player (b : Board) (row column : Int) (nA nP : Nat)
    (h : EdgeSafe b nA (nP + 1)) (h0 : b row column = 0) :
    EdgeSafe (set_cell b row column 1) nA nP := by
  obtain ⟨hval, hseg⟩ := h
  constructor
  · intro r c hin
    unfold set_cell
    split_ifs
    · right; right; rfl
    · exact hval r c hin
  · intro r c dr dc hd hin hin3 hout
    obtain ⟨hA, hP⟩ := hseg r c dr dc hd hin hin3 hout
    exact ⟨fun hf => hA (fillable_of_place_other b row column r c dr dc (-1) 1 nA
        (by decide) (by decide) hf),
      fun hf => hP (fillable_of_place_same b row column r c dr dc 1 nP
        (directions_cases dr dc hd).2.2 h0 hf)⟩

theorem minimax_min_loop_defined (child : Int → Int → Option Int) (b : Board) :
    ∀ (cells : List (Int × Int)) (q : Int),
      (∀ cell ∈ cells, b cell.1 cell.2 = 0 → ∃ v, child cell.1 cell.2 = some v) →
      ∃ P, minimax_min_loop child b cells q = some P := by
  intro cells
  induction cells with
  | nil => intro q _; exact ⟨q, rfl⟩
  | cons cell rest ih =>
    intro q hall
    obtain ⟨row, column⟩ := cell
    have hrest : ∀ cell ∈ rest, b cell.1 cell.2 = 0 → ∃ v, child cell.1 cell.2 = some v :=
      fun cell hc => hall cell (List.mem_cons_of_mem _ hc)
    unfold minimax_min_loop
    split_ifs with hc
    · obtain ⟨v, hv⟩ := hall (row, column) (List.mem_cons_self _ _) hc.1
      rw [hv]
      exact ih _ hrest
    · exact ih q hrest

theorem minimax_max_loop_defined (child : Int → Int → Option Int) (b : Board) :
    ∀ (cells : List (Int × Int)) (q : Int),
      (∀ cell ∈ cells, b cell.1 cell.2 = 0 → ∃ v, child cell.1 cell.2 = some v) →
      ∃ P, minimax_max_loop child b cells q = some P := by
  intro cells
  induction cells with
  | nil => intro q _; exact ⟨q, rfl⟩
  | cons cell rest ih =>
    intro q hall
    obtain ⟨row, column⟩ := cell
    have hrest : ∀ cell ∈ rest, b cell.1 cell.2 = 0 → ∃ v, child cell.1 cell.2 = some v :=
      fun cell hc => hall cell (List.mem_cons_of_mem _ hc)
    unfold minimax_max_loop
    split_ifs with hc
    · obtain ⟨v, hv⟩ := hall (row, column) (List.mem_cons_self _ _) hc.1
      rw [hv]
      exact ih _ hrest
    · exact ih q hrest

theorem minimax_root_loop_defined (s : State) :
    ∀ (cells : List (Int × Int)) (m r c : Int),
      (∀ cell ∈ cells, s.gomoku_board cell.1 cell.2 = 0 →
        ∃ v, root_move_value s cell.1 cell.2 = some v) →
      ∃ x, minimax_root_loop s cells m r c = some x := by
  intro cells
  induction cells with
  | nil => intro m r c _; exact ⟨_, rfl⟩
  | cons cell rest ih =>
    intro m r c hall
    obtain ⟨row, column⟩ := cell
    have hrest : ∀ cell ∈ rest, s.gomoku_board cell.1 cell.2 = 0 →
        ∃ v, root_move_value s cell.1 cell.2 = some v :=
      fun cell hc => hall cell (List.mem_cons_of_mem _ hc)
    unfold minimax_root_loop
    split_ifs with hc
    · obtain ⟨v, hv⟩ := hall (row, column) (List.mem_cons_self _ _) hc.1
      rw [hv]
      simp only
      split_ifs
      · exact ih _ _ _ hrest
      · exact ih _ _ _ hrest
    · exact ih m r c hrest

theorem minimax_leaf_defined (s : State) (p : Bool) (nA nP : Nat)
    (h : EdgeSafe s.gomoku_board nA nP) : ∃ P, minimax_value 0 p s = some P := by
  unfold minimax_value
  exact assess_board_value_defined _ (no_edge_run_of_edge_safe _ nA nP h)

theorem minimax_ai_node_defined (s : State) (nP : Nat) (h : EdgeSafe s.gomoku_board 1 nP) :
    ∃ P, minimax_value 1 false s = some P := by
  unfold minimax_value
  by_cases ht : check_battle_state s = true
  · rw [if_pos ht]
    exact assess_board_value_defined _ (no_edge_run_of_edge_safe _ 1 nP h)
  · rw [if_neg ht, if_neg (by decide)]
    refine minimax_max_loop_defined _ _ all_cells _ ?_
    intro cell _ h0
    exact minimax_leaf_defined _ true 0 nP (edge_safe_place_ai _ _ _ 0 nP h h0)

theorem minimax_player_node_defined (s : State) (h : EdgeSafe s.gomoku_board 1 1) :
    ∃ P, minimax_value 2 true s = some P := by
  unfold minimax_value
  by_cases ht : check_battle_state s = true
  · rw [if_pos ht]
    exact assess_board_value_defined _ (no_edge_run_of_edge_safe _ 1 1 h)
  · rw [if_neg ht, if_pos rfl]
    refine minimax_min_loop_defined _ _ all_cells _ ?_
    intro cell _ h0
    exact minimax_ai_node_defined _ 0 (edge_safe_place_player _ _ _ 1 0 h h0)

/-- On a board that stays clear of border runs after two AI stones and one
player stone, the plain depth-2 search from the root is defined. -/
theorem minimax_ai_move_defined (s : State) (out : Placement)
    (h : EdgeSafe s.gomoku_board 2 1) : ∃ x, minimax_ai_move s out = some x := by
  unfold minimax_ai_move
  refine minimax_root_loop_defined s all_cells _ _ _ ?_
  intro cell _ h0
  unfold root_move_value
  exact minimax_player_node_defined _ (edge_safe_place_ai _ _ _ 1 1 h h0)

theorem blocking_board_edge_safe : EdgeSafe blocking_board 2 1 :=
  edge_safe_of_check _ _ _ (by decide!)

theorem minimax_min_loop_child_ge (child : Int → Int → Option Int) (b : Board) :
    ∀ (cells : List (Int × Int)) (q P : Int),
      minimax_min_loop child b cells q = some P →
      ∀ cell ∈ cells, (b cell.1 cell.2 = 0 ∧ check_neighbors b cell.1 cell.2 = true) →
        ∃ v, child cell.1 cell.2 = some v ∧ P ≤ v := by
  intro cells
  induction cells with
  | nil =>
    intro q P _ cell hcell
    exact absurd hcell (List.not_mem_nil _)
  | cons head rest ih =>
    intro q P h cell hcell hcand
    obtain ⟨row, column⟩ := head
    unfold minimax_min_loop at h
    by_cases hc : b row column = 0 ∧ check_neighbors b row column = true
    · rw [if_pos hc] at h
      cases hv : child row column with
      | none => rw [hv] at h; simp at h
      | some v =>
        rw [hv] at h
        simp only at h
        rcases List.mem_cons.mp hcell with rfl | hrest
        · refine ⟨v, hv, ?_⟩
          have := minimax_min_loop_le child b rest _ P h
          split_ifs at this <;> omega
        · exact ih _ P h cell hrest hcand
    · rw [if_neg hc] at h
      rcases List.mem_cons.mp hcell with rfl | hrest
      · exact absurd hcand hc
      · exact ih q P h cell hrest hcand

/-! ## The blocking scenario -/

theorem unblocked_checks :
    (all_cells.all fun cell =>
      if blocking_board cell.1 cell.2 = 0 ∧ check_neighbors blocking_board cell.1 cell.2 = true
          ∧ cell ≠ (7, 7) then unblocked_check cell else true) = true := by
  decide!

theorem blocked_checks :
    (all_cells.all fun cell =>
      if (place blocking_state 7 7 (-1)).gomoku_board cell.1 cell.2 = 0
          ∧ check_neighbors (place blocking_state 7 7 (-1)).gomoku_board cell.1 cell.2 = true
        then blocked_check cell else true) = true := by
  decide!

theorem root_value_unblocked (row column v : Int)
    (hcand : IsCandidate blocking_board row column) (hne : (row, column) ≠ (7, 7))
    (hv : root_move_value blocking_state row column = some v) : v ≤ -10000000 := by
  have hchk := List.all_eq_true.mp unblocked_checks (row, column)
    ((mem_all_cells row column).mpr hcand.1)
  rw [if_pos ⟨hcand.2.1, hcand.2.2, hne⟩] at hchk
  unfold unblocked_check at hchk
  simp only [Bool.and_eq_true, decide_eq_true_eq, Bool.not_eq_true'] at hchk
  obtain ⟨⟨⟨⟨h0, hn⟩, ht1⟩, ht2⟩, hval⟩ := hchk
  unfold root_move_value minimax_value at hv
  rw [if_neg (by rw [ht1]; decide), if_pos rfl] at hv
  obtain ⟨w, hw, hle⟩ := minimax_min_loop_child_ge _ _ all_cells _ v hv (7, 7)
    ((mem_all_cells 7 7).mpr (by decide)) ⟨h0, hn⟩
  simp only at hw
  unfold minimax_value at hw
  rw [if_pos ht2] at hw
  rw [hw] at hval
  simp only [decide_eq_true_eq] at hval
  omega

theorem root_value_blocked (v : Int) (hv : root_move_value blocking_state 7 7 = some v) :
    -1000000 ≤ v := by
  unfold root_move_value minimax_value at hv
  rw [if_neg (by decide), if_pos rfl] at hv
  have hhi : (-1000001 : Int) < double_max := by unfold double_max; decide!
  have key := minimax_min_loop_gt _ _ (-1000001) all_cells double_max v hhi ?_ hv
  · omega
  · intro cell hcell hc w hw
    · have hchk := List.all_eq_true.mp blocked_checks cell hcell
      rw [if_pos hc] at hchk
      unfold blocked_check at hchk
      simp only [Bool.and_eq_true, Bool.not_eq_true', List.any_eq_true] at hchk
      obtain ⟨ht, z, hz, ⟨hz0, hzn⟩, hval⟩ := hchk
      simp only [decide_eq_true_eq] at hz0
      unfold minimax_value at hw
      rw [if_neg (by rw [ht]; decide), if_neg (by decide)] at hw
      obtain ⟨u, hu, hle⟩ := minimax_max_loop_child_le _ _ all_cells _ w hw z hz ⟨hz0, hzn⟩
      simp only at hu
      unfold minimax_value at hu
      rw [hu] at hval
      simp only [decide_eq_true_eq] at hval
      omega

/-- With exact values: on the blocking board (Side A on (7,3)..(7,6), Side B on (7,2), last
move (7,6)) `calculate_ai_move` stores the open end (7,7) of the player's four,
whatever the reference parameters held, and leaves the globals as they were. -/
theorem blocking_scenario (out : Placement) :
    calculate_ai_move blocking_state out
      = some ({ click_X := 43, click_Y := 16, placed_row := 7, placed_column := 7 },
          blocking_state) := by
  obtain ⟨out', v, hmove, hcand, hv, hbest⟩ := root_choice_max blocking_state out (by decide)
    (minimax_ai_move_defined blocking_state out blocking_board_edge_safe)
    ⟨7, 7, by decide⟩
  obtain ⟨w, hw, hle⟩ := hbest 7 7 (by decide)
  have hw' := root_value_blocked w hw
  have hcell : (out'.placed_row, out'.placed_column) = (7, 7) := by
    by_contra hne
    have := root_value_unblocked _ _ v hcand hne hv
    omega
  simp only [Prod.mk.injEq] at hcell
  rw [hmove]
  unfold calculate_ai_move at hmove
  rw [if_neg (by decide)] at hmove
  cases hl : calculate_ai_move_loop all_cells blocking_state double_lowest out.placed_row
      out.placed_column with
  | none => rw [hl] at hmove; simp at hmove
  | some res =>
    obtain ⟨⟨m, r, c⟩, s'⟩ := res
    rw [hl] at hmove
    simp only [Option.some.injEq, Prod.mk.injEq] at hmove
    obtain ⟨ho, _⟩ := hmove
    subst ho
    simp only at hcell
    rw [hcell.1, hcell.2]
    rfl

/-! ## Terminal detection, legal moves, pruning and tie-break -/

theorem terminal_iff_five_or_full_witness :
    LastMoveInRange five_state ∧
      (check_battle_state five_state = true ↔
        ((AxisWin five_state 1 0 ∨ AxisWin five_state 0 1 ∨ AxisWin five_state 1 1
            ∨ AxisWin five_state (-1) 1)
          ∨ NoEmptyCell five_state.gomoku_board)) :=
  ⟨by decide, terminal_iff_five_or_full five_state (by decide)⟩

/-- With exact values `calculate_ai_move` returns an Empty cell of the board, both when no
stone has been placed (board empty, last move unset) and when the last move is
a stone inside the board, the board has an Empty cell and the plain search is
defined (the evaluator never indexes outside the array). -/
theorem calculate_ai_move_legal (s : State) (out : Placement)
    (h : ((s.last_placed_row = -1 ∧ s.last_placed_column = -1)
            ∧ ∀ row column : Int, s.gomoku_board row column = 0) ∨
         (LastMoveInRange s ∧ s.gomoku_board s.last_placed_row s.last_placed_column ≠ 0
            ∧ (∃ row column, inBoard row column ∧ s.gomoku_board row column = 0)
            ∧ ∃ x, minimax_ai_move s out = some x)) :
    ∃ out', calculate_ai_move s out = some (out', s) ∧
      inBoard out'.placed_row out'.placed_column ∧
      s.gomoku_board out'.placed_row out'.placed_column = 0 := by
  rcases h with ⟨⟨hr, hc⟩, hempty⟩ | ⟨hlast, hstone, hempty, hdef⟩
  · refine ⟨{ click_X := 43, click_Y := 16, placed_row := 7, placed_column := 7 }, ?_,
      by decide, hempty 7 7⟩
    unfold calculate_ai_move
    rw [if_pos ⟨hr, hc⟩]
    rfl
  · have hset : ¬ (s.last_placed_row = -1 ∧ s.last_placed_column = -1) := by
      obtain ⟨h1, _, _, _⟩ := hlast
      omega
    obtain ⟨row, column, hcand⟩ := exists_candidate s.gomoku_board
      ⟨_, _, hlast, hstone⟩ hempty
    obtain ⟨out', _, hmove, hc, _, _⟩ := root_choice_max s out hset hdef ⟨row, column, hcand⟩
    exact ⟨out', hmove, hc.1, hc.2.1⟩

theorem calculate_ai_move_legal_witness :
    (LastMoveInRange blocking_state ∧
        blocking_state.gomoku_board blocking_state.last_placed_row
          blocking_state.last_placed_column ≠ 0
        ∧ (∃ row column, inBoard row column ∧ blocking_state.gomoku_board row column = 0)
        ∧ ∃ x, minimax_ai_move blocking_state ⟨0, 0, 0, 0⟩ = some x) ∧
      ∃ out', calculate_ai_move blocking_state ⟨0, 0, 0, 0⟩ = some (out', blocking_state) ∧
        inBoard out'.placed_row out'.placed_column ∧
        blocking_state.gomoku_board out'.placed_row out'.placed_column = 0 :=
  ⟨⟨by decide, by decide, ⟨0, 0, by decide, rfl⟩,
      minimax_ai_move_defined blocking_state _ blocking_board_edge_safe⟩,
    calculate_ai_move_legal blocking_state ⟨0, 0, 0, 0⟩
      (Or.inr ⟨by decide, by decide, ⟨0, 0, by decide, rfl⟩,
        minimax_ai_move_defined blocking_state _ blocking_board_edge_safe⟩)⟩

/-- C6: when no stone has been placed (the last move is unset, as
`initialize_battle` leaves it), `calculate_ai_move` stores row 7 and column 7
without entering the search loop, whatever the reference parameters held. -/
theorem calculate_ai_move_first (s : State) (out : Placement)
    (hr : s.last_placed_row = -1) (hc : s.last_placed_column = -1) :
    calculate_ai_move s out
      = some ({ click_X := 43, click_Y := 16, placed_row := 7, placed_column := 7 }, s) := by
  unfold calculate_ai_move
  rw [if_pos ⟨hr, hc⟩]
  rfl

theorem calculate_ai_move_first_witness :
    (∀ row column : Int, initialize_battle.gomoku_board row column = 0) ∧
      initialize_battle.last_placed_row = -1 ∧ initialize_battle.last_placed_column = -1 ∧
      calculate_ai_move initialize_battle ⟨0, 0, 0, 0⟩
        = some ({ click_X := 43, click_Y := 16, placed_row := 7, placed_column := 7 },
            initialize_battle) :=
  ⟨fun _ _ => rfl, rfl, rfl, calculate_ai_move_first initialize_battle ⟨0, 0, 0, 0⟩ rfl rfl⟩

/-- With exact values, whenever the plain depth-2 minimax search from the root is defined, the
root loop of `calculate_ai_move` with the cut-offs of `predict_board_value`
ends with the same best value and the same cell as the plain search,
`calculate_ai_move` stores that cell, and a best value above the start value is
the plain minimax value of the chosen cell. -/
theorem alpha_beta_eq_minimax (s : State) (out : Placement)
    (hlast : LastMoveInRange s) (hdef : ∃ x, minimax_ai_move s out = some x) :
    ∃ x, minimax_ai_move s out = some x ∧
      calculate_ai_move_loop all_cells s double_lowest out.placed_row out.placed_column
        = some (x, s) ∧
      calculate_ai_move s out
        = some ({ click_X := x.2.2 * 4 + 15, click_Y := x.2.1 * 2 + 2,
                  placed_row := x.2.1, placed_column := x.2.2 }, s) ∧
      (double_lowest < x.1 → root_move_value s x.2.1 x.2.2 = some x.1) := by
  obtain ⟨x, h⟩ := hdef
  have hloop : calculate_ai_move_loop all_cells s double_lowest out.placed_row out.placed_column
      = some (x, s) := by
    rw [calculate_ai_move_loop_eq, value_root_loop_eq s _ _ _ _ x (le_refl _) h]
    rfl
  refine ⟨x, h, hloop, calculate_ai_move_of_loop s out x ?_ hloop, ?_⟩
  · obtain ⟨h1, _, _, _⟩ := hlast
    omega
  · intro hlt
    obtain ⟨_, _, hcase⟩ := minimax_root_loop_spec s _ _ _ _ x h
    rcases hcase with rfl | ⟨_, _, _, _, _, hvx, _⟩
    · simp at hlt
    · exact hvx

theorem alpha_beta_eq_minimax_witness :
    (LastMoveInRange blocking_state ∧ ∃ x, minimax_ai_move blocking_state ⟨0, 0, 0, 0⟩ = some x) ∧
      ∃ x, minimax_ai_move blocking_state ⟨0, 0, 0, 0⟩ = some x ∧
        calculate_ai_move_loop all_cells blocking_state double_lowest 0 0
          = some (x, blocking_state) ∧
        calculate_ai_move blocking_state ⟨0, 0, 0, 0⟩
          = some ({ click_X := x.2.2 * 4 + 15, click_Y := x.2.1 * 2 + 2,
                    placed_row := x.2.1, placed_column := x.2.2 }, blocking_state) ∧
        (double_lowest < x.1 → root_move_value blocking_state x.2.1 x.2.2 = some x.1) :=
  ⟨⟨by decide, minimax_ai_move_defined blocking_state _ blocking_board_edge_safe⟩,
    alpha_beta_eq_minimax blocking_state ⟨0, 0, 0, 0⟩ (by decide)
      (minimax_ai_move_defined blocking_state _ blocking_board_edge_safe)⟩

/-- With exact values, when the last move is set, the board has a candidate and the plain
search is defined, the cell stored by `calculate_ai_move` is a candidate whose
plain minimax value is the greatest among the candidates, and every candidate
with that same value comes no earlier in row-major order. -/
theorem root_tie_break (s : State) (out : Placement)
    (hset : ¬ (s.last_placed_row = -1 ∧ s.last_placed_column = -1))
    (hdef : ∃ x, minimax_ai_move s out = some x)
    (hcand : ∃ row column, IsCandidate s.gomoku_board row column) :
    ∃ out' v, calculate_ai_move s out = some (out', s) ∧
      IsCandidate s.gomoku_board out'.placed_row out'.placed_column ∧
      root_move_value s out'.placed_row out'.placed_column = some v ∧
      ∀ row column, IsCandidate s.gomoku_board row column →
        ∃ w, root_move_value s row column = some w ∧ w ≤ v ∧
          (w = v → row_major_rank out'.placed_row out'.placed_column
            ≤ row_major_rank row column) := by
  obtain ⟨out', v, l1, l2, hmove, hc, hv, hsplit, hall, hbefore⟩ :=
    root_choice_split s out hset hdef hcand
  refine ⟨out', v, hmove, hc, hv, ?_⟩
  intro row column hcand'
  obtain ⟨w, hw, hle⟩ := hall row column hcand'
  refine ⟨w, hw, hle, ?_⟩
  intro hwv
  have hmem : (row, column) ∈ all_cells := (mem_all_cells row column).mpr hcand'.1
  have hsorted := all_cells_sorted
  rw [hsplit] at hmem hsorted
  rcases List.mem_append.mp hmem with h1 | h2
  · obtain ⟨w', hw', hlt'⟩ := hbefore (row, column) h1 hcand'
    simp only at hw'
    rw [hw] at hw'
    simp only [Option.some.injEq] at hw'
    omega
  · rcases List.mem_cons.mp h2 with h3 | h3
    · simp only [Prod.mk.injEq] at h3
      rw [h3.1, h3.2]
    · have := (List.pairwise_cons.mp (List.pairwise_append.mp hsorted).2.1).1 (row, column) h3
      simp only at this
      omega

theorem root_tie_break_witness :
    (¬ (blocking_state.last_placed_row = -1 ∧ blocking_state.last_placed_column = -1) ∧
        (∃ x, minimax_ai_move blocking_state ⟨0, 0, 0, 0⟩ = some x) ∧
        ∃ row column, IsCandidate blocking_state.gomoku_board row column) ∧
      ∃ out' v, calculate_ai_move blocking_state ⟨0, 0, 0, 0⟩ = some (out', blocking_state) ∧
        IsCandidate blocking_state.gomoku_board out'.placed_row out'.placed_column ∧
        root_move_value blocking_state out'.placed_row out'.placed_column = some v ∧
        ∀ row column, IsCandidate blocking_state.gomoku_board row column →
          ∃ w, root_move_value blocking_state row column = some w ∧ w ≤ v ∧
            (w = v → row_major_rank out'.placed_row out'.placed_column
              ≤ row_major_rank row column) :=
  ⟨⟨by decide, minimax_ai_move_defined blocking_state _ blocking_board_edge_safe,
      ⟨7, 7, by decide⟩⟩,
    root_tie_break blocking_state ⟨0, 0, 0, 0⟩ (by decide)
      (minimax_ai_move_defined blocking_state _ blocking_board_edge_safe) ⟨7, 7, by decide⟩⟩

/-! ## Directional scanners -/

theorem count_extendable_lt_iff (b : Board) (in_range : Int → Int → Bool) (dr dc stone r c : Int) :
    count_extendable b in_range dr dc stone 4 r c 0 < 4 ↔
      ¬ ((in_range r c = true ∧ b r c ≠ -stone) ∧
         (in_range (r + dr) (c + dc) = true ∧ b (r + dr) (c + dc) ≠ -stone) ∧
         (in_range (r + dr + dr) (c + dc + dc) = true ∧ b (r + dr + dr) (c + dc + dc) ≠ -stone) ∧
         (in_range (r + dr + dr + dr) (c + dc + dc + dc) = true ∧
           b (r + dr + dr + dr) (c + dc + dc + dc) ≠ -stone)) := by
  unfold count_extendable
  by_cases h1 : in_range r c = true ∧ b r c ≠ -stone ∧ (0 : Int) < 4
  · rw [if_pos h1]
    unfold count_extendable
    by_cases h2 : in_range (r + dr) (c + dc) = true ∧ b (r + dr) (c + dc) ≠ -stone ∧ (0 + 1 : Int) < 4
    · rw [if_pos h2]
      unfold count_extendable
      by_cases h3 : in_range (r + dr + dr) (c + dc + dc) = true ∧
          b (r + dr + dr) (c + dc + dc) ≠ -stone ∧ (0 + 1 + 1 : Int) < 4
      · rw [if_pos h3]
        unfold count_extendable
        by_cases h4 : in_range (r + dr + dr + dr) (c + dc + dc + dc) = true ∧
            b (r + dr + dr + dr) (c + dc + dc + dc) ≠ -stone ∧ (0 + 1 + 1 + 1 : Int) < 4
        · rw [if_pos h4]
          constructor
          · intro h
            unfold count_extendable at h
            norm_num at h
          · intro h
            exact absurd ⟨⟨h1.1, h1.2.1⟩, ⟨h2.1, h2.2.1⟩, ⟨h3.1, h3.2.1⟩, ⟨h4.1, h4.2.1⟩⟩ h
        · rw [if_neg h4]
          constructor
          · intro _ hall
            exact h4 ⟨hall.2.2.2.1, hall.2.2.2.2, by norm_num⟩
          · intro _
            norm_num
      · rw [if_neg h3]
        constructor
        · intro _ hall
          exact h3 ⟨hall.2.2.1.1, hall.2.2.1.2, by norm_num⟩
        · intro _
          norm_num
    · rw [if_neg h2]
      constructor
      · intro _ hall
        exact h2 ⟨hall.2.1.1, hall.2.1.2, by norm_num⟩
      · intro _
        norm_num
  · rw [if_neg h1]
    constructor
    · intro _ hall
      exact h1 ⟨hall.1.1, hall.1.2, by norm_num⟩
    · intro _
      norm_num

theorem four_extendable_iff (b : Board) (row column dr dc : Int) :
    FourExtendable b row column dr dc ↔
      ((inBoard (row + dr) (column + dc) ∧ b (row + dr) (column + dc) ≠ -b row column) ∧
       (inBoard (row + dr + dr) (column + dc + dc) ∧
         b (row + dr + dr) (column + dc + dc) ≠ -b row column) ∧
       (inBoard (row + dr + dr + dr) (column + dc + dc + dc) ∧
         b (row + dr + dr + dr) (column + dc + dc + dc) ≠ -b row column) ∧
       (inBoard (row + dr + dr + dr + dr) (column + dc + dc + dc + dc) ∧
         b (row + dr + dr + dr + dr) (column + dc + dc + dc + dc) ≠ -b row column)) := by
  have e1 : ∀ x d : Int, x + 1 * d = x + d := by intro x d; ring
  have e2 : ∀ x d : Int, x + 2 * d = x + d + d := by intro x d; ring
  have e3 : ∀ x d : Int, x + 3 * d = x + d + d + d := by intro x d; ring
  have e4 : ∀ x d : Int, x + 4 * d = x + d + d + d + d := by intro x d; ring
  constructor
  · intro h
    have h1 := h 1 (by norm_num) (by norm_num)
    have h2 := h 2 (by norm_num) (by norm_num)
    have h3 := h 3 (by norm_num) (by norm_num)
    have h4 := h 4 (by norm_num) (by norm_num)
    rw [e1, e1] at h1
    rw [e2, e2] at h2
    rw [e3, e3] at h3
    rw [e4, e4] at h4
    exact ⟨h1, h2, h3, h4⟩
  · intro h i hi1 hi4
    have hi : i = 1 ∨ i = 2 ∨ i = 3 ∨ i = 4 := by omega
    rcases hi with rfl | rfl | rfl | rfl
    · rw [e1, e1]; exact h.1
    · rw [e2, e2]; exact h.2.1
    · rw [e3, e3]; exact h.2.2.1
    · rw [e4, e4]; exact h.2.2.2

theorem scanner_table_cases (f : Board → Int → Int → Option Int) (dr dc : Int)
    (hf : (f, (dr, dc)) ∈ scanner_table) :
    (dr, dc) ∈ directions ∧ ∃ in_range : Int → Int → Bool,
      (∀ b row column, f b row column = assess_stone b in_range dr dc row column) ∧
      ∀ r c, inBoard (r - dr) (c - dc) → (in_range r c = true ↔ inBoard r c) := by
  simp only [scanner_table, List.mem_cons, Prod.mk.injEq, List.mem_singleton, List.not_mem_nil,
    or_false] at hf
  rcases hf with h | h | h | h | h | h | h | h
  all_goals
    obtain ⟨rfl, rfl, rfl⟩ := h
    refine ⟨by simp [directions], _, fun _ _ _ => rfl, ?_⟩
    intro r c h
    simp only [inBoard, decide_eq_true_eq] at h ⊢
    omega

theorem count_run_value (b : Board) (dr dc stone : Int) :
    ∀ (k n : Nat) (r c x : Int), k < n →
      (∀ i : Nat, i < k →
        inBoard (r + i * dr) (c + i * dc) ∧ b (r + i * dr) (c + i * dc) = stone) →
      inBoard (r + k * dr) (c + k * dc) → b (r + k * dr) (c + k * dc) ≠ stone →
      count_run b dr dc stone n r c x = some (x * 10 ^ k) := by
  intro k
  induction k with
  | zero =>
    intro n r c x hn _ hin hne
    obtain ⟨m, rfl⟩ : ∃ m, n = m + 1 := ⟨n - 1, by omega⟩
    simp only [Nat.cast_zero, zero_mul, add_zero] at hin hne
    rw [count_run_step _ _ _ _ _ _ _ _ hin, if_neg hne]
    simp
  | succ j ih =>
    intro n r c x hn hrun hin hne
    obtain ⟨m, rfl⟩ : ∃ m, n = m + 1 := ⟨n - 1, by omega⟩
    have h0 := hrun 0 (by omega)
    simp only [Nat.cast_zero, zero_mul, add_zero] at h0
    rw [count_run_step _ _ _ _ _ _ _ _ h0.1, if_pos h0.2]
    have e : ∀ (y d : Int) (i : Nat), y + d + (i : Int) * d = y + ((i + 1 : Nat) : Int) * d := by
      intro y d i
      push_cast
      ring
    rw [ih m (r + dr) (c + dc) (x * 10) (by omega) ?_ ?_ ?_]
    · rw [pow_succ]
      congr 1
      ring
    · intro i hi
      rw [e, e]
      exact hrun (i + 1) (by omega)
    · rw [e, e]
      exact hin
    · rw [e, e]
      exact hne

theorem assess_stone_blocked (b : Board) (in_range : Int → Int → Bool) (dr dc row column : Int)
    (hin : inBoard row column)
    (hrange : ∀ r c, inBoard (r - dr) (c - dc) → (in_range r c = true ↔ inBoard r c))
    (hblocked : ¬ FourExtendable b row column dr dc) :
    assess_stone b in_range dr dc row column = some 0 := by
  unfold assess_stone
  rw [if_pos]
  rw [count_extendable_lt_iff]
  intro hall
  apply hblocked
  rw [four_extendable_iff]
  obtain ⟨⟨g0, n0⟩, ⟨g1, n1⟩, ⟨g2, n2⟩, ⟨g3, n3⟩⟩ := hall
  have q0 : inBoard (row + dr) (column + dc) :=
    (hrange _ _ (by rw [show row + dr - dr = row by ring, show column + dc - dc = column by ring]
                    exact hin)).1 g0
  have q1 : inBoard (row + dr + dr) (column + dc + dc) :=
    (hrange _ _ (by rw [show row + dr + dr - dr = row + dr by ring,
                      show column + dc + dc - dc = column + dc by ring]
                    exact q0)).1 g1
  have q2 : inBoard (row + dr + dr + dr) (column + dc + dc + dc) :=
    (hrange _ _ (by rw [show row + dr + dr + dr - dr = row + dr + dr by ring,
                      show column + dc + dc + dc - dc = column + dc + dc by ring]
                    exact q1)).1 g2
  have q3 : inBoard (row + dr + dr + dr + dr) (column + dc + dc + dc + dc) :=
    (hrange _ _ (by rw [show row + dr + dr + dr + dr - dr = row + dr + dr + dr by ring,
                      show column + dc + dc + dc + dc - dc = column + dc + dc + dc by ring]
                    exact q2)).1 g3
  exact ⟨⟨q0, n0⟩, ⟨q1, n1⟩, ⟨q2, n2⟩, ⟨q3, n3⟩⟩

theorem assess_stone_open (b : Board) (in_range : Int → Int → Bool) (dr dc row column : Int)
    (hin : inBoard row column)
    (hrange : ∀ r c, inBoard (r - dr) (c - dc) → (in_range r c = true ↔ inBoard r c))
    (hopen : FourExtendable b row column dr dc) :
    assess_stone b in_range dr dc row column
      = count_run b dr dc (b row column) 15 (row + dr) (column + dc) 100 := by
  unfold assess_stone
  rw [if_neg]
  rw [count_extendable_lt_iff, not_not]
  rw [four_extendable_iff] at hopen
  obtain ⟨⟨q0, n0⟩, ⟨q1, n1⟩, ⟨q2, n2⟩, ⟨q3, n3⟩⟩ := hopen
  have g0 : in_range (row + dr) (column + dc) = true :=
    (hrange _ _ (by rw [show row + dr - dr = row by ring, show column + dc - dc = column by ring]
                    exact hin)).2 q0
  have g1 : in_range (row + dr + dr) (column + dc + dc) = true :=
    (hrange _ _ (by rw [show row + dr + dr - dr = row + dr by ring,
                      show column + dc + dc - dc = column + dc by ring]
                    exact q0)).2 q1
  have g2 : in_range (row + dr + dr + dr) (column + dc + dc + dc) = true :=
    (hrange _ _ (by rw [show row + dr + dr + dr - dr = row + dr + dr by ring,
                      show column + dc + dc + dc - dc = column + dc + dc by ring]
                    exact q1)).2 q2
  have g3 : in_range (row + dr + dr + dr + dr) (column + dc + dc + dc + dc) = true :=
    (hrange _ _ (by rw [show row + dr + dr + dr + dr - dr = row + dr + dr + dr by ring,
                      show column + dc + dc + dc + dc - dc = column + dc + dc + dc by ring]
                    exact q2)).2 q3
  exact ⟨⟨g0, n0⟩, ⟨g1, n1⟩, ⟨g2, n2⟩, ⟨g3, n3⟩⟩

/-! ## C11: the adjacency filter -/

/-- C11: for an in-range cell, `check_neighbors` returns true exactly when one
of the surrounding cells that lie inside the board holds a stone; on a board
with no stone it returns false. -/
theorem check_neighbors_spec (b : Board) (row column : Int) (hin : inBoard row column) :
    (check_neighbors b row column = true ↔
      ∃ dr dc : Int, (dr, dc) ∈ directions ∧ inBoard (row + dr) (column + dc) ∧
        b (row + dr) (column + dc) ≠ 0) ∧
    ((∀ r c, inBoard r c → b r c = 0) → check_neighbors b row column = false) := by
  have key : check_neighbors b row column = true ↔
      ∃ dr dc : Int, (dr, dc) ∈ directions ∧ inBoard (row + dr) (column + dc) ∧
        b (row + dr) (column + dc) ≠ 0 := by
    rw [check_neighbors_iff]
    unfold inBoard at hin
    constructor
    · intro h
      rcases h with h | h | h | h | h | h | h | h
      · exact ⟨-1, -1, by simp [directions], by unfold inBoard; omega, h.2⟩
      · exact ⟨-1, 0, by simp [directions], by unfold inBoard; omega, by simpa using h.2⟩
      · exact ⟨-1, 1, by simp [directions], by unfold inBoard; omega, h.2⟩
      · exact ⟨0, -1, by simp [directions], by unfold inBoard; omega, by simpa using h.2⟩
      · exact ⟨0, 1, by simp [directions], by unfold inBoard; omega, by simpa using h.2⟩
      · exact ⟨1, -1, by simp [directions], by unfold inBoard; omega, h.2⟩
      · exact ⟨1, 0, by simp [directions], by unfold inBoard; omega, by simpa using h.2⟩
      · exact ⟨1, 1, by simp [directions], by unfold inBoard; omega, h.2⟩
    · rintro ⟨dr, dc, hd, hcell, hne⟩
      simp only [directions, List.mem_cons, Prod.mk.injEq, List.mem_singleton, List.not_mem_nil,
        or_false] at hd
      unfold inBoard at hcell
      rcases hd with h | h | h | h | h | h | h | h
      · obtain ⟨rfl, rfl⟩ := h
        exact Or.inr (Or.inl ⟨by omega, by simpa using hne⟩)
      · obtain ⟨rfl, rfl⟩ := h
        exact Or.inr (Or.inr (Or.inr (Or.inr (Or.inr (Or.inr (Or.inl
          ⟨by omega, by simpa using hne⟩))))))
      · obtain ⟨rfl, rfl⟩ := h
        exact Or.inr (Or.inr (Or.inr (Or.inl ⟨by omega, by simpa using hne⟩)))
      · obtain ⟨rfl, rfl⟩ := h
        exact Or.inr (Or.inr (Or.inr (Or.inr (Or.inl ⟨by omega, by simpa using hne⟩))))
      · obtain ⟨rfl, rfl⟩ := h
        exact Or.inl ⟨by omega, hne⟩
      · obtain ⟨rfl, rfl⟩ := h
        exact Or.inr (Or.inr (Or.inl ⟨by omega, hne⟩))
      · obtain ⟨rfl, rfl⟩ := h
        exact Or.inr (Or.inr (Or.inr (Or.inr (Or.inr (Or.inl ⟨by omega, hne⟩)))))
      · obtain ⟨rfl, rfl⟩ := h
        exact Or.inr (Or.inr (Or.inr (Or.inr (Or.inr (Or.inr (Or.inr ⟨by omega, hne⟩))))))
  refine ⟨key, ?_⟩
  intro hempty
  cases hc : check_neighbors b row column
  · rfl
  · obtain ⟨dr, dc, _, hcell, hne⟩ := key.1 hc
    exact absurd (hempty _ _ hcell) hne

/-- On `blocking_board` the Empty cell (7,7) has the stone on (7,6) next to
it, and `check_neighbors` reports it. -/
theorem check_neighbors_spec_witness :
    inBoard 7 7 ∧ (check_neighbors blocking_board 7 7 = true ↔
      ∃ dr dc : Int, (dr, dc) ∈ directions ∧ inBoard (7 + dr) (7 + dc) ∧
        blocking_board (7 + dr) (7 + dc) ≠ 0) :=
  ⟨by decide, (check_neighbors_spec blocking_board 7 7 (by decide)).1⟩

/-! ## C12, C13: the directional scanners -/

/-- C12 as stated fails: around the lone stone on (7,7) all four cells above
are extendable and the same-owner run above it has length 0, yet
`assess_stone_top` returns 10.0 (100 tenths), not 10^0 = 1.0 (10 tenths). -/
theorem scanner_value_lone_stone :
    (assess_stone_top, ((-1 : Int), (0 : Int))) ∈ scanner_table ∧ inBoard 7 7 ∧
      lone_stone_board 7 7 ≠ 0 ∧ FourExtendable lone_stone_board 7 7 (-1) 0 ∧
      RunLength lone_stone_board 7 7 (-1) 0 0 ∧
      assess_stone_top lone_stone_board 7 7 = some 100 ∧
      assess_stone_top lone_stone_board 7 7 ≠ some (10 ^ 0 * 10) := by
  refine ⟨by simp [scanner_table], by decide, by decide, ?_, ?_, by decide, by decide⟩
  · intro i h1 h4
    have hi : i = 1 ∨ i = 2 ∨ i = 3 ∨ i = 4 := by omega
    rcases hi with rfl | rfl | rfl | rfl <;> decide
  · refine ⟨?_, by decide⟩
    intro i h1 h0
    simp only [Nat.cast_zero] at h0
    omega

/-- C12 (amended): in a direction with four extendable points, when the run of
`k` same-owner cells next to the stone ends on a cell inside the board, the
scanner returns 10^(k+1), that is `10 ^ (k + 1) * 10` tenths. -/
theorem scanner_value_of_run (b : Board) (row column : Int)
    (f : Board → Int → Int → Option Int) (dr dc : Int) (k : Nat)
    (hf : (f, (dr, dc)) ∈ scanner_table) (hin : inBoard row column)
    (hopen : FourExtendable b row column dr dc) (hrun : RunLength b row column dr dc k)
    (hend : inBoard (row + (k + 1) * dr) (column + (k + 1) * dc)) :
    f b row column = some (10 ^ (k + 1) * 10) := by
  obtain ⟨hd, in_range, hfe, hrange⟩ := scanner_table_cases f dr dc hf
  obtain ⟨d1, d2, d3⟩ := directions_cases dr dc hd
  rw [hfe, assess_stone_open b in_range dr dc row column hin hrange hopen]
  have e : ∀ (y d : Int) (i : Nat), y + d + (i : Int) * d = y + ((i : Int) + 1) * d := by
    intro y d i
    ring
  have hk : k < 15 := by
    unfold inBoard at hin hend
    rcases d1 with rfl | rfl | rfl <;> rcases d2 with rfl | rfl | rfl <;> omega
  rw [count_run_value b dr dc (b row column) k 15 (row + dr) (column + dc) 100 hk ?_ ?_ ?_]
  · congr 1
    rw [pow_succ]
    ring
  · intro i hi
    rw [e, e]
    exact hrun.1 ((i : Int) + 1) (by omega) (by omega)
  · rw [e, e]
    exact hend
  · rw [e, e]
    intro heq
    exact hrun.2 ⟨hend, heq⟩

/-- On `lone_stone_board` the run above (7,7) has length 0 and ends on the
Empty cell (6,7): the scanner returns 10.0.  On `blocking_board` the run to the
right of (7,3) has length 3 and ends on the Empty cell (7,7): the scanner
returns 10000.0. -/
theorem scanner_value_of_run_witness :
    (assess_stone_top, ((-1 : Int), (0 : Int))) ∈ scanner_table ∧ inBoard 7 7 ∧
      assess_stone_top lone_stone_board 7 7 = some (10 ^ (0 + 1) * 10) ∧
      assess_stone_right blocking_board 7 3 = some (10 ^ (3 + 1) * 10) := by
  have hopen : FourExtendable lone_stone_board 7 7 (-1) 0 := by
    intro i h1 h4
    have hi : i = 1 ∨ i = 2 ∨ i = 3 ∨ i = 4 := by omega
    rcases hi with rfl | rfl | rfl | rfl <;> decide
  have hrun : RunLength lone_stone_board 7 7 (-1) 0 0 := by
    refine ⟨?_, by decide⟩
    intro i h1 h0
    simp only [Nat.cast_zero] at h0
    omega
  have hopen3 : FourExtendable blocking_board 7 3 0 1 := by
    intro i h1 h4
    have hi : i = 1 ∨ i = 2 ∨ i = 3 ∨ i = 4 := by omega
    rcases hi with rfl | rfl | rfl | rfl <;> decide
  have hrun3 : RunLength blocking_board 7 3 0 1 3 := by
    refine ⟨?_, by decide⟩
    intro i h1 h3
    have hi : i = 1 ∨ i = 2 ∨ i = 3 := by
      simp only [Nat.cast_ofNat] at h3
      omega
    rcases hi with rfl | rfl | rfl <;> decide
  exact ⟨by simp [scanner_table], by decide,
    scanner_value_of_run lone_stone_board 7 7 assess_stone_top (-1) 0 0 (by simp [scanner_table])
      (by decide) hopen hrun (by decide),
    scanner_value_of_run blocking_board 7 3 assess_stone_right 0 1 3 (by simp [scanner_table])
      (by decide) hopen3 hrun3 (by decide)⟩

/-- C13: in a direction with fewer than four extendable points (a stone of the
other side or the board edge is met within the first four steps) the scanner
returns 0. -/
theorem scanner_zero_of_blocked (b : Board) (row column : Int)
    (f : Board → Int → Int → Option Int) (dr dc : Int)
    (hf : (f, (dr, dc)) ∈ scanner_table) (hin : inBoard row column)
    (hblocked : ¬ FourExtendable b row column dr dc) :
    f b row column = some 0 := by
  obtain ⟨_, in_range, hfe, hrange⟩ := scanner_table_cases f dr dc hf
  rw [hfe]
  exact assess_stone_blocked b in_range dr dc row column hin hrange hblocked

/-- On `edge_run_board` the stone on (3,7) is three cells from the top edge:
the fourth step up leaves the board and `assess_stone_top` returns 0. -/
theorem scanner_zero_of_blocked_witness :
    (assess_stone_top, ((-1 : Int), (0 : Int))) ∈ scanner_table ∧ inBoard 3 7 ∧
      ¬ FourExtendable edge_run_board 3 7 (-1) 0 ∧
      assess_stone_top edge_run_board 3 7 = some 0 := by
  have hblocked : ¬ FourExtendable edge_run_board 3 7 (-1) 0 := by
    intro h
    have h4 := (h 4 (by norm_num) (by norm_num)).1
    revert h4
    decide
  exact ⟨by simp [scanner_table], by decide, hblocked,
    scanner_zero_of_blocked edge_run_board 3 7 assess_stone_top (-1) 0 (by simp [scanner_table])
      (by decide) hblocked⟩

/-! ## C14: place and remove -/

/-- C14: writing a stone of either side into an Empty cell and then writing
Empty back gives the original board in every cell (of the 225 and beyond). -/
theorem place_remove_round_trip (b : Board) (row column side : Int)
    (h0 : b row column = 0) :
    (∀ r c, inBoard r c → set_cell (set_cell b row column side) row column 0 r c = b r c) ∧
      set_cell (set_cell b row column side) row column 0 = b := by
  have key : ∀ r c, set_cell (set_cell b row column side) row column 0 r c = b r c := by
    intro r c
    unfold set_cell
    by_cases h : r = row ∧ c = column
    · rw [if_pos h, h.1, h.2, h0]
    · rw [if_neg h, if_neg h]
  exact ⟨fun r c _ => key r c, funext fun r => funext fun c => key r c⟩

/-- On `blocking_board` the Empty cell (7,7) takes a Side B stone and gives it
back. -/
theorem place_remove_round_trip_witness :
    inBoard 7 7 ∧ blocking_board 7 7 = 0 ∧
      set_cell (set_cell blocking_board 7 7 (-1)) 7 7 0 = blocking_board :=
  ⟨by decide, by decide, (place_remove_round_trip blocking_board 7 7 (-1) (by decide)).2⟩

/-! ## C19: the search restores the globals -/

/-- C19: whenever `predict_board_value` returns, and whenever
`calculate_ai_move` returns, the board and both last-move coordinates are what
they were before the call. -/
theorem search_restores_state (depth : Nat) (is_player_next : Bool) (s : State) (a b : Int)
    (out : Placement) :
    (∀ v restored, predict_board_value depth is_player_next s a b = some (v, restored) →
      restored = s) ∧
    (∀ chosen restored, calculate_ai_move s out = some (chosen, restored) → restored = s) := by
  constructor
  · intro v restored h
    rw [predict_board_value_eq] at h
    cases hv : search_value depth is_player_next s a b with
    | none =>
      rw [hv] at h
      exact absurd h (by simp)
    | some w =>
      rw [hv] at h
      simp only [Option.map_some', Option.some.injEq, Prod.mk.injEq] at h
      exact h.2.symm
  · intro chosen restored h
    unfold calculate_ai_move at h
    by_cases hfirst : s.last_placed_row = -1 ∧ s.last_placed_column = -1
    · rw [if_pos hfirst] at h
      simp only [Option.some.injEq, Prod.mk.injEq] at h
      exact h.2.symm
    · rw [if_neg hfirst, calculate_ai_move_loop_eq] at h
      cases hv : value_root_loop s all_cells double_lowest out.placed_row out.placed_column with
      | none =>
        rw [hv] at h
        exact absurd h (by simp)
      | some w =>
        rw [hv] at h
        simp only [Option.map_some', Option.some.injEq, Prod.mk.injEq] at h
        exact h.2.symm

/-- The leaf call on `blocking_state` returns the static value and leaves the
state as it was, and so does the call with two more moves to search. -/
theorem search_restores_state_witness :
    predict_board_value 0 true blocking_state 0 0 = some (-566340, blocking_state) ∧
      ∃ v, predict_board_value 2 true blocking_state 0 0 = some (v, blocking_state) := by
  have h : ∃ v restored, predict_board_value 0 true blocking_state 0 0 = some (v, restored)
      ∧ v = -566340 := by
    have hv : assess_board_value blocking_board = some (-566340) := by decide!
    refine ⟨-566340, blocking_state, ?_, rfl⟩
    unfold predict_board_value
    show (match assess_board_value blocking_board with
      | none => none
      | some v => some (v, blocking_state)) = _
    rw [hv]
  obtain ⟨v, restored, h1, h2⟩ := h
  have h3 := (search_restores_state 0 true blocking_state 0 0
    { click_X := 0, click_Y := 0, placed_row := 0, placed_column := 0 }).1 v restored h1
  have hdeep : (predict_board_value 2 true blocking_state 0 0).isSome = true := by decide!
  obtain ⟨x, hx⟩ := Option.isSome_iff_exists.1 hdeep
  have h4 := (search_restores_state 2 true blocking_state 0 0
    { click_X := 0, click_Y := 0, placed_row := 0, placed_column := 0 }).1 x.1 x.2 hx
  refine ⟨by rw [h1, h2, h3], x.1, ?_⟩
  rw [hx, ← h4]

/-! ## C20: the static evaluator as a sum -/

/-- C21: with `search_depth` 0, or with `check_battle_state` true,
`predict_board_value` returns the value of `assess_board_value` on the current
board, for either side to move and any two bounds, and the board and the last
move are as before the call. -/
theorem leaf_rule (search_depth : Nat) (is_player_next : Bool) (s : State) (a b : Int)
    (hleaf : search_depth = 0 ∨ check_battle_state s = true) :
    predict_board_value search_depth is_player_next s a b
      = (assess_board_value s.gomoku_board).map fun v => (v, s) := by
  cases search_depth with
  | zero =>
    unfold predict_board_value
    cases assess_board_value s.gomoku_board <;> rfl
  | succ d =>
    have ht : check_battle_state s = true := by
      rcases hleaf with h | h
      · exact absurd h (Nat.succ_ne_zero d)
      · exact h
    unfold predict_board_value
    rw [if_pos ht]
    cases assess_board_value s.gomoku_board <;> rfl

/-- On `five_state` the player has five in a row: a call with depth 2 returns
the static value at once. -/
theorem leaf_rule_witness :
    check_battle_state five_state = true ∧
      predict_board_value 2 false five_state 0 0
        = (assess_board_value five_state.gomoku_board).map fun v => (v, five_state) := by
  have ht : check_battle_state five_state = true := by decide
  exact ⟨ht, leaf_rule 2 false five_state 0 0 (Or.inr ht)⟩

/-! ## C26: the adjacency filter leaves a candidate -/

/-- C26: on a board with a stone and an Empty cell some Empty cell of the
row-major enumeration passes `check_neighbors`; in particular at every node
that `check_battle_state` does not end and whose last move lies on a stone. -/
theorem candidates_never_starve (b : Board) (hstone : ∃ r c, inBoard r c ∧ b r c ≠ 0) :
    ((∃ r c, inBoard r c ∧ b r c = 0) →
      ∃ cell ∈ all_cells, b cell.1 cell.2 = 0 ∧ check_neighbors b cell.1 cell.2 = true) ∧
    ∀ s : State, s.gomoku_board = b → check_battle_state s = false →
      ∃ cell ∈ all_cells, b cell.1 cell.2 = 0 ∧ check_neighbors b cell.1 cell.2 = true := by
  have key : (∃ r c, inBoard r c ∧ b r c = 0) →
      ∃ cell ∈ all_cells, b cell.1 cell.2 = 0 ∧ check_neighbors b cell.1 cell.2 = true := by
    intro hempty
    obtain ⟨row, column, hin, h0, hn⟩ := exists_candidate b hstone hempty
    exact ⟨(row, column), (mem_all_cells row column).2 hin, h0, hn⟩
  refine ⟨key, ?_⟩
  intro s hb hnt
  apply key
  have := exists_empty_of_not_terminal s (by rw [hnt]; decide)
  rw [hb] at this
  exact this

/-- On `blocking_board`, with five stones and 220 Empty cells, a candidate
exists. -/
theorem candidates_never_starve_witness :
    (∃ r c, inBoard r c ∧ blocking_board r c ≠ 0) ∧
      ∃ cell ∈ all_cells, blocking_board cell.1 cell.2 = 0 ∧
        check_neighbors blocking_board cell.1 cell.2 = true := by
  have hstone : ∃ r c, inBoard r c ∧ blocking_board r c ≠ 0 := ⟨7, 2, by decide, by decide⟩
  exact ⟨hstone, (candidates_never_starve blocking_board hstone).1 ⟨0, 0, by decide, by decide⟩⟩

/-! ## C27: the two terminal detectors -/

/-- C27: with the last move on a stone of side S, `check_winner` returns 0 or
S, and `check_battle_state` is true exactly when `check_winner` is not 0 or no
cell of the board is Empty. -/
theorem detectors_agree (s : State)
    (hstone : s.gomoku_board s.last_placed_row s.last_placed_column ≠ 0) :
    (check_winner s = 0 ∨ check_winner s = s.gomoku_board s.last_placed_row s.last_placed_column) ∧
    (check_battle_state s = true ↔ (check_winner s ≠ 0 ∨ NoEmptyCell s.gomoku_board)) := by
  unfold check_winner check_winner_call check_battle_state
  rw [← board_full_iff]
  cases h1 : scan_vertical s with
  | some o1 => simp [hstone]
  | none =>
    cases h2 : scan_horizontal s with
    | some o2 => simp [hstone]
    | none =>
      cases h3 : scan_major_diagonal s with
      | some o3 => simp [hstone]
      | none =>
        cases h4 : scan_minor_diagonal s with
        | some o4 => simp [hstone]
        | none => simp

/-- On `cross_state` the last move (7,7) completes five: both detectors report
the end, `check_winner` with the side of the stone. -/
theorem detectors_agree_witness :
    cross_state.gomoku_board cross_state.last_placed_row cross_state.last_placed_column ≠ 0 ∧
      check_winner cross_state = 1 ∧ check_battle_state cross_state = true := by
  have hstone : cross_state.gomoku_board cross_state.last_placed_row
      cross_state.last_placed_column ≠ 0 := by decide
  have hw : check_winner cross_state = 1 := by decide
  refine ⟨hstone, hw, (detectors_agree cross_state hstone).2.2 (Or.inl ?_)⟩
  rw [hw]
  decide

/-! ## C23: the specified scan, which resets the counter outside the board -/

theorem scan_window_reset_frozen (inb own : Int → Bool) :
    ∀ (l : List Int) (t : Int), (∀ o ∈ l, inb o = false) →
      scan_window_reset inb own l t = none := by
  intro l
  induction l with
  | nil => intro t _; rfl
  | cons o rest ih =>
    intro t h
    unfold scan_window_reset
    have ho := h o (List.mem_cons_self _ _)
    simp only [ho, Bool.false_eq_true, if_false]
    rw [if_neg (by decide)]
    exact ih 0 fun x hx => h x (List.mem_cons_of_mem _ hx)

/-- From offset `o` on, the loop of the source and the specified loop go the
same way: outside the board before the last move the counter is 0 in both, and
outside the board after it neither counter can grow. -/
theorem scan_reset_from (inb own inb' own' : Int → Bool)
    (hneg : ∀ o : Int, -4 ≤ o → o < 0 → inb o = true → inb (o + 1) = true)
    (hpos : ∀ o : Int, 0 ≤ o → o < 4 → inb (o + 1) = true → inb o = true)
    (hinb : ∀ o : Int, -4 ≤ o → o ≤ 4 → inb' o = inb o)
    (hown : ∀ o : Int, -4 ≤ o → o ≤ 4 → inb o = true → own' o = own o) :
    ∀ (n : Nat) (o t : Int), o + n = 5 → -4 ≤ o → t ≠ 5 →
      (t ≠ 0 → -4 ≤ o - 1 ∧ inb (o - 1) = true) →
      scan_window inb own (offsets_from o n) t
        = scan_window_reset inb' own' (offsets_from o n) t := by
  intro n
  induction n with
  | zero =>
    intro o t _ _ _ _
    rfl
  | succ m ih =>
    intro o t hon ho ht hrun
    push_cast at hon
    unfold offsets_from scan_window scan_window_reset
    rw [hinb o ho (by omega)]
    by_cases hin : inb o = true
    · rw [hown o ho (by omega) hin]
      simp only [hin, if_true]
      by_cases h5 : (if own o = true then t + 1 else 0) = 5
      · rw [if_pos h5, if_pos h5]
      · rw [if_neg h5, if_neg h5]
        refine ih (o + 1) _ (by omega) (by omega) h5 ?_
        intro _
        rw [show o + 1 - 1 = o by ring]
        exact ⟨ho, hin⟩
    · have hin' : inb o = false := by simpa using hin
      simp only [hin', Bool.false_eq_true, if_false]
      rw [if_neg ht, if_neg (by decide)]
      by_cases hneg0 : o ≤ 0
      · have ht0 : t = 0 := by
          by_contra hne
          obtain ⟨h1, h2⟩ := hrun hne
          have := hneg (o - 1) h1 (by omega) h2
          rw [show o - 1 + 1 = o by ring, hin'] at this
          exact absurd this (by decide)
        rw [ht0]
        exact ih (o + 1) 0 (by omega) (by omega) (by decide) fun h => absurd rfl h
      · have hout : ∀ o' ∈ offsets_from (o + 1) m, inb o' = false := by
          intro o' ho'
          obtain ⟨h1, h2⟩ := mem_offsets_from o' m (o + 1) ho'
          have := out_of_range_tail inb hpos o (by omega) hin' (o' - o).toNat
            (by rw [Int.toNat_of_nonneg (by omega)]; omega)
          rw [Int.toNat_of_nonneg (by omega)] at this
          rw [show o + (o' - o) = o' by ring] at this
          exact this
        rw [scan_window_frozen inb own _ t hout ht]
        symm
        apply scan_window_reset_frozen
        intro o' ho'
        obtain ⟨h1, h2⟩ := mem_offsets_from o' m (o + 1) ho'
        rw [hinb o' (by omega) (by omega)]
        exact hout o' ho'

theorem scan_reset_eq (inb own inb' own' : Int → Bool)
    (hneg : ∀ o : Int, -4 ≤ o → o < 0 → inb o = true → inb (o + 1) = true)
    (hpos : ∀ o : Int, 0 ≤ o → o < 4 → inb (o + 1) = true → inb o = true)
    (hinb : ∀ o : Int, -4 ≤ o → o ≤ 4 → inb' o = inb o)
    (hown : ∀ o : Int, -4 ≤ o → o ≤ 4 → inb o = true → own' o = own o) :
    scan_window inb own window_offsets 0 = scan_window_reset inb' own' window_offsets 0 := by
  rw [window_offsets_eq]
  exact scan_reset_from inb own inb' own' hneg hpos hinb hown 9 (-4) 0 (by norm_num) (by omega)
    (by decide) fun h => absurd rfl h

theorem scan_axes_reset (s : State) (h : LastMoveInRange s) :
    scan_vertical s = scan_axis_reset s 1 0 ∧ scan_horizontal s = scan_axis_reset s 0 1 ∧
      scan_major_diagonal s = scan_axis_reset s 1 1 ∧
      scan_minor_diagonal s = scan_axis_reset s (-1) 1 := by
  obtain ⟨h1, h2, h3, h4⟩ := h
  refine ⟨?_, ?_, ?_, ?_⟩
  · apply scan_reset_eq
    · intro o _ _; simp only [decide_eq_true_eq]; omega
    · intro o _ _; simp only [decide_eq_true_eq]; omega
    · intro o _ _
      simp only [inBoard, mul_one, mul_zero, add_zero, decide_eq_decide]
      omega
    · intro o _ _ _
      simp only [mul_one, mul_zero, add_zero]
  · apply scan_reset_eq
    · intro o _ _; simp only [decide_eq_true_eq]; omega
    · intro o _ _; simp only [decide_eq_true_eq]; omega
    · intro o _ _
      simp only [inBoard, mul_one, mul_zero, add_zero, decide_eq_decide]
      omega
    · intro o _ _ _
      simp only [mul_one, mul_zero, add_zero]
  · apply scan_reset_eq
    · intro o _ _; simp only [decide_eq_true_eq]; omega
    · intro o _ _; simp only [decide_eq_true_eq]; omega
    · intro o _ _
      simp only [inBoard, mul_one, decide_eq_decide]
    · intro o _ _ _
      simp only [mul_one]
  · have hsub : ∀ o : Int, s.last_placed_row + o * -1 = s.last_placed_row - o := by
      intro o; ring
    apply scan_reset_eq
    · intro o _ _; simp only [decide_eq_true_eq]; omega
    · intro o _ _; simp only [decide_eq_true_eq]; omega
    · intro o _ _
      simp only [inBoard, mul_one, hsub, decide_eq_decide]
    · intro o _ _ _
      simp only [mul_one, hsub]

/-- C23: for a last move inside the board each axis loop of the source, which
leaves its counter as it is at offsets outside the board, ends as the specified
loop that resets the counter there; so `check_battle_state` returns what the
specified terminal test returns, and `check_winner` returns the same side with
the same highlighter call. -/
theorem scan_refines_reset (s : State) (h : LastMoveInRange s) :
    (scan_vertical s = scan_axis_reset s 1 0 ∧ scan_horizontal s = scan_axis_reset s 0 1 ∧
      scan_major_diagonal s = scan_axis_reset s 1 1 ∧
      scan_minor_diagonal s = scan_axis_reset s (-1) 1) ∧
    check_battle_state s = battle_state_reset s ∧
    check_winner_call s = winner_call_reset s := by
  obtain ⟨e1, e2, e3, e4⟩ := scan_axes_reset s h
  refine ⟨⟨e1, e2, e3, e4⟩, ?_, ?_⟩
  · unfold check_battle_state battle_state_reset
    rw [e1, e2, e3, e4]
  · unfold check_winner_call winner_call_reset
    rw [e1, e2, e3, e4]

/-- On `five_state`, whose last move (7,2) is two cells from the left edge,
the horizontal loop meets two offsets outside the board and ends at offset 4
like the specified loop. -/
theorem scan_refines_reset_witness :
    LastMoveInRange five_state ∧ scan_horizontal five_state = some 4 ∧
      scan_axis_reset five_state 0 1 = some 4 := by
  have h : LastMoveInRange five_state := by decide
  have e := (scan_refines_reset five_state h).1.2.1
  have hs : scan_horizontal five_state = some 4 := by decide
  exact ⟨h, hs, e ▸ hs⟩

/-! ## C25: the run-counting loop leaves the board -/

/-- C25 (failing input): with Side B on (0,7)..(4,7) the four cells above
(4,7) are extendable points, the run-counting loop of `assess_stone_top`
walks over (3,7), (2,7), (1,7), (0,7) and then indexes row -1; so
`assess_board_value` on that board, and `calculate_ai_move` on a state from
which the search reaches it, index outside the board. -/
theorem scanner_leaves_board :
    inBoard 4 7 ∧ edge_run_board 4 7 ≠ 0 ∧ FourExtendable edge_run_board 4 7 (-1) 0 ∧
      count_run edge_run_board (-1) 0 (-1) 12 0 7 100000 = none ∧
      ¬ inBoard (-1) 7 ∧
      assess_stone_top edge_run_board 4 7 = none ∧
      assess_board_value edge_run_board = none ∧
      calculate_ai_move edge_state
        { click_X := 0, click_Y := 0, placed_row := 0, placed_column := 0 } = none := by
  refine ⟨by decide, by decide, ?_, by decide, by decide, by decide, by decide!, ?_⟩
  · intro i h1 h4
    have hi : i = 1 ∨ i = 2 ∨ i = 3 ∨ i = 4 := by omega
    rcases hi with rfl | rfl | rfl | rfl <;> decide
  · exact Option.isNone_iff_eq_none.mp (by decide!)

/-! ## C22: the last move in the battle loop and in the search -/

theorem write_move_last (s s' : State) (out : Placement) (side : Int)
    (h : write_move s out side = some s') : LastMoveOf s' side := by
  unfold write_move at h
  by_cases hin : inBoard out.placed_row out.placed_column
  · rw [if_pos hin, Option.some.injEq] at h
    rw [← h]
    exact ⟨hin, by simp [place, set_cell]⟩
  · rw [if_neg hin] at h
    exact absurd h (by simp)

theorem read_player_move_last (s s' : State) (input_records : List InputRecord)
    (out : Placement) (h : read_player_move s input_records out = some s') :
    LastMoveOf s' 1 := by
  unfold read_player_move at h
  cases hr : read_stone_placement s.gomoku_board input_records out with
  | none => rw [hr] at h; exact absurd h (by simp)
  | some out' =>
    rw [hr] at h
    exact write_move_last s s' out' 1 h

theorem perform_ai_move_last (s s' : State) (out : Placement)
    (h : perform_ai_move s out = some s') : LastMoveOf s' (-1) := by
  unfold perform_ai_move at h
  cases hr : calculate_ai_move s out with
  | none => rw [hr] at h; exact absurd h (by simp)
  | some x =>
    rw [hr] at h
    exact write_move_last x.2 s' x.1 (-1) h

/-- Whenever a round of `start_battle` ends without an index outside the
array, the last move is a cell of the board and holds the stone of the side
that moved in that round. -/
theorem reached_last_move (s : State) (side : Int) (h : Reached s side) :
    LastMoveOf s side ∧ (side = 1 ∨ side = -1) := by
  cases h with
  | player_first input_records out _ h1 =>
    exact ⟨read_player_move_last _ _ _ _ h1, Or.inl rfl⟩
  | ai_first out _ h1 => exact ⟨perform_ai_move_last _ _ _ h1, Or.inr rfl⟩
  | player_next before side' input_records out _ _ _ h1 =>
    exact ⟨read_player_move_last _ _ _ _ h1, Or.inl rfl⟩
  | ai_next before side' out _ _ _ h1 => exact ⟨perform_ai_move_last _ _ _ h1, Or.inr rfl⟩

theorem predict_player_loop_congr (f g : State → Int → Int → Option (Int × State))
    (h : ∀ (t : State) (row column a b : Int), inBoard row column →
      f (place t row column 1) a b = g (place t row column 1) a b) :
    ∀ (cells : List (Int × Int)), (∀ cell ∈ cells, inBoard cell.1 cell.2) →
      ∀ (s : State) (a b : Int),
        predict_player_loop f cells s a b = predict_player_loop g cells s a b := by
  intro cells
  induction cells with
  | nil => intro _ s a b; rfl
  | cons cell rest ih =>
    intro hin s a b
    obtain ⟨row, column⟩ := cell
    have hrest := ih fun c hc => hin c (List.mem_cons_of_mem _ hc)
    unfold predict_player_loop
    rw [h s row column a b (hin (row, column) (List.mem_cons_self _ _))]
    by_cases hc : s.gomoku_board row column = 0 ∧ check_neighbors s.gomoku_board row column = true
    · rw [if_pos hc, if_pos hc]
      cases g (place s row column 1) a b with
      | none => rfl
      | some x =>
        simp only
        split_ifs <;> first | rfl | exact hrest _ _ _
    · rw [if_neg hc, if_neg hc]
      exact hrest _ _ _

theorem predict_ai_loop_congr (f g : State → Int → Int → Option (Int × State))
    (h : ∀ (t : State) (row column a b : Int), inBoard row column →
      f (place t row column (-1)) a b = g (place t row column (-1)) a b) :
    ∀ (cells : List (Int × Int)), (∀ cell ∈ cells, inBoard cell.1 cell.2) →
      ∀ (s : State) (a b : Int),
        predict_ai_loop f cells s a b = predict_ai_loop g cells s a b := by
  intro cells
  induction cells with
  | nil => intro _ s a b; rfl
  | cons cell rest ih =>
    intro hin s a b
    obtain ⟨row, column⟩ := cell
    have hrest := ih fun c hc => hin c (List.mem_cons_of_mem _ hc)
    unfold predict_ai_loop
    rw [h s row column a b (hin (row, column) (List.mem_cons_self _ _))]
    by_cases hc : s.gomoku_board row column = 0 ∧ check_neighbors s.gomoku_board row column = true
    · rw [if_pos hc, if_pos hc]
      cases g (place s row column (-1)) a b with
      | none => rfl
      | some x =>
        simp only
        split_ifs <;> first | rfl | exact hrest _ _ _
    · rw [if_neg hc, if_neg hc]
      exact hrest _ _ _

theorem place_last_move (t : State) (row column side : Int) (hin : inBoard row column) :
    LastMoveOf (place t row column side) side :=
  ⟨hin, by simp [place, set_cell]⟩

/-- Inside the search `check_battle_state` is only consulted on states whose
last move is a cell of the board with the stone of the side that has just
placed: a terminal test that agrees with it on those states gives the same
search from every such state. -/
theorem search_calls_on_last_move (terminal : State → Bool)
    (hagree : ∀ (t : State) (side : Int), side = 1 ∨ side = -1 → LastMoveOf t side →
      terminal t = check_battle_state t) :
    ∀ (search_depth : Nat) (is_player_next : Bool) (s : State) (a b : Int),
      LastMoveOf s (if is_player_next = true then -1 else 1) →
      predict_board_value_with terminal search_depth is_player_next s a b
        = predict_board_value search_depth is_player_next s a b := by
  intro search_depth
  induction search_depth with
  | zero =>
    intro p s a b _
    unfold predict_board_value_with predict_board_value
    rfl
  | succ d ih =>
    intro p s a b hs
    unfold predict_board_value_with predict_board_value
    have hside : (if p = true then (-1 : Int) else 1) = 1 ∨
        (if p = true then (-1 : Int) else 1) = -1 := by
      cases p
      · exact Or.inl rfl
      · exact Or.inr rfl
    rw [hagree s _ hside hs]
    by_cases ht : check_battle_state s = true
    · rw [if_pos ht, if_pos ht]
    · rw [if_neg ht, if_neg ht]
      by_cases hp : p = true
      · rw [if_pos hp, if_pos hp]
        apply predict_player_loop_congr _ _ _ all_cells
          (fun cell hc => (mem_all_cells cell.1 cell.2).1 hc)
        intro t row column a' b' hin
        exact ih false (place t row column 1) a' b' (place_last_move t row column 1 hin)
      · rw [if_neg hp, if_neg hp]
        apply predict_ai_loop_congr _ _ _ all_cells
          (fun cell hc => (mem_all_cells cell.1 cell.2).1 hc)
        intro t row column a' b' hin
        exact ih true (place t row column (-1)) a' b' (place_last_move t row column (-1) hin)

/-- C22 (failing input): a left click at console position (15, 32) on the
player's turn passes the range tests of `check_valid_placement` with row 15, so
`read_stone_placement` indexes `gomoku_board[15][0]`, whatever records follow
and whatever the board holds; `read_player_move` has then no state in which
the last move is a row of the board. -/
theorem last_move_row_15 (s : State) (rest : List InputRecord) (out : Placement) :
    clicked_cell click_below_board = some (15, 0) ∧ ¬ inBoard 15 0 ∧
      read_stone_placement s.gomoku_board (click_below_board :: rest) out = none ∧
      read_player_move s (click_below_board :: rest) out = none := by
  have hcell : clicked_cell click_below_board = some (15, 0) := by decide
  have hread : read_cell s.gomoku_board 15 0 = none := by
    unfold read_cell
    rw [if_neg (by decide)]
  have hvalid : check_valid_placement s.gomoku_board click_below_board out = none := by
    unfold check_valid_placement
    rw [hcell]
    simp only [hread]
  have hplace : read_stone_placement s.gomoku_board (click_below_board :: rest) out = none := by
    unfold read_stone_placement
    rw [hvalid]
  refine ⟨hcell, by decide, hplace, ?_⟩
  unfold read_player_move
  rw [hplace]

/-! ## C28: the symmetries of the board -/

theorem count_extendable_image (b : Board) (f g : Int → Int → Int) (dr dc dr' dc' stone : Int)
    (hf : ∀ r c, f (r + dr) (c + dc) = f r c + dr')
    (hg : ∀ r c, g (r + dr) (c + dc) = g r c + dc')
    (hin : ∀ r c, inBoard (f r c) (g r c) ↔ inBoard r c) :
    ∀ (n : Nat) (r c total : Int),
      count_extendable (fun r c => b (f r c) (g r c)) (fun r c => decide (inBoard r c))
          dr dc stone n r c total
        = count_extendable b (fun r c => decide (inBoard r c)) dr' dc' stone n
            (f r c) (g r c) total := by
  intro n
  induction n with
  | zero => intro r c total; rfl
  | succ n ih =>
    intro r c total
    conv_lhs => unfold count_extendable
    conv_rhs => unfold count_extendable
    simp only [decide_eq_true_eq, hin]
    rw [ih, hf, hg]

theorem count_run_image (b : Board) (f g : Int → Int → Int) (dr dc dr' dc' stone : Int)
    (hf : ∀ r c, f (r + dr) (c + dc) = f r c + dr')
    (hg : ∀ r c, g (r + dr) (c + dc) = g r c + dc')
    (hin : ∀ r c, inBoard (f r c) (g r c) ↔ inBoard r c) :
    ∀ (n : Nat) (r c value : Int),
      count_run (fun r c => b (f r c) (g r c)) dr dc stone n r c value
        = count_run b dr' dc' stone n (f r c) (g r c) value := by
  intro n
  induction n with
  | zero => intro r c value; rfl
  | succ n ih =>
    intro r c value
    conv_lhs => unfold count_run
    conv_rhs => unfold count_run
    simp only [read_cell, hin]
    rw [ih, hf, hg]

theorem scan_dir_image (b : Board) (f g : Int → Int → Int) (dr dc dr' dc' : Int)
    (hf : ∀ r c, f (r + dr) (c + dc) = f r c + dr')
    (hg : ∀ r c, g (r + dr) (c + dc) = g r c + dc')
    (hin : ∀ r c, inBoard (f r c) (g r c) ↔ inBoard r c) (row column : Int) :
    scan_dir (fun r c => b (f r c) (g r c)) dr dc row column
      = scan_dir b dr' dc' (f row column) (g row column) := by
  unfold scan_dir assess_stone
  simp only
  rw [count_extendable_image b f g dr dc dr' dc' _ hf hg hin,
    count_run_image b f g dr dc dr' dc' _ hf hg hin, hf, hg]

theorem assess_stone_range (b : Board) (in_range : Int → Int → Bool) (dr dc row column : Int)
    (hin : inBoard row column)
    (hrange : ∀ r c, inBoard (r - dr) (c - dc) → (in_range r c = true ↔ inBoard r c)) :
    assess_stone b in_range dr dc row column = scan_dir b dr dc row column := by
  have hboard : ∀ r c, inBoard (r - dr) (c - dc) →
      ((fun r c => decide (inBoard r c)) r c = true ↔ inBoard r c) := by
    intro r c _
    simp only [decide_eq_true_eq]
  unfold scan_dir
  by_cases h : FourExtendable b row column dr dc
  · rw [assess_stone_open b in_range dr dc row column hin hrange h,
      assess_stone_open b _ dr dc row column hin hboard h]
  · rw [assess_stone_blocked b in_range dr dc row column hin hrange h,
      assess_stone_blocked b _ dr dc row column hin hboard h]

theorem scanner_eq_scan_dir (f : Board → Int → Int → Option Int) (dr dc : Int)
    (hf : (f, (dr, dc)) ∈ scanner_table) (b : Board) (row column : Int)
    (hin : inBoard row column) : f b row column = scan_dir b dr dc row column := by
  obtain ⟨_, in_range, hshape, hrange⟩ := scanner_table_cases f dr dc hf
  rw [hshape]
  exact assess_stone_range b in_range dr dc row column hin hrange

/-- The value of a stone from the eight scans, in the order of the source. -/
theorem stone_value_scan (b : Board) (row column : Int) (hin : inBoard row column) :
    stone_value b row column
      = (sum_defined [scan_dir b (-1) 0 row column, scan_dir b 1 0 row column,
          scan_dir b 0 (-1) row column, scan_dir b 0 1 row column,
          scan_dir b (-1) (-1) row column, scan_dir b (-1) 1 row column,
          scan_dir b 1 (-1) row column, scan_dir b 1 1 row column]).map
        (finish_stone (b row column) row column) := by
  unfold stone_value
  rw [scanner_eq_scan_dir assess_stone_top (-1) 0 (by simp [scanner_table]) b row column hin,
    scanner_eq_scan_dir assess_stone_bottom 1 0 (by simp [scanner_table]) b row column hin,
    scanner_eq_scan_dir assess_stone_left 0 (-1) (by simp [scanner_table]) b row column hin,
    scanner_eq_scan_dir assess_stone_right 0 1 (by simp [scanner_table]) b row column hin,
    scanner_eq_scan_dir assess_stone_top_left (-1) (-1) (by simp [scanner_table]) b row column hin,
    scanner_eq_scan_dir assess_stone_top_right (-1) 1 (by simp [scanner_table]) b row column hin,
    scanner_eq_scan_dir assess_stone_bottom_left 1 (-1) (by simp [scanner_table]) b row column hin,
    scanner_eq_scan_dir assess_stone_bottom_right 1 1 (by simp [scanner_table]) b row column hin]
  rcases scan_dir b (-1) 0 row column with _ | v1
  · rfl
  rcases scan_dir b 1 0 row column with _ | v2
  · rfl
  rcases scan_dir b 0 (-1) row column with _ | v3
  · rfl
  rcases scan_dir b 0 1 row column with _ | v4
  · rfl
  rcases scan_dir b (-1) (-1) row column with _ | v5
  · rfl
  rcases scan_dir b (-1) 1 row column with _ | v6
  · rfl
  rcases scan_dir b 1 (-1) row column with _ | v7
  · rfl
  rcases scan_dir b 1 1 row column with _ | v8
  · rfl
  simp only [sum_defined, add_defined, Option.map_some', finish_stone, Option.some.injEq]
  split_ifs <;> ring

theorem sum_defined_perm (l1 l2 : List (Option Int)) (h : l1.Perm l2) :
    sum_defined l1 = sum_defined l2 := by
  induction h with
  | nil => rfl
  | cons x _ ih => simp only [sum_defined, ih]
  | swap x y l =>
    simp only [sum_defined]
    ac_rfl
  | trans _ _ ih1 ih2 => exact ih1.trans ih2

theorem assess_cells_sum (b : Board) :
    ∀ (cells : List (Int × Int)) (acc : Int),
      assess_cells b cells acc = add_defined (some acc) (sum_defined (cells.map (cell_value b))) := by
  intro cells
  induction cells with
  | nil =>
    intro acc
    simp [assess_cells, sum_defined, add_defined]
  | cons cell rest ih =>
    intro acc
    obtain ⟨row, column⟩ := cell
    unfold assess_cells
    simp only [List.map_cons, sum_defined, cell_value]
    by_cases hstone : b row column ≠ 0
    · rw [if_pos hstone, if_pos hstone]
      rcases stone_value b row column with _ | v
      · cases sum_defined (rest.map (cell_value b)) <;> rfl
      · simp only
        rw [ih]
        cases sum_defined (rest.map (cell_value b)) <;> simp [add_defined, add_assoc]
    · rw [if_neg hstone, if_neg hstone, ih]
      cases sum_defined (rest.map (cell_value b)) <;> simp [add_defined]

theorem all_cells_nodup : all_cells.Nodup :=
  all_cells_sorted.imp fun {x y} h e => by
    rw [e] at h
    exact lt_irrefl _ h

theorem all_cells_image (σ : Int × Int → Int × Int) (hinv : ∀ p, σ (σ p) = p)
    (hin : ∀ p : Int × Int, inBoard (σ p).1 (σ p).2 ↔ inBoard p.1 p.2) :
    (all_cells.map σ).Perm all_cells := by
  have hinj : Function.Injective σ := Function.LeftInverse.injective hinv
  refine (List.perm_ext_iff_of_nodup (all_cells_nodup.map hinj) all_cells_nodup).2 ?_
  intro p
  rw [List.mem_map]
  constructor
  · rintro ⟨q, hq, rfl⟩
    exact (mem_all_cells _ _).2 ((hin q).2 ((mem_all_cells q.1 q.2).1 hq))
  · intro h
    refine ⟨σ p, ?_, hinv p⟩
    exact (mem_all_cells _ _).2 ((hin p).2 ((mem_all_cells p.1 p.2).1 h))

/-- The evaluator gives the same result on two boards that are carried onto
each other, cell value by cell value, by an involution of the board. -/
theorem assess_board_value_image (b image : Board) (σ : Int × Int → Int × Int)
    (hinv : ∀ p, σ (σ p) = p)
    (hin : ∀ p : Int × Int, inBoard (σ p).1 (σ p).2 ↔ inBoard p.1 p.2)
    (hcell : ∀ p : Int × Int, inBoard p.1 p.2 → cell_value image p = cell_value b (σ p)) :
    assess_board_value image = assess_board_value b := by
  unfold assess_board_value
  rw [assess_cells_sum, assess_cells_sum]
  have hmap : all_cells.map (cell_value image) = (all_cells.map σ).map (cell_value b) := by
    rw [List.map_map]
    apply List.map_congr_left
    intro p hp
    exact hcell p ((mem_all_cells p.1 p.2).1 hp)
  rw [hmap, sum_defined_perm _ _ ((all_cells_image σ hinv hin).map (cell_value b))]

theorem stone_value_reflect_rows (b : Board) (row column : Int) (hin : inBoard row column) :
    stone_value (reflect_rows b) row column = stone_value b (14 - row) column := by
  have hin' : inBoard (14 - row) column := by
    simp only [inBoard] at hin ⊢
    omega
  have key : ∀ dr dc : Int,
      scan_dir (reflect_rows b) dr dc row column = scan_dir b (-dr) dc (14 - row) column := by
    intro dr dc
    exact scan_dir_image b (fun r _ => 14 - r) (fun _ c => c) dr dc (-dr) dc
      (by intro r c; ring) (by intro r c; rfl) (by intro r c; simp only [inBoard]; omega)
      row column
  have hfin : finish_stone (reflect_rows b row column) row column
      = finish_stone (b (14 - row) column) (14 - row) column := by
    funext total
    unfold finish_stone reflect_rows
    rw [show (14 - row - 7 : Int) = -(row - 7) by ring, abs_neg]
  rw [stone_value_scan _ _ _ hin, stone_value_scan _ _ _ hin', hfin]
  simp only [key, neg_neg, neg_zero, sum_defined]
  congr 1
  ac_rfl

theorem stone_value_reflect_columns (b : Board) (row column : Int) (hin : inBoard row column) :
    stone_value (reflect_columns b) row column = stone_value b row (14 - column) := by
  have hin' : inBoard row (14 - column) := by
    simp only [inBoard] at hin ⊢
    omega
  have key : ∀ dr dc : Int,
      scan_dir (reflect_columns b) dr dc row column = scan_dir b dr (-dc) row (14 - column) := by
    intro dr dc
    exact scan_dir_image b (fun r _ => r) (fun _ c => 14 - c) dr dc dr (-dc)
      (by intro r c; rfl) (by intro r c; ring) (by intro r c; simp only [inBoard]; omega)
      row column
  have hfin : finish_stone (reflect_columns b row column) row column
      = finish_stone (b row (14 - column)) row (14 - column) := by
    funext total
    unfold finish_stone reflect_columns
    rw [show (14 - column - 7 : Int) = -(column - 7) by ring, abs_neg]
  rw [stone_value_scan _ _ _ hin, stone_value_scan _ _ _ hin', hfin]
  simp only [key, neg_neg, neg_zero, sum_defined]
  congr 1
  ac_rfl

theorem stone_value_transpose (b : Board) (row column : Int) (hin : inBoard row column) :
    stone_value (transpose b) row column = stone_value b column row := by
  have hin' : inBoard column row := by
    simp only [inBoard] at hin ⊢
    omega
  have key : ∀ dr dc : Int,
      scan_dir (transpose b) dr dc row column = scan_dir b dc dr column row := by
    intro dr dc
    exact scan_dir_image b (fun _ c => c) (fun r _ => r) dr dc dc dr
      (by intro r c; rfl) (by intro r c; rfl) (by intro r c; simp only [inBoard]; omega)
      row column
  have hfin : finish_stone (transpose b row column) row column
      = finish_stone (b column row) column row := by
    funext total
    unfold finish_stone transpose
    split_ifs <;> ring
  rw [stone_value_scan _ _ _ hin, stone_value_scan _ _ _ hin', hfin]
  simp only [key, sum_defined]
  congr 1
  ac_rfl

/-- The evaluator does not change under the row reflection. -/
theorem assess_reflect_rows (b : Board) :
    assess_board_value (reflect_rows b) = assess_board_value b := by
  apply assess_board_value_image b (reflect_rows b) fun p => (14 - p.1, p.2)
  · intro p
    simp
  · intro p
    simp only [inBoard]
    omega
  · intro p hp
    unfold cell_value
    rw [stone_value_reflect_rows b p.1 p.2 hp]
    rfl

/-- The evaluator does not change under the column reflection. -/
theorem assess_reflect_columns (b : Board) :
    assess_board_value (reflect_columns b) = assess_board_value b := by
  apply assess_board_value_image b (reflect_columns b) fun p => (p.1, 14 - p.2)
  · intro p
    simp
  · intro p
    simp only [inBoard]
    omega
  · intro p hp
    unfold cell_value
    rw [stone_value_reflect_columns b p.1 p.2 hp]
    rfl

/-- The evaluator does not change under the transposition. -/
theorem assess_transpose (b : Board) :
    assess_board_value (transpose b) = assess_board_value b := by
  apply assess_board_value_image b (transpose b) fun p => (p.2, p.1)
  · intro p
    rfl
  · intro p
    simp only [inBoard]
    omega
  · intro p hp
    unfold cell_value
    rw [stone_value_transpose b p.1 p.2 hp]
    rfl

theorem assess_board_images (b image : Board) (h : image ∈ board_images b) :
    assess_board_value image = assess_board_value b := by
  simp only [board_images, List.mem_cons, List.mem_singleton, List.not_mem_nil, or_false] at h
  rcases h with h | h | h | h | h | h | h | h
  all_goals
    subst h
    simp only [assess_transpose, assess_reflect_rows, assess_reflect_columns]

/-- C28 (amended): with the values taken exactly, as rationals counted in
tenths, on a board where no directional scan leaves the board, so that
`assess_board_value` returns a value, the evaluator returns that same value on
each of the eight images of the board under the row reflection, the column
reflection, the transposition and their compositions. -/
theorem evaluator_symmetric (b : Board) (hdef : ∃ v, assess_board_value b = some v) :
    ∀ image ∈ board_images b,
      ∃ v, assess_board_value image = some v ∧ assess_board_value b = some v := by
  intro image himage
  obtain ⟨v, hv⟩ := hdef
  exact ⟨v, by rw [assess_board_images b image himage, hv], hv⟩

/-- On `blocking_board` the evaluator returns -56634.0, and so it does on the
eight images of that board. -/
theorem evaluator_symmetric_witness :
    (∃ v, assess_board_value blocking_board = some v) ∧
      ∀ image ∈ board_images blocking_board,
        ∃ v, assess_board_value image = some v ∧ assess_board_value blocking_board = some v :=
  ⟨⟨-566340, by decide!⟩, evaluator_symmetric blocking_board ⟨-566340, by decide!⟩⟩

/-! ## The search leaves the board -/

/-- C28 (counterexample): on the board with Side B on (8,7), (9,9) and Side A
on (9,5) no scan leaves the board and `assess_board_value` returns
-203.00000000000003 (-203 - 2^-45); on its image under the column reflection
it returns -203. -/
theorem evaluator_rounding_order :
    reflect_columns rounding_board ∈ board_images rounding_board ∧
      assess_board_value_double rounding_board = some (-203 * 2 ^ 56 - 2 ^ 11) ∧
      assess_board_value_double (reflect_columns rounding_board) = some (-203 * 2 ^ 56) := by
  refine ⟨by simp [board_images], by decide!, by decide!⟩

/-! ## C5, C8, C9, C10: the search on states reached in play -/

end Gomoku

namespace Game2048

/-! ## The inner loop on the four tiles of a line -/

theorem double_eq_zero (x : Int) : x * 2 = 0 ↔ x = 0 := by omega

theorem prop_cases (p : Prop) : (p ∧ p = True) ∨ (¬ p ∧ p = False) := by
  by_cases h : p
  · exact Or.inl ⟨h, eq_true h⟩
  · exact Or.inr ⟨h, eq_false h⟩

set_option maxHeartbeats 4000000 in
theorem line_pass_spec (a b c d score : Int) (changed : Bool) :
    (line_pass [a, b, c, d] score changed).tiles = collapse [a, b, c, d] ∧
    (line_pass [a, b, c, d] score changed).score
      = score + (merged_tiles ([a, b, c, d].filter fun tile => decide (tile ≠ 0))).sum ∧
    (line_pass [a, b, c, d] score changed).changed
      = (changed || decide (collapse [a, b, c, d] ≠ [a, b, c, d])) := by
  unfold line_pass
  rcases prop_cases (a = 0) with ⟨ha, ta⟩ | ⟨ha, ta⟩ <;>
  rcases prop_cases (b = 0) with ⟨hb, tb⟩ | ⟨hb, tb⟩ <;>
  rcases prop_cases (a = b) with ⟨hab, tab⟩ | ⟨hab, tab⟩ <;>
  (try (exfalso; omega)) <;>
  rcases prop_cases (c = 0) with ⟨hc, tc⟩ | ⟨hc, tc⟩ <;>
  rcases prop_cases (a = c) with ⟨hac, tac⟩ | ⟨hac, tac⟩ <;>
  rcases prop_cases (b = c) with ⟨hbc, tbc⟩ | ⟨hbc, tbc⟩ <;>
  (try (exfalso; omega)) <;>
  rcases prop_cases (d = 0) with ⟨hd, td⟩ | ⟨hd, td⟩ <;>
  rcases prop_cases (a = d) with ⟨had, tad⟩ | ⟨had, tad⟩ <;>
  rcases prop_cases (b = d) with ⟨hbd, tbd⟩ | ⟨hbd, tbd⟩ <;>
  rcases prop_cases (c = d) with ⟨hcd, tcd⟩ | ⟨hcd, tcd⟩ <;>
  (try (exfalso; omega)) <;>
  simp only [line_tile, ta, tb, tc, td, tab, tbc, tcd, tac, tbd, tad, List.getD_cons_zero,
      List.getD_cons_succ, List.set_cons_zero, List.set_cons_succ, ne_eq, not_true_eq_false,
      not_false_eq_true, if_true, if_false, true_and, and_true, zero_add, Nat.reduceAdd,
      Nat.reduceEqDiff, OfNat.ofNat_ne_zero, double_eq_zero, and_false, Bool.true_eq_false,
      eq_self_iff_true, and_self, collapse, merge_pairs, merged_tiles, List.filter,
      decide_not, decide_eq_true_eq, decide_True, decide_False, Bool.not_true, Bool.not_false,
      List.length_cons, List.length_nil, List.cons_append, List.nil_append,
      List.sum_cons, List.sum_nil, add_zero, Nat.reduceSub, List.replicate_succ,
      List.replicate_zero, List.append_nil, List.cons.injEq, Bool.or_false, Bool.or_true] <;>
  cases changed <;>
  simp only [Bool.false_or, Bool.true_or, Bool.not_eq_true', decide_eq_false_iff_not,
    decide_eq_true_eq, Bool.true_eq, Bool.false_eq, Bool.not_eq_false', and_true, true_and] <;>
  omega

theorem distinct_cells_ne (cell : Int → Int × Int) (hd : DistinctCells cell) (i j : Int)
    (hi0 : 0 ≤ i) (hi3 : i ≤ 3) (hj0 : 0 ≤ j) (hj3 : j ≤ 3) (hij : i ≠ j) :
    ((cell i).1 = (cell j).1 ∧ (cell i).2 = (cell j).2) = False :=
  eq_false fun h => hij (hd i j hi0 hi3 hj0 hj3 (Prod.ext h.1 h.2))

set_option maxHeartbeats 1000000 in
theorem slide_tile_view (cell : Int → Int × Int) (hd : DistinctCells cell) (p : Nat) (st : Slide)
    (hc0 : 0 ≤ st.collided) (hcp : st.collided < p) (hp : p ≤ 3) :
    line_view cell (slide_tile cell 1 p st) = line_tile p (line_view cell st) ∧
    0 ≤ (slide_tile cell 1 p st).collided ∧ (slide_tile cell 1 p st).collided ≤ p ∧
    ∀ r c, ¬ (r = (cell 0).1 ∧ c = (cell 0).2) → ¬ (r = (cell 1).1 ∧ c = (cell 1).2) →
      ¬ (r = (cell 2).1 ∧ c = (cell 2).2) → ¬ (r = (cell 3).1 ∧ c = (cell 3).2) →
      (slide_tile cell 1 p st).grid r c = st.grid r c := by
  have n01 := distinct_cells_ne cell hd 0 1 (by norm_num) (by norm_num) (by norm_num)
    (by norm_num) (by norm_num)
  have n02 := distinct_cells_ne cell hd 0 2 (by norm_num) (by norm_num) (by norm_num)
    (by norm_num) (by norm_num)
  have n03 := distinct_cells_ne cell hd 0 3 (by norm_num) (by norm_num) (by norm_num)
    (by norm_num) (by norm_num)
  have n12 := distinct_cells_ne cell hd 1 2 (by norm_num) (by norm_num) (by norm_num)
    (by norm_num) (by norm_num)
  have n13 := distinct_cells_ne cell hd 1 3 (by norm_num) (by norm_num) (by norm_num)
    (by norm_num) (by norm_num)
  have n23 := distinct_cells_ne cell hd 2 3 (by norm_num) (by norm_num) (by norm_num)
    (by norm_num) (by norm_num)
  have n10 := distinct_cells_ne cell hd 1 0 (by norm_num) (by norm_num) (by norm_num)
    (by norm_num) (by norm_num)
  have n20 := distinct_cells_ne cell hd 2 0 (by norm_num) (by norm_num) (by norm_num)
    (by norm_num) (by norm_num)
  have n30 := distinct_cells_ne cell hd 3 0 (by norm_num) (by norm_num) (by norm_num)
    (by norm_num) (by norm_num)
  have n21 := distinct_cells_ne cell hd 2 1 (by norm_num) (by norm_num) (by norm_num)
    (by norm_num) (by norm_num)
  have n31 := distinct_cells_ne cell hd 3 1 (by norm_num) (by norm_num) (by norm_num)
    (by norm_num) (by norm_num)
  have n32 := distinct_cells_ne cell hd 3 2 (by norm_num) (by norm_num) (by norm_num)
    (by norm_num) (by norm_num)
  obtain ⟨grid, score, collided, merged, changed⟩ := st
  simp only at hc0 hcp
  have hcases : (collided = 0 ∧ p = 1) ∨ (collided = 0 ∧ p = 2) ∨ (collided = 0 ∧ p = 3) ∨
      (collided = 1 ∧ p = 2) ∨ (collided = 1 ∧ p = 3) ∨ (collided = 2 ∧ p = 3) := by omega
  rcases hcases with h | h | h | h | h | h
  all_goals
    obtain ⟨rfl, rfl⟩ := h
    simp only [line_view, slide_tile, line_tile, line_tiles, Nat.cast_ofNat, Nat.cast_one,
      zero_add, Int.reduceAdd, Int.reduceToNat,
      List.getD_cons_zero, List.getD_cons_succ, List.set_cons_zero, List.set_cons_succ,
      Nat.reduceAdd, Nat.reduceEqDiff, ne_eq, not_true_eq_false, not_false_eq_true, if_true,
      if_false, OfNat.ofNat_ne_one, OfNat.one_ne_ofNat, Int.reduceEq, Int.reduceNeg]
    split_ifs <;>
    simp only [set_tile, n01, n02, n03, n12, n13, n23, n10, n20, n30, n21, n31, n32, if_true,
      if_false, and_self, true_and, and_true, LineState.mk.injEq, Int.reduceToNat,
      Int.reduceAdd, le_refl, zero_le_one, Nat.ofNat_nonneg,
      Int.reduceLE, implies_true, List.cons.injEq] <;>
    (try (intro r c h0 h1 h2 h3; simp only [h0, h1, h2, h3, if_false]))

theorem slide_line_forward (cell : Int → Int × Int) (g : Game) (changed : Bool)
    (hd : DistinctCells cell) :
    LineSpec cell 1 0 g changed (slide_line cell 1 0 g changed) := by
  let st0 : Slide :=
    { grid := g.grid, score := g.score, collided := 0, has_collided_tile_merged := false,
      has_grid_changed := changed }
  obtain ⟨v1, l1, u1, f1⟩ := slide_tile_view cell hd 1 st0 (le_refl _) (by norm_num) (by norm_num)
  obtain ⟨v2, l2, u2, f2⟩ := slide_tile_view cell hd 2 (slide_tile cell 1 (1 : Nat) st0) l1
    (by push_cast at u1 ⊢; omega) (by norm_num)
  obtain ⟨v3, _, _, f3⟩ := slide_tile_view cell hd 3
    (slide_tile cell 1 (2 : Nat) (slide_tile cell 1 (1 : Nat) st0)) l2
    (by push_cast at u2 ⊢; omega) (by norm_num)
  rw [v2, v1] at v3
  have hpass := line_pass_spec (g.grid (cell 0).1 (cell 0).2) (g.grid (cell (0 + 1)).1 (cell (0 + 1)).2)
    (g.grid (cell (0 + 1 + 1)).1 (cell (0 + 1 + 1)).2)
    (g.grid (cell (0 + 1 + 1 + 1)).1 (cell (0 + 1 + 1 + 1)).2) g.score changed
  have hv : line_view cell (slide_tile cell 1 (3 : Nat)
      (slide_tile cell 1 (2 : Nat) (slide_tile cell 1 (1 : Nat) st0)))
      = line_pass (line_tiles g.grid cell 1 0) g.score changed := v3
  refine ⟨?_, ?_, ?_, ?_⟩
  · exact (congrArg LineState.tiles hv).trans hpass.1
  · exact (congrArg LineState.score hv).trans hpass.2.1
  · exact (congrArg LineState.changed hv).trans hpass.2.2
  · intro r c hoff
    have h0 : ¬ (r = (cell 0).1 ∧ c = (cell 0).2) := fun h =>
      hoff 0 (by norm_num) (by norm_num) (Prod.ext h.1 h.2)
    have h1 : ¬ (r = (cell 1).1 ∧ c = (cell 1).2) := fun h =>
      hoff 1 (by norm_num) (by norm_num) (Prod.ext h.1 h.2)
    have h2 : ¬ (r = (cell 2).1 ∧ c = (cell 2).2) := fun h =>
      hoff 2 (by norm_num) (by norm_num) (Prod.ext h.1 h.2)
    have h3 : ¬ (r = (cell 3).1 ∧ c = (cell 3).2) := fun h =>
      hoff 3 (by norm_num) (by norm_num) (Prod.ext h.1 h.2)
    exact (f3 r c h0 h1 h2 h3).trans ((f2 r c h0 h1 h2 h3).trans (f1 r c h0 h1 h2 h3))

theorem slide_tile_backward (cell : Int → Int × Int) (p : Int) (st : Slide) :
    slide_tile cell (-1) p st = flip_slide (slide_tile (flip_cell cell) 1 (3 - p) (flip_slide st)) := by
  obtain ⟨grid, score, collided, merged, changed⟩ := st
  have e1 : ∀ x : Int, 3 - (3 - x) = x := fun x => by ring
  have e2 : ∀ x : Int, 3 - (3 - x + 1) = x + -1 := fun x => by ring
  have e3 : (3 - collided + 1 = 3 - p) = (collided + -1 = p) := propext (by omega)
  simp only [slide_tile, flip_cell, flip_slide, ne_eq, e1, e2, e3]
  split_ifs <;> simp only [e1, e2]

theorem flip_slide_flip (st : Slide) : flip_slide (flip_slide st) = st := by
  obtain ⟨grid, score, collided, merged, changed⟩ := st
  simp only [flip_slide, Slide.mk.injEq, true_and, and_true]
  ring

theorem slide_line_backward_eq (cell : Int → Int × Int) (g : Game) (changed : Bool) :
    slide_line cell (-1) 3 g changed = slide_line (flip_cell cell) 1 0 g changed := by
  unfold slide_line
  simp only [slide_tile_backward, flip_slide_flip]
  rfl

theorem line_tiles_backward (grid : Grid) (cell : Int → Int × Int) :
    line_tiles grid cell (-1) 3 = line_tiles grid (flip_cell cell) 1 0 := by
  unfold line_tiles flip_cell
  norm_num

theorem distinct_cells_flip (cell : Int → Int × Int) (hd : DistinctCells cell) :
    DistinctCells (flip_cell cell) := by
  intro i j hi0 hi3 hj0 hj3 h
  have := hd (3 - i) (3 - j) (by omega) (by omega) (by omega) (by omega) h
  omega

theorem slide_line_backward (cell : Int → Int × Int) (g : Game) (changed : Bool)
    (hd : DistinctCells cell) :
    LineSpec cell (-1) 3 g changed (slide_line cell (-1) 3 g changed) := by
  have h := slide_line_forward (flip_cell cell) g changed (distinct_cells_flip cell hd)
  rw [slide_line_backward_eq]
  unfold LineSpec at h ⊢
  simp only [line_tiles_backward]
  refine ⟨h.1, h.2.1, h.2.2.1, ?_⟩
  intro r c hoff
  apply h.2.2.2
  intro i hi0 hi3
  exact hoff (3 - i) (by omega) (by omega)

theorem slide_line_spec (cell : Int → Int × Int) (step start : Int) (g : Game) (changed : Bool)
    (hw : Walk step start) (hd : DistinctCells cell) :
    LineSpec cell step start g changed (slide_line cell step start g changed) := by
  rcases hw with ⟨rfl, rfl⟩ | ⟨rfl, rfl⟩
  · exact slide_line_forward cell g changed hd
  · exact slide_line_backward cell g changed hd

theorem line_tiles_congr (g h : Grid) (cell : Int → Int × Int) (step start : Int)
    (hw : Walk step start)
    (hsame : ∀ i : Int, 0 ≤ i → i ≤ 3 → g (cell i).1 (cell i).2 = h (cell i).1 (cell i).2) :
    line_tiles g cell step start = line_tiles h cell step start := by
  unfold line_tiles
  rcases hw with ⟨rfl, rfl⟩ | ⟨rfl, rfl⟩
  · rw [hsame 0 (by norm_num) (by norm_num), hsame (0 + 1) (by norm_num) (by norm_num),
      hsame (0 + 1 + 1) (by norm_num) (by norm_num),
      hsame (0 + 1 + 1 + 1) (by norm_num) (by norm_num)]
  · rw [hsame 3 (by norm_num) (by norm_num), hsame (3 + -1) (by norm_num) (by norm_num),
      hsame (3 + -1 + -1) (by norm_num) (by norm_num),
      hsame (3 + -1 + -1 + -1) (by norm_num) (by norm_num)]

theorem any_congr_mem (f g : Int → Bool) :
    ∀ lines : List Int, (∀ l ∈ lines, f l = g l) → lines.any f = lines.any g := by
  intro lines
  induction lines with
  | nil => intro _; rfl
  | cons l rest ih =>
    intro h
    rw [List.any_cons, List.any_cons, h l (List.mem_cons_self _ _),
      ih fun m hm => h m (List.mem_cons_of_mem _ hm)]

theorem slide_lines_spec (cell : Int → Int → Int × Int) (step start : Int) (hw : Walk step start)
    (hdis : DisjointLines cell) :
    ∀ (lines : List Int), lines.Nodup → ∀ (g : Game) (changed : Bool),
      (∀ l ∈ lines, line_tiles (slide_lines cell step start lines g changed).1.grid (cell l) step start
        = collapse (line_tiles g.grid (cell l) step start)) ∧
      (slide_lines cell step start lines g changed).1.score
        = g.score + (lines.map fun l => line_gain g.grid (cell l) step start).sum ∧
      (slide_lines cell step start lines g changed).2
        = (changed || lines.any fun l => line_moves g.grid (cell l) step start) ∧
      ∀ r c, (∀ l ∈ lines, ∀ i : Int, 0 ≤ i → i ≤ 3 → (r, c) ≠ cell l i) →
        (slide_lines cell step start lines g changed).1.grid r c = g.grid r c := by
  intro lines
  induction lines with
  | nil =>
    intro _ g changed
    refine ⟨fun l hl => absurd hl (List.not_mem_nil l), ?_, ?_, fun _ _ _ => rfl⟩
    · simp [slide_lines]
    · simp [slide_lines]
  | cons line rest ih =>
    intro hnd g changed
    have hnot : line ∉ rest := (List.nodup_cons.1 hnd).1
    have hd : DistinctCells (cell line) := fun i j hi0 hi3 hj0 hj3 h =>
      (hdis line line i j hi0 hi3 hj0 hj3 h).2
    obtain ⟨s1, s2, s3, s4⟩ := slide_line_spec (cell line) step start g changed hw hd
    obtain ⟨r1, r2, r3, r4⟩ := ih (List.nodup_cons.1 hnd).2
      (slide_line (cell line) step start g changed).1
      (slide_line (cell line) step start g changed).2
    have hrest : ∀ l ∈ rest, line_tiles (slide_line (cell line) step start g changed).1.grid
        (cell l) step start = line_tiles g.grid (cell l) step start := by
      intro l hl
      apply line_tiles_congr _ _ _ _ _ hw
      intro i hi0 hi3
      apply s4
      intro j hj0 hj3 h
      have := (hdis l line i j hi0 hi3 hj0 hj3 h).1
      rw [this] at hl
      exact hnot hl
    have hgain : ∀ l ∈ rest, line_gain (slide_line (cell line) step start g changed).1.grid
        (cell l) step start = line_gain g.grid (cell l) step start := by
      intro l hl
      unfold line_gain
      rw [hrest l hl]
    have hmoves : ∀ l ∈ rest, line_moves (slide_line (cell line) step start g changed).1.grid
        (cell l) step start = line_moves g.grid (cell l) step start := by
      intro l hl
      unfold line_moves
      rw [hrest l hl]
    unfold slide_lines
    refine ⟨?_, ?_, ?_, ?_⟩
    · intro l hl
      rcases List.mem_cons.1 hl with rfl | hl
      · rw [← s1]
        apply line_tiles_congr _ _ _ _ _ hw
        intro i hi0 hi3
        apply r4
        intro m hm j hj0 hj3 h
        have := (hdis l m i j hi0 hi3 hj0 hj3 h).1
        rw [this] at hnot
        exact hnot hm
      · rw [r1 l hl, hrest l hl]
    · rw [r2, s2, List.map_cons, List.sum_cons, List.map_congr_left hgain]
      unfold line_gain
      ring
    · rw [r3, s3, List.any_cons, Bool.or_assoc]
      congr 1
      unfold line_moves
      congr 1
      exact any_congr_mem _ _ rest hmoves
    · intro r c hoff
      rw [r4 r c fun l hl => hoff l (List.mem_cons_of_mem _ hl)]
      exact s4 r c (hoff line (List.mem_cons_self _ _))

set_option maxHeartbeats 4000000 in
theorem collapse_cases (a b c d : Int) :
    (collapse [a, b, c, d] = [a, b, c, d] ↔ StableLine a b c d) ∧
    (collapse [a, b, c, d] ≠ [a, b, c, d] → (collapse [a, b, c, d]).getD 3 1 = 0) := by
  unfold StableLine
  rcases prop_cases (a = 0) with ⟨ha, ta⟩ | ⟨ha, ta⟩ <;>
  rcases prop_cases (b = 0) with ⟨hb, tb⟩ | ⟨hb, tb⟩ <;>
  rcases prop_cases (a = b) with ⟨hab, tab⟩ | ⟨hab, tab⟩ <;>
  (try (exfalso; omega)) <;>
  rcases prop_cases (c = 0) with ⟨hc, tc⟩ | ⟨hc, tc⟩ <;>
  rcases prop_cases (a = c) with ⟨hac, tac⟩ | ⟨hac, tac⟩ <;>
  rcases prop_cases (b = c) with ⟨hbc, tbc⟩ | ⟨hbc, tbc⟩ <;>
  (try (exfalso; omega)) <;>
  rcases prop_cases (d = 0) with ⟨hd, td⟩ | ⟨hd, td⟩ <;>
  rcases prop_cases (a = d) with ⟨had, tad⟩ | ⟨had, tad⟩ <;>
  rcases prop_cases (b = d) with ⟨hbd, tbd⟩ | ⟨hbd, tbd⟩ <;>
  rcases prop_cases (c = d) with ⟨hcd, tcd⟩ | ⟨hcd, tcd⟩ <;>
  (try (exfalso; omega)) <;>
  simp only [ta, tb, tc, td, tab, tbc, tcd, tac, tbd, tad, List.getD_cons_zero,
      List.getD_cons_succ, ne_eq, not_true_eq_false,
      not_false_eq_true, if_true, if_false, true_and, and_true, zero_add, Nat.reduceAdd,
      and_false, eq_self_iff_true, and_self, collapse, merge_pairs, List.filter,
      decide_not, decide_eq_true_eq, decide_True, decide_False, Bool.not_true, Bool.not_false,
      List.length_cons, List.length_nil, List.cons_append, List.nil_append,
      Nat.reduceSub, List.replicate_succ, false_and, false_implies, implies_true, true_implies,
      List.replicate_zero, List.append_nil, List.cons.injEq, iff_true, iff_false] <;>
  omega

/-! ## The grid as a whole -/

theorem mem_line_indices (l : Int) : l ∈ line_indices ↔ 0 ≤ l ∧ l ≤ 3 := by
  unfold line_indices
  simp only [List.mem_cons, List.mem_singleton, List.not_mem_nil, or_false]
  omega

theorem line_indices_nodup : line_indices.Nodup := by
  unfold line_indices
  simp

theorem row_cell_disjoint : DisjointLines row_cell := by
  intro l m i j _ _ _ _ h
  simp only [row_cell, Prod.mk.injEq] at h
  exact h

theorem column_cell_disjoint : DisjointLines column_cell := by
  intro l m i j _ _ _ _ h
  simp only [column_cell, Prod.mk.injEq] at h
  exact ⟨h.2, h.1⟩

theorem row_cell_covers : CoversGrid row_cell := by
  refine ⟨fun l i hl0 hl3 hi0 hi3 => ⟨hl0, hl3, hi0, hi3⟩, ?_⟩
  intro r c h
  exact ⟨r, c, h.1, h.2.1, h.2.2.1, h.2.2.2, rfl⟩

theorem column_cell_covers : CoversGrid column_cell := by
  refine ⟨fun l i hl0 hl3 hi0 hi3 => ⟨hi0, hi3, hl0, hl3⟩, ?_⟩
  intro r c h
  exact ⟨c, r, h.2.2.1, h.2.2.2, h.1, h.2.1, rfl⟩

theorem line_tiles_eq (g h : Grid) (cell : Int → Int × Int) (step start : Int)
    (hw : Walk step start) (heq : line_tiles g cell step start = line_tiles h cell step start) :
    ∀ i : Int, 0 ≤ i → i ≤ 3 → g (cell i).1 (cell i).2 = h (cell i).1 (cell i).2 := by
  intro i hi0 hi3
  unfold line_tiles at heq
  simp only [List.cons.injEq, and_true] at heq
  have hi : i = 0 ∨ i = 1 ∨ i = 2 ∨ i = 3 := by omega
  rcases hw with ⟨rfl, rfl⟩ | ⟨rfl, rfl⟩
  · norm_num at heq
    rcases hi with rfl | rfl | rfl | rfl
    · exact heq.1
    · exact heq.2.1
    · exact heq.2.2.1
    · exact heq.2.2.2
  · norm_num at heq
    rcases hi with rfl | rfl | rfl | rfl
    · exact heq.2.2.2
    · exact heq.2.2.1
    · exact heq.2.1
    · exact heq.1

theorem line_tiles_shape (g : Grid) (cell : Int → Int × Int) (step start : Int) :
    ∃ a b c d, line_tiles g cell step start = [a, b, c, d] ∧
      d = g (cell (start + step + step + step)).1 (cell (start + step + step + step)).2 :=
  ⟨_, _, _, _, rfl, rfl⟩

/-- What the loops of a move do to the grid, the score and the change flag. -/
theorem move_loop_spec (cell : Int → Int → Int × Int) (step start : Int) (hw : Walk step start)
    (hdis : DisjointLines cell) (hcov : CoversGrid cell) (g : Game) :
    (∀ l ∈ line_indices,
      line_tiles (slide_lines cell step start line_indices g false).1.grid (cell l) step start
        = collapse (line_tiles g.grid (cell l) step start)) ∧
    (slide_lines cell step start line_indices g false).1.score
      = g.score + (line_indices.map fun l => line_gain g.grid (cell l) step start).sum ∧
    ((slide_lines cell step start line_indices g false).2 = true ↔
      ∃ l ∈ line_indices, line_moves g.grid (cell l) step start = true) ∧
    (SameGrid (slide_lines cell step start line_indices g false).1.grid g.grid ↔
      ∀ l ∈ line_indices, line_moves g.grid (cell l) step start = false) ∧
    ((slide_lines cell step start line_indices g false).2 = true →
      ∃ r c, InGrid r c ∧ (slide_lines cell step start line_indices g false).1.grid r c = 0) := by
  obtain ⟨s1, s2, s3, _⟩ := slide_lines_spec cell step start hw hdis line_indices
    line_indices_nodup g false
  have hflag : (slide_lines cell step start line_indices g false).2 = true ↔
      ∃ l ∈ line_indices, line_moves g.grid (cell l) step start = true := by
    rw [s3, Bool.false_or, List.any_eq_true]
  refine ⟨s1, s2, hflag, ?_, ?_⟩
  · constructor
    · intro hsame l hl
      have h1 := s1 l hl
      have h2 : line_tiles (slide_lines cell step start line_indices g false).1.grid (cell l)
          step start = line_tiles g.grid (cell l) step start := by
        apply line_tiles_congr _ _ _ _ _ hw
        intro i hi0 hi3
        exact hsame _ _ (hcov.1 l i ((mem_line_indices l).1 hl).1 ((mem_line_indices l).1 hl).2
          hi0 hi3)
      unfold line_moves
      rw [decide_eq_false_iff_not, not_not, ← h1, h2]
    · intro hstill r c hin
      obtain ⟨l, i, hl0, hl3, hi0, hi3, hcell⟩ := hcov.2 r c hin
      have hl : l ∈ line_indices := (mem_line_indices l).2 ⟨hl0, hl3⟩
      have h1 := s1 l hl
      have h2 := hstill l hl
      unfold line_moves at h2
      rw [decide_eq_false_iff_not, not_not] at h2
      rw [h2] at h1
      have h3 := line_tiles_eq _ _ _ _ _ hw h1 i hi0 hi3
      rw [hcell] at h3
      exact h3
  · intro hchanged
    obtain ⟨l, hl, hmove⟩ := hflag.1 hchanged
    have h1 := s1 l hl
    obtain ⟨a, b, c, d, hshape, _⟩ := line_tiles_shape g.grid (cell l) step start
    obtain ⟨a', b', c', d', hshape', hd'⟩ := line_tiles_shape
      (slide_lines cell step start line_indices g false).1.grid (cell l) step start
    unfold line_moves at hmove
    rw [decide_eq_true_eq, hshape] at hmove
    have hlast := (collapse_cases a b c d).2 hmove
    rw [hshape, hshape'] at h1
    rw [← h1] at hlast
    simp only [List.getD_cons_succ, List.getD_cons_zero] at hlast
    refine ⟨_, _, ?_, hd'.symm.trans hlast⟩
    have hpos : 0 ≤ start + step + step + step ∧ start + step + step + step ≤ 3 := by
      rcases hw with ⟨rfl, rfl⟩ | ⟨rfl, rfl⟩ <;> norm_num
    exact hcov.1 l _ ((mem_line_indices l).1 hl).1 ((mem_line_indices l).1 hl).2 hpos.1 hpos.2

/-! ## Spawning a tile -/

theorem mem_grid_cells (row column : Int) : (row, column) ∈ grid_cells ↔ InGrid row column := by
  unfold grid_cells InGrid
  simp only [List.mem_flatMap, List.mem_map, List.mem_range, Prod.mk.injEq]
  constructor
  · rintro ⟨r, hr, c, hc, rfl, rfl⟩
    omega
  · rintro ⟨h1, h2, h3, h4⟩
    exact ⟨row.toNat, by omega, column.toNat, by omega, Int.toNat_of_nonneg h1,
      Int.toNat_of_nonneg h3⟩

theorem count_empty_loop_eq (grid : Grid) :
    ∀ (cells : List (Int × Int)) (total : Int),
      count_empty_loop grid cells total
        = total + ((cells.filter fun cell => decide (grid cell.1 cell.2 = 0)).length : Int) := by
  intro cells
  induction cells with
  | nil => intro total; simp [count_empty_loop]
  | cons cell rest ih =>
    intro total
    obtain ⟨row, column⟩ := cell
    unfold count_empty_loop
    by_cases h : grid row column = 0
    · rw [if_pos h, ih, List.filter_cons_of_pos (by simpa using h), List.length_cons]
      push_cast
      ring
    · rw [if_neg h, ih, List.filter_cons_of_neg (by simpa using h)]

theorem count_empty_spots_pos (grid : Grid) :
    1 ≤ count_empty_spots grid ↔ ∃ r c, InGrid r c ∧ grid r c = 0 := by
  unfold count_empty_spots
  rw [count_empty_loop_eq, zero_add]
  constructor
  · intro h
    have hpos : 0 < (grid_cells.filter fun cell => decide (grid cell.1 cell.2 = 0)).length := by
      omega
    obtain ⟨cell, hcell⟩ := List.exists_mem_of_length_pos hpos
    rw [List.mem_filter] at hcell
    exact ⟨cell.1, cell.2, (mem_grid_cells _ _).1 hcell.1, by simpa using hcell.2⟩
  · rintro ⟨r, c, hin, hzero⟩
    have hmem : (r, c) ∈ grid_cells.filter fun cell => decide (grid cell.1 cell.2 = 0) :=
      List.mem_filter.2 ⟨(mem_grid_cells r c).2 hin, by simpa using hzero⟩
    have := List.length_pos_of_mem hmem
    omega

theorem count_empty_spots_nonneg (grid : Grid) : 0 ≤ count_empty_spots grid := by
  unfold count_empty_spots
  rw [count_empty_loop_eq, zero_add]
  exact Int.natCast_nonneg _

theorem generate_tile_loop_spec (tile_value : Int) :
    ∀ (cells : List (Int × Int)) (grid : Grid) (index : Int), 0 ≤ index →
      index < ((cells.filter fun cell => decide (grid cell.1 cell.2 = 0)).length : Int) →
      ∃ r c, (r, c) ∈ cells ∧ grid r c = 0 ∧
        generate_tile_loop tile_value cells grid index = set_tile grid r c tile_value := by
  intro cells
  induction cells with
  | nil =>
    intro grid index h0 h1
    simp only [List.filter_nil, List.length_nil, Nat.cast_zero] at h1
    omega
  | cons cell rest ih =>
    intro grid index h0 h1
    obtain ⟨row, column⟩ := cell
    unfold generate_tile_loop
    by_cases hz : grid row column = 0
    · rw [List.filter_cons_of_pos (by simpa using hz), List.length_cons] at h1
      push_cast at h1
      by_cases hi : index = 0
      · rw [if_neg (fun h => h.2 hi), if_pos ⟨hz, hi⟩]
        exact ⟨row, column, List.mem_cons_self _ _, hz, rfl⟩
      · rw [if_pos ⟨hz, hi⟩]
        obtain ⟨r, c, hmem, hzero, heq⟩ := ih grid (index - 1) (by omega) (by omega)
        exact ⟨r, c, List.mem_cons_of_mem _ hmem, hzero, heq⟩
    · rw [List.filter_cons_of_neg (by simpa using hz)] at h1
      rw [if_neg (fun h => hz h.1), if_neg (fun h => hz h.1)]
      obtain ⟨r, c, hmem, hzero, heq⟩ := ih grid index h0 h1
      exact ⟨r, c, List.mem_cons_of_mem _ hmem, hzero, heq⟩

theorem generate_tile_value_cases (is_random : Bool) (random : Nat) :
    generate_tile_value is_random random = 2 ∨ generate_tile_value is_random random = 4 := by
  unfold generate_tile_value
  split_ifs
  · exact Or.inl rfl
  · exact Or.inr rfl
  · exact Or.inl rfl

theorem generate_tile_spec (is_random : Bool) (index_random value_random : Nat) (g : Game)
    (hempty : 1 ≤ count_empty_spots g.grid) :
    ∃ r c v, InGrid r c ∧ g.grid r c = 0 ∧ (v = 2 ∨ v = 4) ∧
      generate_tile is_random index_random value_random g
        = some { score := g.score, grid := set_tile g.grid r c v } := by
  unfold generate_tile
  rw [if_neg (by omega)]
  have hcount : count_empty_spots g.grid
      = ((grid_cells.filter fun cell => decide (g.grid cell.1 cell.2 = 0)).length : Int) := by
    unfold count_empty_spots
    rw [count_empty_loop_eq, zero_add]
  obtain ⟨r, c, hmem, hzero, heq⟩ := generate_tile_loop_spec
    (generate_tile_value is_random value_random) grid_cells g.grid
    ((index_random : Int) % count_empty_spots g.grid) (Int.emod_nonneg _ (by omega))
    (by rw [← hcount]; exact Int.emod_lt_of_pos _ (by omega))
  exact ⟨r, c, _, (mem_grid_cells r c).1 hmem, hzero,
    generate_tile_value_cases is_random value_random, by rw [heq]⟩

theorem move_table_cases (move : Nat → Nat → Game → Option Game) (loop : Game → Game × Bool)
    (cell : Int → Int → Int × Int) (step start : Int)
    (hm : (move, loop, cell, step, start) ∈ move_table) :
    Walk step start ∧ DisjointLines cell ∧ CoversGrid cell ∧
      (∀ g, loop g = slide_lines cell step start line_indices g false) ∧
      ∀ i v g, move i v g = spawn_if_changed i v (loop g) := by
  simp only [move_table, List.mem_cons, Prod.mk.injEq, List.mem_singleton, List.not_mem_nil,
    or_false] at hm
  rcases hm with ⟨rfl, rfl, rfl, rfl, rfl⟩ | ⟨rfl, rfl, rfl, rfl, rfl⟩ |
    ⟨rfl, rfl, rfl, rfl, rfl⟩ | ⟨rfl, rfl, rfl, rfl, rfl⟩
  · exact ⟨Or.inl ⟨rfl, rfl⟩, column_cell_disjoint, column_cell_covers, fun _ => rfl,
      fun _ _ _ => rfl⟩
  · exact ⟨Or.inr ⟨rfl, rfl⟩, column_cell_disjoint, column_cell_covers, fun _ => rfl,
      fun _ _ _ => rfl⟩
  · exact ⟨Or.inl ⟨rfl, rfl⟩, row_cell_disjoint, row_cell_covers, fun _ => rfl,
      fun _ _ _ => rfl⟩
  · exact ⟨Or.inr ⟨rfl, rfl⟩, row_cell_disjoint, row_cell_covers, fun _ => rfl,
      fun _ _ _ => rfl⟩

/-! ## C15: sliding and merging to the left -/

/-- C15: the loops of `move_tiles_left` turn each row into its reference
collapse: tiles keep their order and are packed against the left edge, equal
neighbours merge pairwise from the left into their sum, and a merged tile does
not merge again; so `2 2 4 0` becomes `4 4 0 0` and `2 2 2 2` becomes
`4 4 0 0`. -/
theorem move_tiles_left_collapse (g : Game) (row : Int) (h0 : 0 ≤ row) (h3 : row ≤ 3) :
    row_tiles (move_tiles_left_loop g).1.grid row = collapse (row_tiles g.grid row) ∧
      collapse [2, 2, 4, 0] = [4, 4, 0, 0] ∧ collapse [2, 2, 2, 2] = [4, 4, 0, 0] := by
  refine ⟨?_, by decide, by decide⟩
  exact (move_loop_spec row_cell 1 0 (Or.inl ⟨rfl, rfl⟩) row_cell_disjoint row_cell_covers g).1
    row ((mem_line_indices row).2 ⟨h0, h3⟩)

/-- In `sample_game` the loops of `move_tiles_left` turn the row `2 2 2 2`
into `4 4 0 0`. -/
theorem move_tiles_left_collapse_witness :
    (0 : Int) ≤ 1 ∧ (1 : Int) ≤ 3 ∧
      row_tiles (move_tiles_left_loop sample_game).1.grid 1 = [4, 4, 0, 0] :=
  ⟨by decide, by decide,
    (move_tiles_left_collapse sample_game 1 (by decide) (by decide)).1.trans (by decide)⟩

/-! ## C17: the score -/

/-- C17: each of the four moves returns, and the score after it is the score
before plus the tiles made by merging in the lines of the move; with no merge
in any line the score stays as it was. -/
theorem score_after_move (move : Nat → Nat → Game → Option Game) (loop : Game → Game × Bool)
    (cell : Int → Int → Int × Int) (step start : Int)
    (hm : (move, loop, cell, step, start) ∈ move_table) (g : Game)
    (index_random value_random : Nat) :
    (∃ after, move index_random value_random g = some after ∧
      after.score = g.score + (line_indices.map fun l =>
        (merged_tiles ((line_tiles g.grid (cell l) step start).filter
          fun tile => decide (tile ≠ 0))).sum).sum) ∧
    ((∀ l ∈ line_indices, merged_tiles ((line_tiles g.grid (cell l) step start).filter
        fun tile => decide (tile ≠ 0)) = []) →
      ∃ after, move index_random value_random g = some after ∧ after.score = g.score) := by
  obtain ⟨hw, hdis, hcov, hloop, hmove⟩ := move_table_cases move loop cell step start hm
  obtain ⟨_, hscore, _, _, hzero⟩ := move_loop_spec cell step start hw hdis hcov g
  rw [← hloop] at hscore hzero
  have hsome : ∃ after, move index_random value_random g = some after ∧
      after.score = (loop g).1.score := by
    rw [hmove]
    unfold spawn_if_changed
    by_cases hch : (loop g).2 = true
    · rw [if_pos hch]
      obtain ⟨r, c, v, _, _, _, hgen⟩ := generate_tile_spec true index_random value_random
        (loop g).1 ((count_empty_spots_pos _).2 (hzero hch))
      exact ⟨_, hgen, rfl⟩
    · rw [if_neg hch]
      exact ⟨_, rfl, rfl⟩
  obtain ⟨after, hafter, hs⟩ := hsome
  have hsum : after.score = g.score + (line_indices.map fun l =>
      (merged_tiles ((line_tiles g.grid (cell l) step start).filter
        fun tile => decide (tile ≠ 0))).sum).sum := by
    rw [hs, hscore]
    rfl
  refine ⟨⟨after, hafter, hsum⟩, ?_⟩
  intro hnone
  refine ⟨after, hafter, ?_⟩
  rw [hsum, List.map_congr_left fun l hl => by rw [hnone l hl]]
  simp

/-- In `sample_game` a move to the left merges `2 2` into 4 four times and
`4 4` into 8 once: the score goes from 0 to 24. -/
theorem score_after_move_witness :
    (move_tiles_left, move_tiles_left_loop, row_cell, (1 : Int), (0 : Int)) ∈ move_table ∧
      ∃ after, move_tiles_left 7 3 sample_game = some after ∧ after.score = 24 := by
  have hm : (move_tiles_left, move_tiles_left_loop, row_cell, (1 : Int), (0 : Int)) ∈ move_table := by
    simp [move_table]
  obtain ⟨after, h1, h2⟩ := (score_after_move move_tiles_left move_tiles_left_loop row_cell 1 0
    hm sample_game 7 3).1
  refine ⟨hm, after, h1, h2.trans ?_⟩
  decide

/-! ## C18: the new tile -/

/-- C18: in each of the four moves the change flag is set exactly when the
loops changed a cell of the grid; the move then calls `generate_tile` on a grid
with at least one empty spot, and the call puts a 2 or a 4 on one empty cell
and leaves every other cell as the loops left it; with the flag clear the move
ends with the grid of the loops. -/
theorem spawn_after_change (move : Nat → Nat → Game → Option Game) (loop : Game → Game × Bool)
    (cell : Int → Int → Int × Int) (step start : Int)
    (hm : (move, loop, cell, step, start) ∈ move_table) (g : Game)
    (index_random value_random : Nat) :
    ((loop g).2 = true ↔ ¬ SameGrid (loop g).1.grid g.grid) ∧
    ((loop g).2 = false → move index_random value_random g = some (loop g).1) ∧
    ((loop g).2 = true →
      move index_random value_random g = generate_tile true index_random value_random (loop g).1 ∧
      1 ≤ count_empty_spots (loop g).1.grid ∧
      ∃ after r c, move index_random value_random g = some after ∧ InGrid r c ∧
        (loop g).1.grid r c = 0 ∧ (after.grid r c = 2 ∨ after.grid r c = 4) ∧
        ∀ r' c', ¬ (r' = r ∧ c' = c) → after.grid r' c' = (loop g).1.grid r' c') := by
  obtain ⟨hw, hdis, hcov, hloop, hmove⟩ := move_table_cases move loop cell step start hm
  obtain ⟨_, _, hflag, hsame, hzero⟩ := move_loop_spec cell step start hw hdis hcov g
  rw [← hloop] at hflag hsame hzero
  refine ⟨?_, ?_, ?_⟩
  · rw [hflag, hsame]
    constructor
    · rintro ⟨l, hl, hmoves⟩ hall
      rw [hall l hl] at hmoves
      exact absurd hmoves (by decide)
    · intro hnot
      by_contra hnone
      apply hnot
      intro l hl
      cases hmv : line_moves g.grid (cell l) step start
      · rfl
      · exact absurd ⟨l, hl, hmv⟩ hnone
  · intro hch
    rw [hmove]
    unfold spawn_if_changed
    rw [hch]
    rfl
  · intro hch
    have hspawn : move index_random value_random g
        = generate_tile true index_random value_random (loop g).1 := by
      rw [hmove]
      unfold spawn_if_changed
      rw [if_pos hch]
    have hempty := (count_empty_spots_pos _).2 (hzero hch)
    obtain ⟨r, c, v, hin, hz, hv, hgen⟩ := generate_tile_spec true index_random value_random
      (loop g).1 hempty
    refine ⟨hspawn, hempty, _, r, c, hspawn.trans hgen, hin, hz, ?_, ?_⟩
    · simp only [set_tile, and_self, if_true]
      exact hv
    · intro r' c' hne
      simp only [set_tile, if_neg hne]

/-- In `sample_game` a move to the left changes the grid, and the move ends
with a new tile. -/
theorem spawn_after_change_witness :
    (move_tiles_left, move_tiles_left_loop, row_cell, (1 : Int), (0 : Int)) ∈ move_table ∧
      (move_tiles_left_loop sample_game).2 = true ∧
      1 ≤ count_empty_spots (move_tiles_left_loop sample_game).1.grid := by
  have hm : (move_tiles_left, move_tiles_left_loop, row_cell, (1 : Int), (0 : Int)) ∈ move_table := by
    simp [move_table]
  have hch : (move_tiles_left_loop sample_game).2 = true := by decide
  exact ⟨hm, hch, ((spawn_after_change move_tiles_left move_tiles_left_loop row_cell 1 0 hm
    sample_game 7 3).2.2 hch).2.1⟩

/-! ## C16: game over -/

theorem mem_horizontal_pairs (row column : Int) :
    (row, column) ∈ horizontal_pairs ↔ 0 ≤ row ∧ row ≤ 3 ∧ 0 ≤ column ∧ column ≤ 2 := by
  unfold horizontal_pairs
  simp only [List.mem_flatMap, List.mem_map, List.mem_range, Prod.mk.injEq]
  constructor
  · rintro ⟨r, hr, c, hc, rfl, rfl⟩
    omega
  · rintro ⟨h1, h2, h3, h4⟩
    exact ⟨row.toNat, by omega, column.toNat, by omega, Int.toNat_of_nonneg h1,
      Int.toNat_of_nonneg h3⟩

theorem mem_vertical_pairs (row column : Int) :
    (row, column) ∈ vertical_pairs ↔ 0 ≤ row ∧ row ≤ 2 ∧ 0 ≤ column ∧ column ≤ 3 := by
  unfold vertical_pairs
  simp only [List.mem_flatMap, List.mem_map, List.mem_range, Prod.mk.injEq]
  constructor
  · rintro ⟨c, hc, r, hr, rfl, rfl⟩
    omega
  · rintro ⟨h1, h2, h3, h4⟩
    exact ⟨column.toNat, by omega, row.toNat, by omega, Int.toNat_of_nonneg h1,
      Int.toNat_of_nonneg h3⟩

theorem check_game_status_iff (grid : Grid) :
    check_game_status grid = true ↔
      (∀ r c, InGrid r c → grid r c ≠ 0) ∧
      (∀ r c, 0 ≤ r → r ≤ 3 → 0 ≤ c → c ≤ 2 → grid r c ≠ grid r (c + 1)) ∧
      (∀ r c, 0 ≤ r → r ≤ 2 → 0 ≤ c → c ≤ 3 → grid r c ≠ grid (r + 1) c) := by
  have hfull : count_empty_spots grid ≠ 0 ↔ ¬ ∀ r c, InGrid r c → grid r c ≠ 0 := by
    have hpos := count_empty_spots_pos grid
    have hnn := count_empty_spots_nonneg grid
    constructor
    · intro hne hall
      obtain ⟨r, c, hin, hz⟩ := hpos.1 (by omega)
      exact hall r c hin hz
    · intro hnot hzero
      apply hnot
      intro r c hin hz
      have := hpos.2 ⟨r, c, hin, hz⟩
      omega
  have hrow : (horizontal_pairs.any fun cell =>
      decide (grid cell.1 cell.2 = grid cell.1 (cell.2 + 1))) = true ↔
      ¬ ∀ r c, 0 ≤ r → r ≤ 3 → 0 ≤ c → c ≤ 2 → grid r c ≠ grid r (c + 1) := by
    rw [List.any_eq_true]
    constructor
    · rintro ⟨⟨r, c⟩, hmem, heq⟩ hall
      obtain ⟨h1, h2, h3, h4⟩ := (mem_horizontal_pairs r c).1 hmem
      exact hall r c h1 h2 h3 h4 (by simpa using heq)
    · intro hnot
      by_contra hnone
      apply hnot
      intro r c h1 h2 h3 h4 heq
      exact hnone ⟨(r, c), (mem_horizontal_pairs r c).2 ⟨h1, h2, h3, h4⟩, by simpa using heq⟩
  have hcol : (vertical_pairs.any fun cell =>
      decide (grid cell.1 cell.2 = grid (cell.1 + 1) cell.2)) = true ↔
      ¬ ∀ r c, 0 ≤ r → r ≤ 2 → 0 ≤ c → c ≤ 3 → grid r c ≠ grid (r + 1) c := by
    rw [List.any_eq_true]
    constructor
    · rintro ⟨⟨r, c⟩, hmem, heq⟩ hall
      obtain ⟨h1, h2, h3, h4⟩ := (mem_vertical_pairs r c).1 hmem
      exact hall r c h1 h2 h3 h4 (by simpa using heq)
    · intro hnot
      by_contra hnone
      apply hnot
      intro r c h1 h2 h3 h4 heq
      exact hnone ⟨(r, c), (mem_vertical_pairs r c).2 ⟨h1, h2, h3, h4⟩, by simpa using heq⟩
  unfold check_game_status
  by_cases h1 : count_empty_spots grid ≠ 0
  · rw [if_pos h1]
    constructor
    · intro h
      exact absurd h (by decide)
    · intro h
      exact absurd h.1 (hfull.1 h1)
  · rw [if_neg h1]
    have h1' : ∀ r c, InGrid r c → grid r c ≠ 0 := by
      by_contra hcon
      exact h1 (hfull.2 hcon)
    by_cases h2 : (horizontal_pairs.any fun cell =>
        decide (grid cell.1 cell.2 = grid cell.1 (cell.2 + 1))) = true
    · rw [if_pos h2]
      constructor
      · intro h
        exact absurd h (by decide)
      · intro h
        exact absurd h.2.1 (hrow.1 h2)
    · rw [if_neg h2]
      have h2' : ∀ r c, 0 ≤ r → r ≤ 3 → 0 ≤ c → c ≤ 2 → grid r c ≠ grid r (c + 1) := by
        by_contra hcon
        exact h2 (hrow.2 hcon)
      by_cases h3 : (vertical_pairs.any fun cell =>
          decide (grid cell.1 cell.2 = grid (cell.1 + 1) cell.2)) = true
      · rw [if_pos h3]
        constructor
        · intro h
          exact absurd h (by decide)
        · intro h
          exact absurd h.2.2 (hcol.1 h3)
      · rw [if_neg h3]
        have h3' : ∀ r c, 0 ≤ r → r ≤ 2 → 0 ≤ c → c ≤ 3 → grid r c ≠ grid (r + 1) c := by
          by_contra hcon
          exact h3 (hcol.2 hcon)
        exact ⟨fun _ => ⟨h1', h2', h3'⟩, fun _ => rfl⟩

theorem same_iff_stable (cell : Int → Int → Int × Int) (step start : Int) (hw : Walk step start)
    (hdis : DisjointLines cell) (hcov : CoversGrid cell) (g : Game) :
    SameGrid (slide_lines cell step start line_indices g false).1.grid g.grid ↔
      ∀ l : Int, 0 ≤ l → l ≤ 3 →
        StableLine (g.grid (cell l start).1 (cell l start).2)
          (g.grid (cell l (start + step)).1 (cell l (start + step)).2)
          (g.grid (cell l (start + step + step)).1 (cell l (start + step + step)).2)
          (g.grid (cell l (start + step + step + step)).1
            (cell l (start + step + step + step)).2) := by
  rw [(move_loop_spec cell step start hw hdis hcov g).2.2.2.1]
  have hline : ∀ l, line_moves g.grid (cell l) step start = false ↔
      StableLine (g.grid (cell l start).1 (cell l start).2)
        (g.grid (cell l (start + step)).1 (cell l (start + step)).2)
        (g.grid (cell l (start + step + step)).1 (cell l (start + step + step)).2)
        (g.grid (cell l (start + step + step + step)).1
          (cell l (start + step + step + step)).2) := by
    intro l
    unfold line_moves
    rw [decide_eq_false_iff_not, not_not]
    exact (collapse_cases _ _ _ _).1
  constructor
  · intro h l hl0 hl3
    exact (hline l).1 (h l ((mem_line_indices l).2 ⟨hl0, hl3⟩))
  · intro h l hl
    exact (hline l).2 (h l ((mem_line_indices l).1 hl).1 ((mem_line_indices l).1 hl).2)

/-! ## The sum of the tiles -/

theorem grid_sum_eq (grid : Grid) :
    grid_sum grid = grid 0 0 + grid 0 1 + grid 0 2 + grid 0 3 + grid 1 0 + grid 1 1 + grid 1 2
      + grid 1 3 + grid 2 0 + grid 2 1 + grid 2 2 + grid 2 3 + grid 3 0 + grid 3 1 + grid 3 2
      + grid 3 3 := by
  have h : grid_sum grid = grid 0 0 + (grid 0 1 + (grid 0 2 + (grid 0 3 + (grid 1 0 + (grid 1 1
      + (grid 1 2 + (grid 1 3 + (grid 2 0 + (grid 2 1 + (grid 2 2 + (grid 2 3 + (grid 3 0
      + (grid 3 1 + (grid 3 2 + (grid 3 3 + 0))))))))))))))) := rfl
  rw [h]
  ring

theorem grid_sum_congr (g h : Grid) (hsame : SameGrid g h) : grid_sum g = grid_sum h := by
  unfold grid_sum
  rw [List.map_congr_left fun cell hc => hsame cell.1 cell.2 ((mem_grid_cells _ _).1 hc)]

theorem grid_sum_set_tile (grid : Grid) (r c v : Int) (hin : InGrid r c) :
    grid_sum (set_tile grid r c v) = grid_sum grid - grid r c + v := by
  obtain ⟨h1, h2, h3, h4⟩ := hin
  have hr : r = 0 ∨ r = 1 ∨ r = 2 ∨ r = 3 := by omega
  have hc : c = 0 ∨ c = 1 ∨ c = 2 ∨ c = 3 := by omega
  rw [grid_sum_eq, grid_sum_eq]
  rcases hr with rfl | rfl | rfl | rfl <;> rcases hc with rfl | rfl | rfl | rfl <;>
    simp [set_tile] <;> ring

theorem collapse_sum (a b c d : Int) : (collapse [a, b, c, d]).sum = [a, b, c, d].sum := by
  rcases prop_cases (a = 0) with ⟨ha, ta⟩ | ⟨ha, ta⟩ <;>
  rcases prop_cases (b = 0) with ⟨hb, tb⟩ | ⟨hb, tb⟩ <;>
  rcases prop_cases (a = b) with ⟨hab, tab⟩ | ⟨hab, tab⟩ <;>
  (try (exfalso; omega)) <;>
  rcases prop_cases (c = 0) with ⟨hc, tc⟩ | ⟨hc, tc⟩ <;>
  rcases prop_cases (a = c) with ⟨hac, tac⟩ | ⟨hac, tac⟩ <;>
  rcases prop_cases (b = c) with ⟨hbc, tbc⟩ | ⟨hbc, tbc⟩ <;>
  (try (exfalso; omega)) <;>
  rcases prop_cases (d = 0) with ⟨hd, td⟩ | ⟨hd, td⟩ <;>
  rcases prop_cases (a = d) with ⟨had, tad⟩ | ⟨had, tad⟩ <;>
  rcases prop_cases (b = d) with ⟨hbd, tbd⟩ | ⟨hbd, tbd⟩ <;>
  rcases prop_cases (c = d) with ⟨hcd, tcd⟩ | ⟨hcd, tcd⟩ <;>
  (try (exfalso; omega)) <;>
  simp only [ta, tb, tc, td, tab, tbc, tcd, tac, tbd, tad, ne_eq, not_true_eq_false,
      not_false_eq_true, if_true, if_false, collapse, merge_pairs, List.filter,
      decide_not, decide_eq_true_eq, decide_True, decide_False, Bool.not_true, Bool.not_false,
      List.length_cons, List.length_nil, List.cons_append, List.nil_append, zero_add,
      Nat.reduceAdd, Nat.reduceSub, List.replicate_succ, List.replicate_zero, List.append_nil,
      List.sum_cons, List.sum_nil] <;>
  omega

theorem move_table_fill (move : Nat → Nat → Game → Option Game) (loop : Game → Game × Bool)
    (cell : Int → Int → Int × Int) (step start : Int)
    (hm : (move, loop, cell, step, start) ∈ move_table) : LinesFill cell step start := by
  simp only [move_table, List.mem_cons, Prod.mk.injEq, List.mem_singleton, List.not_mem_nil,
    or_false] at hm
  rcases hm with ⟨_, _, rfl, rfl, rfl⟩ | ⟨_, _, rfl, rfl, rfl⟩ |
    ⟨_, _, rfl, rfl, rfl⟩ | ⟨_, _, rfl, rfl, rfl⟩
  all_goals
    intro grid
    rw [grid_sum_eq]
    simp only [line_tiles, row_cell, column_cell, List.sum_cons, List.sum_nil]
    norm_num
    ring

theorem loop_keeps_sum (cell : Int → Int → Int × Int) (step start : Int) (hw : Walk step start)
    (hdis : DisjointLines cell) (hcov : CoversGrid cell) (hfill : LinesFill cell step start)
    (g : Game) :
    grid_sum (slide_lines cell step start line_indices g false).1.grid = grid_sum g.grid := by
  obtain ⟨s1, _⟩ := move_loop_spec cell step start hw hdis hcov g
  have hline : ∀ l ∈ line_indices,
      (line_tiles (slide_lines cell step start line_indices g false).1.grid (cell l) step
        start).sum = (line_tiles g.grid (cell l) step start).sum := by
    intro l hl
    rw [s1 l hl]
    unfold line_tiles
    exact collapse_sum _ _ _ _
  rw [← hfill, ← hfill, hline 0 (by simp [line_indices]), hline 1 (by simp [line_indices]),
    hline 2 (by simp [line_indices]), hline 3 (by simp [line_indices])]

/-- A move whose loops changed the grid ends with a grid that differs from
the one it started from. -/
theorem spawn_changes_grid (move : Nat → Nat → Game → Option Game) (loop : Game → Game × Bool)
    (cell : Int → Int → Int × Int) (step start : Int)
    (hm : (move, loop, cell, step, start) ∈ move_table) (g : Game)
    (index_random value_random : Nat) (hch : (loop g).2 = true) :
    ∃ after, move index_random value_random g = some after ∧ ¬ SameGrid after.grid g.grid := by
  obtain ⟨hw, hdis, hcov, hloop, hmove⟩ := move_table_cases move loop cell step start hm
  have hfill := move_table_fill move loop cell step start hm
  obtain ⟨_, _, _, _, hzero⟩ := move_loop_spec cell step start hw hdis hcov g
  have hsum := loop_keeps_sum cell step start hw hdis hcov hfill g
  rw [← hloop] at hzero hsum
  obtain ⟨r, c, v, hin, hz, hv, hgen⟩ := generate_tile_spec true index_random value_random
    (loop g).1 ((count_empty_spots_pos _).2 (hzero hch))
  refine ⟨{ score := (loop g).1.score, grid := set_tile (loop g).1.grid r c v }, ?_, ?_⟩
  · rw [hmove]
    unfold spawn_if_changed
    rw [if_pos hch]
    exact hgen
  · intro hsame
    have h1 := grid_sum_congr _ _ hsame
    simp only at h1
    rw [grid_sum_set_tile _ _ _ _ hin, hz, hsum] at h1
    omega

theorem loop_flag_iff (move : Nat → Nat → Game → Option Game) (loop : Game → Game × Bool)
    (cell : Int → Int → Int × Int) (step start : Int)
    (hm : (move, loop, cell, step, start) ∈ move_table) (g : Game) :
    (loop g).2 = false ↔ SameGrid (loop g).1.grid g.grid := by
  obtain ⟨hw, hdis, hcov, hloop, _⟩ := move_table_cases move loop cell step start hm
  obtain ⟨_, _, hflag, hsame, _⟩ := move_loop_spec cell step start hw hdis hcov g
  rw [← hloop] at hflag hsame
  rw [hsame]
  constructor
  · intro hfalse l hl
    cases hmv : line_moves g.grid (cell l) step start
    · rfl
    · have := hflag.2 ⟨l, hl, hmv⟩
      rw [hfalse] at this
      exact absurd this (by decide)
  · intro hall
    cases hfl : (loop g).2
    · rfl
    · obtain ⟨l, hl, hmv⟩ := hflag.1 hfl
      rw [hall l hl] at hmv
      exact absurd hmv (by decide)

theorem stable_line_all_tiles (a b c d : Int) (h : StableLine a b c d) (h' : StableLine d c b a)
    (hsome : a ≠ 0 ∨ b ≠ 0 ∨ c ≠ 0 ∨ d ≠ 0) : a ≠ 0 ∧ b ≠ 0 ∧ c ≠ 0 ∧ d ≠ 0 := by
  unfold StableLine at h h'
  obtain ⟨f1, f2, f3, _, _, _⟩ := h
  obtain ⟨b1, b2, b3, _, _, _⟩ := h'
  by_cases ha : a = 0
  · have hb := f1 ha
    have hc := f2 hb
    have hd := f3 hc
    rcases hsome with h | h | h | h
    · exact absurd ha h
    · exact absurd hb h
    · exact absurd hc h
    · exact absurd hd h
  · have hb : b ≠ 0 := fun h => ha (b3 h)
    have hc : c ≠ 0 := fun h => hb (b2 h)
    have hd : d ≠ 0 := fun h => hc (b1 h)
    exact ⟨ha, hb, hc, hd⟩

theorem stable_line_of_full (a b c d : Int) (ha : a ≠ 0) (hb : b ≠ 0) (hc : c ≠ 0)
    (hab : a ≠ b) (hbc : b ≠ c) (hcd : c ≠ d) : StableLine a b c d :=
  ⟨fun h => absurd h ha, fun h => absurd h hb, fun h => absurd h hc, fun _ => hab, fun _ => hbc,
    fun _ => hcd⟩

theorem rows_stable_iff (g : Game) :
    (SameGrid (move_tiles_left_loop g).1.grid g.grid ↔
      ∀ l : Int, 0 ≤ l → l ≤ 3 → StableLine (g.grid l 0) (g.grid l 1) (g.grid l 2) (g.grid l 3)) ∧
    (SameGrid (move_tiles_right_loop g).1.grid g.grid ↔
      ∀ l : Int, 0 ≤ l → l ≤ 3 → StableLine (g.grid l 3) (g.grid l 2) (g.grid l 1) (g.grid l 0)) :=
  ⟨same_iff_stable row_cell 1 0 (Or.inl ⟨rfl, rfl⟩) row_cell_disjoint row_cell_covers g,
    same_iff_stable row_cell (-1) 3 (Or.inr ⟨rfl, rfl⟩) row_cell_disjoint row_cell_covers g⟩

theorem columns_stable_iff (g : Game) :
    (SameGrid (move_tiles_up_loop g).1.grid g.grid ↔
      ∀ l : Int, 0 ≤ l → l ≤ 3 → StableLine (g.grid 0 l) (g.grid 1 l) (g.grid 2 l) (g.grid 3 l)) ∧
    (SameGrid (move_tiles_down_loop g).1.grid g.grid ↔
      ∀ l : Int, 0 ≤ l → l ≤ 3 → StableLine (g.grid 3 l) (g.grid 2 l) (g.grid 1 l) (g.grid 0 l)) :=
  ⟨same_iff_stable column_cell 1 0 (Or.inl ⟨rfl, rfl⟩) column_cell_disjoint column_cell_covers g,
    same_iff_stable column_cell (-1) 3 (Or.inr ⟨rfl, rfl⟩) column_cell_disjoint
      column_cell_covers g⟩

/-- C16: on a grid with at least one tile, `check_game_status` returns true
exactly when the loops of none of the four moves change a cell of the grid,
and exactly when each of the four moves returns with the sixteen cells as
they were. -/
theorem game_over_iff_no_move (g : Game) (htile : ∃ r c, InGrid r c ∧ g.grid r c ≠ 0) :
    (check_game_status g.grid = true ↔
      ∀ move loop cell step start, (move, loop, cell, step, start) ∈ move_table →
        SameGrid (loop g).1.grid g.grid) ∧
    (check_game_status g.grid = true ↔
      ∀ move loop cell step start, (move, loop, cell, step, start) ∈ move_table →
        ∀ index_random value_random : Nat, ∃ after,
          move index_random value_random g = some after ∧ SameGrid after.grid g.grid) := by
  have hwhole : (∀ move loop cell step start, (move, loop, cell, step, start) ∈ move_table →
        SameGrid (loop g).1.grid g.grid) ↔
      ∀ move loop cell step start, (move, loop, cell, step, start) ∈ move_table →
        ∀ index_random value_random : Nat, ∃ after,
          move index_random value_random g = some after ∧ SameGrid after.grid g.grid := by
    constructor
    · intro h move loop cell step start hm i v
      have hsame := h move loop cell step start hm
      have hflag := (loop_flag_iff move loop cell step start hm g).2 hsame
      refine ⟨(loop g).1, ?_, hsame⟩
      rw [(move_table_cases move loop cell step start hm).2.2.2.2]
      unfold spawn_if_changed
      rw [hflag]
      rfl
    · intro h move loop cell step start hm
      apply (loop_flag_iff move loop cell step start hm g).1
      cases hfl : (loop g).2
      · rfl
      · obtain ⟨after, h1, h2⟩ := spawn_changes_grid move loop cell step start hm g 0 0 hfl
        obtain ⟨after', h1', h2'⟩ := h move loop cell step start hm 0 0
        rw [h1, Option.some.injEq] at h1'
        rw [h1'] at h2
        exact absurd h2' h2
  suffices hloops : check_game_status g.grid = true ↔
      ∀ move loop cell step start, (move, loop, cell, step, start) ∈ move_table →
        SameGrid (loop g).1.grid g.grid from ⟨hloops, hloops.trans hwhole⟩
  obtain ⟨hL, hR⟩ := rows_stable_iff g
  obtain ⟨hU, hD⟩ := columns_stable_iff g
  have htable : (∀ move loop cell step start, (move, loop, cell, step, start) ∈ move_table →
      SameGrid (loop g).1.grid g.grid) ↔
      (SameGrid (move_tiles_up_loop g).1.grid g.grid ∧
       SameGrid (move_tiles_down_loop g).1.grid g.grid ∧
       SameGrid (move_tiles_left_loop g).1.grid g.grid ∧
       SameGrid (move_tiles_right_loop g).1.grid g.grid) := by
    constructor
    · intro h
      exact ⟨h move_tiles_up _ column_cell 1 0 (by simp [move_table]),
        h move_tiles_down _ column_cell (-1) 3 (by simp [move_table]),
        h move_tiles_left _ row_cell 1 0 (by simp [move_table]),
        h move_tiles_right _ row_cell (-1) 3 (by simp [move_table])⟩
    · rintro ⟨h1, h2, h3, h4⟩ move loop cell step start hm
      simp only [move_table, List.mem_cons, Prod.mk.injEq, List.mem_singleton, List.not_mem_nil,
        or_false] at hm
      rcases hm with ⟨_, rfl, _⟩ | ⟨_, rfl, _⟩ | ⟨_, rfl, _⟩ | ⟨_, rfl, _⟩
      · exact h1
      · exact h2
      · exact h3
      · exact h4
  rw [htable, hL, hR, hU, hD, check_game_status_iff]
  constructor
  · rintro ⟨hfull, hrow, hcol⟩
    have e1 : (0 : Int) + 1 = 1 := rfl
    have e2 : (1 : Int) + 1 = 2 := rfl
    have e3 : (2 : Int) + 1 = 3 := rfl
    refine ⟨?_, ?_, ?_, ?_⟩
    · intro l hl0 hl3
      have h01 := hcol 0 l (by norm_num) (by norm_num) hl0 hl3
      have h12 := hcol 1 l (by norm_num) (by norm_num) hl0 hl3
      have h23 := hcol 2 l (by norm_num) (by norm_num) hl0 hl3
      rw [e1] at h01
      rw [e2] at h12
      rw [e3] at h23
      exact stable_line_of_full _ _ _ _ (hfull 0 l ⟨by norm_num, by norm_num, hl0, hl3⟩)
        (hfull 1 l ⟨by norm_num, by norm_num, hl0, hl3⟩)
        (hfull 2 l ⟨by norm_num, by norm_num, hl0, hl3⟩) h01 h12 h23
    · intro l hl0 hl3
      have h01 := hcol 0 l (by norm_num) (by norm_num) hl0 hl3
      have h12 := hcol 1 l (by norm_num) (by norm_num) hl0 hl3
      have h23 := hcol 2 l (by norm_num) (by norm_num) hl0 hl3
      rw [e1] at h01
      rw [e2] at h12
      rw [e3] at h23
      exact stable_line_of_full _ _ _ _ (hfull 3 l ⟨by norm_num, by norm_num, hl0, hl3⟩)
        (hfull 2 l ⟨by norm_num, by norm_num, hl0, hl3⟩)
        (hfull 1 l ⟨by norm_num, by norm_num, hl0, hl3⟩) (Ne.symm h23) (Ne.symm h12)
        (Ne.symm h01)
    · intro l hl0 hl3
      have h01 := hrow l 0 hl0 hl3 (by norm_num) (by norm_num)
      have h12 := hrow l 1 hl0 hl3 (by norm_num) (by norm_num)
      have h23 := hrow l 2 hl0 hl3 (by norm_num) (by norm_num)
      rw [e1] at h01
      rw [e2] at h12
      rw [e3] at h23
      exact stable_line_of_full _ _ _ _ (hfull l 0 ⟨hl0, hl3, by norm_num, by norm_num⟩)
        (hfull l 1 ⟨hl0, hl3, by norm_num, by norm_num⟩)
        (hfull l 2 ⟨hl0, hl3, by norm_num, by norm_num⟩) h01 h12 h23
    · intro l hl0 hl3
      have h01 := hrow l 0 hl0 hl3 (by norm_num) (by norm_num)
      have h12 := hrow l 1 hl0 hl3 (by norm_num) (by norm_num)
      have h23 := hrow l 2 hl0 hl3 (by norm_num) (by norm_num)
      rw [e1] at h01
      rw [e2] at h12
      rw [e3] at h23
      exact stable_line_of_full _ _ _ _ (hfull l 3 ⟨hl0, hl3, by norm_num, by norm_num⟩)
        (hfull l 2 ⟨hl0, hl3, by norm_num, by norm_num⟩)
        (hfull l 1 ⟨hl0, hl3, by norm_num, by norm_num⟩) (Ne.symm h23) (Ne.symm h12)
        (Ne.symm h01)
  · rintro ⟨hup, hdown, hleft, hright⟩
    obtain ⟨r0, c0, ⟨hr0, hr3, hc0, hc3⟩, hne⟩ := htile
    have hrow0 : g.grid r0 0 ≠ 0 ∧ g.grid r0 1 ≠ 0 ∧ g.grid r0 2 ≠ 0 ∧ g.grid r0 3 ≠ 0 := by
      apply stable_line_all_tiles _ _ _ _ (hleft r0 hr0 hr3) (hright r0 hr0 hr3)
      have hc : c0 = 0 ∨ c0 = 1 ∨ c0 = 2 ∨ c0 = 3 := by omega
      rcases hc with rfl | rfl | rfl | rfl
      · exact Or.inl hne
      · exact Or.inr (Or.inl hne)
      · exact Or.inr (Or.inr (Or.inl hne))
      · exact Or.inr (Or.inr (Or.inr hne))
    have hcolumn : ∀ c : Int, 0 ≤ c → c ≤ 3 →
        g.grid 0 c ≠ 0 ∧ g.grid 1 c ≠ 0 ∧ g.grid 2 c ≠ 0 ∧ g.grid 3 c ≠ 0 := by
      intro c hc0' hc3'
      apply stable_line_all_tiles _ _ _ _ (hup c hc0' hc3') (hdown c hc0' hc3')
      have hrc : g.grid r0 c ≠ 0 := by
        have hc : c = 0 ∨ c = 1 ∨ c = 2 ∨ c = 3 := by omega
        rcases hc with rfl | rfl | rfl | rfl
        · exact hrow0.1
        · exact hrow0.2.1
        · exact hrow0.2.2.1
        · exact hrow0.2.2.2
      have hr : r0 = 0 ∨ r0 = 1 ∨ r0 = 2 ∨ r0 = 3 := by omega
      rcases hr with rfl | rfl | rfl | rfl
      · exact Or.inl hrc
      · exact Or.inr (Or.inl hrc)
      · exact Or.inr (Or.inr (Or.inl hrc))
      · exact Or.inr (Or.inr (Or.inr hrc))
    have hfull : ∀ r c, InGrid r c → g.grid r c ≠ 0 := by
      rintro r c ⟨h1, h2, h3, h4⟩
      have hr : r = 0 ∨ r = 1 ∨ r = 2 ∨ r = 3 := by omega
      rcases hr with rfl | rfl | rfl | rfl
      · exact (hcolumn c h3 h4).1
      · exact (hcolumn c h3 h4).2.1
      · exact (hcolumn c h3 h4).2.2.1
      · exact (hcolumn c h3 h4).2.2.2
    refine ⟨hfull, ?_, ?_⟩
    · intro r c h1 h2 h3 h4
      obtain ⟨_, _, _, s1, s2, s3⟩ := hleft r h1 h2
      have hc : c = 0 ∨ c = 1 ∨ c = 2 := by omega
      rcases hc with rfl | rfl | rfl
      · exact s1 (hfull r 0 ⟨h1, h2, by norm_num, by norm_num⟩)
      · exact s2 (hfull r 1 ⟨h1, h2, by norm_num, by norm_num⟩)
      · exact s3 (hfull r 2 ⟨h1, h2, by norm_num, by norm_num⟩)
    · intro r c h1 h2 h3 h4
      obtain ⟨_, _, _, s1, s2, s3⟩ := hup c h3 h4
      have hr : r = 0 ∨ r = 1 ∨ r = 2 := by omega
      rcases hr with rfl | rfl | rfl
      · exact s1 (hfull 0 c ⟨by norm_num, by norm_num, h3, h4⟩)
      · exact s2 (hfull 1 c ⟨by norm_num, by norm_num, h3, h4⟩)
      · exact s3 (hfull 2 c ⟨by norm_num, by norm_num, h3, h4⟩)

/-- In `stuck_game` every spot holds a tile and no two neighbours are equal:
the game is over, and no move changes the grid. -/
theorem game_over_iff_no_move_witness :
    (∃ r c, InGrid r c ∧ stuck_game.grid r c ≠ 0) ∧ check_game_status stuck_game.grid = true ∧
      SameGrid (move_tiles_left_loop stuck_game).1.grid stuck_game.grid := by
  have htile : ∃ r c, InGrid r c ∧ stuck_game.grid r c ≠ 0 := ⟨0, 0, ⟨le_refl _, by norm_num, le_refl _, by norm_num⟩, by decide⟩
  have hover : check_game_status stuck_game.grid = true := by decide
  exact ⟨htile, hover, (game_over_iff_no_move stuck_game htile).1.1 hover move_tiles_left
    move_tiles_left_loop row_cell 1 0 (by simp [move_table])⟩

end Game2048

namespace Snake

/-! ## C24: the death check -/

theorem check_snake_nodes_eq (new_position : Int × Int) :
    ∀ (nodes : List (Int × Int)), nodes ≠ [] →
      check_snake_nodes nodes new_position = some (decide (new_position ∉ nodes.dropLast)) := by
  intro nodes
  induction nodes with
  | nil => intro h; exact absurd rfl h
  | cons node rest ih =>
    intro _
    cases rest with
    | nil => simp [check_snake_nodes]
    | cons next rest' =>
      have hrec := ih (List.cons_ne_nil next rest')
      unfold check_snake_nodes
      rw [hrec, List.dropLast_cons₂]
      by_cases h1 : node.1 = new_position.1
      · by_cases h2 : node.2 = new_position.2
        · have : new_position = node := Prod.ext h1.symm h2.symm
          rw [if_pos h1, if_pos h2]
          simp [this]
        · rw [if_pos h1, if_neg h2]
          have hne : ¬ new_position = node := fun h => h2 (by rw [h])
          simp [hne]
      · rw [if_neg h1]
        have hne : ¬ new_position = node := fun h => h1 (by rw [h])
        simp [hne]

/-- C24: for a snake with at least one node `check_snake_state` returns, and it
returns false exactly when the snake is moving, is not teleporting, and the
next head position of `locate_new_snake_head` is on line 4 or 20, on column 20
or 51, or is the position of a node other than the last one; otherwise it
returns true. -/
theorem check_snake_state_spec (g : Game) (uninitialised : Int × Int) (hsnake : g.snake ≠ []) :
    (check_snake_state g uninitialised = some false ∨
      check_snake_state g uninitialised = some true) ∧
    (check_snake_state g uninitialised = some false ↔
      g.snake_movement ≠ snake_direction.STILL ∧ g.is_snake_teleporting = false ∧
        ∃ new_position, locate_new_snake_head g uninitialised = some new_position ∧
          (new_position.1 = 4 ∨ new_position.1 = 20 ∨ new_position.2 = 20 ∨ new_position.2 = 51
            ∨ new_position ∈ g.snake.dropLast)) := by
  have hloc : ∃ new_position, locate_new_snake_head g uninitialised = some new_position := by
    unfold locate_new_snake_head
    cases hs : g.snake with
    | nil => exact absurd hs hsnake
    | cons head rest => cases g.snake_movement <;> exact ⟨_, rfl⟩
  obtain ⟨new_position, hnew⟩ := hloc
  unfold check_snake_state
  by_cases hmove : g.snake_movement ≠ snake_direction.STILL ∧ g.is_snake_teleporting = false
  · rw [if_pos hmove, hnew]
    simp only [Option.some.injEq, exists_eq_left']
    by_cases hl : new_position.1 = 4 ∨ new_position.1 = 20
    · rw [if_pos hl]
      refine ⟨Or.inl rfl, fun _ => ⟨hmove.1, hmove.2, ?_⟩, fun _ => rfl⟩
      rcases hl with h | h
      · exact Or.inl h
      · exact Or.inr (Or.inl h)
    · rw [if_neg hl]
      by_cases hc : new_position.2 = 20 ∨ new_position.2 = 51
      · rw [if_pos hc]
        refine ⟨Or.inl rfl, fun _ => ⟨hmove.1, hmove.2, ?_⟩, fun _ => rfl⟩
        rcases hc with h | h
        · exact Or.inr (Or.inr (Or.inl h))
        · exact Or.inr (Or.inr (Or.inr (Or.inl h)))
      · rw [if_neg hc, check_snake_nodes_eq new_position g.snake hsnake]
        simp only [not_or] at hl hc
        by_cases hmem : new_position ∈ g.snake.dropLast
        · simp [hmem, hmove.1, hmove.2]
        · simp [hmem, hmove.1, hmove.2, hl.1, hl.2, hc.1, hc.2]
  · rw [if_neg hmove]
    refine ⟨Or.inr rfl, fun h => absurd h (by simp), fun h => absurd ⟨h.1, h.2.1⟩ hmove⟩

/-- A move to the left puts the head of `curled_snake` on (12,27), the
position of its fourth node: `check_snake_state` returns false. -/
theorem check_snake_state_spec_witness :
    curled_snake.snake ≠ [] ∧ check_snake_state curled_snake (0, 0) = some false ∧
      locate_new_snake_head curled_snake (0, 0) = some (12, 27) ∧
      ((12 : Int), (27 : Int)) ∈ curled_snake.snake.dropLast := by
  have hne : curled_snake.snake ≠ [] := by decide
  refine ⟨hne, ?_, by decide, by decide⟩
  exact (check_snake_state_spec curled_snake (0, 0) hne).2.2
    ⟨by decide, by decide, (12, 27), by decide, by decide⟩

end Snake
